import Mathlib

/-!
# Sub-issue hierarchy (`models/issues/parent_issue.go`)

A shallow embedding of the parent/sub-issue engine.

* The `issue` table is a list of rows `(id, parent_id)` kept in `created_unix`
  order; the store is threaded through every operation as a `World`.
* A Go `*Issue` is an `Issue` value.  The objects held in the caches
  (`ParentIssue`, `SubIssues`) are created by `GetIssueByID` / `Find` and are
  referenced only from the cache slot that holds them, so a cached object is an
  owned sub-value of the object that caches it.  The receiver and the `parent`
  argument of `UpdateParentIssue` are two distinct objects.
* The loops of `LookupRootIssue` and the recursion of `CountSubIssues` take a
  fuel argument; the result `none` stands for "did not return within fuel".

Three smaller units follow the definitions of the engine, each in its own namespace:
the path hierarchy tokenizer (`Hierarchy`, bytes as natural numbers, the loop of
`Tokenize` with fuel), `MakeSelfOnTop` (`Repo`) and `Card.Split` (`Cards`, with the
rectangles and sub-images of the Go `image` package).
-/

namespace Issues

/-! ## Errors -/

/-- The fallible collaborators of `parent_issue.go`. -/
inductive StoreOp where
  | getIssueByID
  | find
  | txContext
  | updateIssueCols
  | createComment
  | commit
deriving DecidableEq, Repr

/-- Error values returned by the functions of `parent_issue.go`. `wrap` is
`fmt.Errorf("<msg>: %w", err)`; `nilDereference` is the run-time panic of
reading a field through a nil `*Issue`. -/
inductive Err where
  | ErrSubIssuesTooMany (ID ParentID RootID : Int)
  | ErrSubIssuesTooDeep (ID ParentID RootID : Int)
  | ErrCircularParentIssue (ID ParentID : Int)
  | ErrIssueNotExist (ID : Int)
  | store (op : StoreOp)
  | wrap (msg : String) (e : Err)
  | nilDereference
deriving DecidableEq, Repr

/-- `IsErrSubIssuesTooMany`: the type assertion `err.(ErrSubIssuesTooMany)`. -/
def IsErrSubIssuesTooMany : Err → Bool
  | .ErrSubIssuesTooMany _ _ _ => true
  | _ => false

/-- `IsErrSubIssuesTooDeep`: the type assertion `err.(ErrSubIssuesTooDeep)`. -/
def IsErrSubIssuesTooDeep : Err → Bool
  | .ErrSubIssuesTooDeep _ _ _ => true
  | _ => false

/-- `IsErrCircularParentIssue`: the type assertion `err.(ErrCircularParentIssue)`. -/
def IsErrCircularParentIssue : Err → Bool
  | .ErrCircularParentIssue _ _ => true
  | _ => false

/-- One of the three validation rejections of `UpdateParentIssue`. -/
def Err.isRejection (e : Err) : Bool :=
  IsErrSubIssuesTooDeep e || IsErrSubIssuesTooMany e || IsErrCircularParentIssue e

/-! ## The store -/

/-- A row of table `issue`, restricted to the columns `parent_issue.go` reads and
writes (`id`, `parent_id`; see migration `AddSubIssuesRelationship`). -/
structure Row where
  id : Int
  parent_id : Option Int
deriving DecidableEq, Repr

/-- Modelled from the spec: the audit comment sink
(`RecordSubIssueLinked` / `RecordSubIssueUnlinked`), one record for each call of
`createSubIssueComment(ctx, doer, parent, issue, add)`, whose body is not part of
the sources. -/
structure SubIssueComment where
  doer : Int
  parent : Int
  issue : Int
  add : Bool
deriving DecidableEq, Repr

/-- Which store operations fail. `getIssueByID` and `find` list the issue IDs whose
read fails. -/
structure Faults where
  getIssueByID : List Int
  find : List Int
  txContext : Bool
  updateIssueCols : Bool
  unlinkComment : Bool
  linkComment : Bool
  commit : Bool
deriving DecidableEq, Repr

/-- No store operation fails. -/
def Faults.none : Faults :=
  { getIssueByID := [], find := [], txContext := false, updateIssueCols := false,
    unlinkComment := false, linkComment := false, commit := false }

/-- The persisted state, with counters of the store operations performed. -/
structure World where
  rows : List Row
  comments : List SubIssueComment
  reads : Nat
  writes : Nat
  txs : Nat
  faults : Faults
deriving DecidableEq, Repr

/-- Repository settings `setting.Repository.Issue.MaxSubIssuesDepth` and
`setting.Repository.Issue.MaxSubIssues` (Go `int`). -/
structure Setting where
  MaxSubIssuesDepth : Int
  MaxSubIssues : Int
deriving DecidableEq, Repr

/-! ## Issue objects -/

/-- The fields of `Issue` used by `parent_issue.go`. -/
inductive Issue where
  | mk (ID : Int) (ParentIssueID : Option Int) (ParentIssue : Option Issue)
      (isParentIssueLoaded : Bool) (SubIssues : List Issue) (isSubIssuesLoaded : Bool)

namespace Issue

def ID : Issue → Int
  | .mk i _ _ _ _ _ => i

def ParentIssueID : Issue → Option Int
  | .mk _ p _ _ _ _ => p

def ParentIssue : Issue → Option Issue
  | .mk _ _ p _ _ _ => p

def isParentIssueLoaded : Issue → Bool
  | .mk _ _ _ b _ _ => b

def SubIssues : Issue → List Issue
  | .mk _ _ _ _ s _ => s

def isSubIssuesLoaded : Issue → Bool
  | .mk _ _ _ _ _ b => b

def setParentIssueID : Issue → Option Int → Issue
  | .mk i _ p b s c, v => .mk i v p b s c

def setParentIssue : Issue → Option Issue → Issue
  | .mk i pid _ b s c, v => .mk i pid v b s c

def setIsParentIssueLoaded : Issue → Bool → Issue
  | .mk i pid p _ s c, v => .mk i pid p v s c

def setSubIssues : Issue → List Issue → Issue
  | .mk i pid p b _ c, v => .mk i pid p b v c

def setIsSubIssuesLoaded : Issue → Bool → Issue
  | .mk i pid p b s _, v => .mk i pid p b s v

/-- The object a row is scanned into: no cache is populated. -/
def ofRow (r : Row) : Issue :=
  .mk r.id r.parent_id none false [] false

/-- The object reached by following the `ParentIssue` pointer `n` times. -/
def nthParent : Nat → Issue → Option Issue
  | 0, i => some i
  | n + 1, i =>
    match i.ParentIssue with
    | none => none
    | some p => nthParent n p

/-- Write through the pointer reached by following `ParentIssue` `n` times. -/
def setNthParent : Nat → Issue → Issue → Issue
  | 0, _, r => r
  | n + 1, i, r =>
    match i.ParentIssue with
    | none => i
    | some p => i.setParentIssue (some (setNthParent n p r))

/-- IDs of the objects on the `ParentIssue` pointer chain, the object itself first. -/
def chainIDs : Issue → List Int
  | .mk i _ none _ _ _ => [i]
  | .mk i _ (some p) _ _ _ => i :: chainIDs p

end Issue

/-! ## Store accessors -/

/-- Modelled from the spec: `GetIssueByID(id) -> Issue | NotFound`, a read of the row
with primary key `id`, scanned into a new object. -/
def GetIssueByID (w : World) (id : Int) : World × Except Err Issue :=
  let w1 := { w with reads := w.reads + 1 }
  if id ∈ w.faults.getIssueByID then (w1, .error (.store .getIssueByID))
  else
    match w.rows.find? (fun r => r.id == id) with
    | none => (w1, .error (.ErrIssueNotExist id))
    | some r => (w1, .ok (Issue.ofRow r))

/-- `GetSubIssuesByIssueID`: the rows `WHERE issue.parent_id = ?` in `created_unix`
order, each scanned into a new object. -/
def GetSubIssuesByIssueID (w : World) (issueID : Int) : World × Except Err (List Issue) :=
  let w1 := { w with reads := w.reads + 1 }
  if issueID ∈ w.faults.find then (w1, .error (.store .find))
  else (w1, .ok ((w.rows.filter (fun r => r.parent_id == some issueID)).map Issue.ofRow))

/-- Modelled from the spec: `SetParent(issueID, parentID-or-absent)` "writes exactly
one column": `UpdateIssueCols(ctx, &Issue{ID, ParentIssueID}, "parent_id")` applied to
the rows of the table. -/
def updateParentID (rows : List Row) (id : Int) (parentID : Option Int) : List Row :=
  rows.map (fun r => if r.id == id then { r with parent_id := parentID } else r)

/-! ## `parent_issue.go` -/

/-- `Issue.LoadParentIssue`. On a failed read the assignment
`issue.ParentIssue, err = GetIssueByID(...)` has stored the nil result. -/
def LoadParentIssue (w : World) (issue : Issue) : World × Issue × Option Err :=
  match issue.ParentIssueID with
  | none => (w, issue, none)
  | some pid =>
    if !issue.isParentIssueLoaded &&
        (match issue.ParentIssue with
          | none => true
          | some p => p.ID != pid) then
      match GetIssueByID w pid with
      | (w1, .error e) => (w1, issue.setParentIssue none, some e)
      | (w1, .ok p) => (w1, (issue.setParentIssue (some p)).setIsParentIssueLoaded true, none)
    else (w, issue, none)

/-- `Issue.LoadSubIssues`. On a failed read the assignment
`issue.SubIssues, err = GetSubIssuesByIssueID(...)` has stored the empty result. -/
def LoadSubIssues (w : World) (issue : Issue) : World × Issue × Option Err :=
  if !issue.isSubIssuesLoaded then
    match GetSubIssuesByIssueID w issue.ID with
    | (w1, .error e) => (w1, issue.setSubIssues [], some e)
    | (w1, .ok subs) => (w1, (issue.setSubIssues subs).setIsSubIssuesLoaded true, none)
  else (w, issue, none)

/-- `Issue.LookupRootIssue`. Returns the store, the receiver with the parent objects
loaded on the way, and `(root, depth)` or the error. One unit of fuel per iteration of
the `for` loop. -/
def LookupRootIssue : Nat → World → Issue → Option (World × Issue × Except Err (Issue × Nat))
  | 0, _, _ => none
  | fuel + 1, w, root =>
    match root.ParentIssueID with
    | none => some (w, root, .ok (root, 0))
    | some _ =>
      match LoadParentIssue w root with
      | (w1, root1, some e) => some (w1, root1, .error e)
      | (w1, root1, none) =>
        match root1.ParentIssue with
        | none => some (w1, root1, .error .nilDereference)
        | some p =>
          match LookupRootIssue fuel w1 p with
          | none => none
          | some (w2, p2, .error e) => some (w2, root1.setParentIssue (some p2), .error e)
          | some (w2, p2, .ok (r, depth)) =>
            some (w2, root1.setParentIssue (some p2), .ok (r, depth + 1))

/-- The `for _, subissue := range issue.SubIssues` loop of `CountSubIssues`, with the
recursive call as a parameter. -/
def countLoop (count : World → Issue → Option (World × Issue × Except Err Nat)) :
    World → List Issue → Nat → Option (World × List Issue × Except Err Nat)
  | w, [], n => some (w, [], .ok n)
  | w, subissue :: rest, n =>
    match count w subissue with
    | none => none
    | some (w1, s1, .error e) => some (w1, s1 :: rest, .error e)
    | some (w1, s1, .ok subcount) =>
      match countLoop count w1 rest (n + subcount) with
      | none => none
      | some (w2, rest2, res) => some (w2, s1 :: rest2, res)

/-- `Issue.CountSubIssues`. One unit of fuel per level of recursion. -/
def CountSubIssues : Nat → World → Issue → Option (World × Issue × Except Err Nat)
  | 0, _, _ => none
  | fuel + 1, w, issue =>
    match LoadSubIssues w issue with
    | (w1, issue1, some e) => some (w1, issue1, .error e)
    | (w1, issue1, none) =>
      match countLoop (CountSubIssues fuel) w1 issue1.SubIssues issue1.SubIssues.length with
      | none => none
      | some (w2, subs, res) => some (w2, issue1.setSubIssues subs, res)

/-- The loop `for curParent != nil` of `UpdateParentIssue`: does some object on the
`ParentIssue` pointer chain from `curParent` have the ID `id`? -/
def circularWalk (id : Int) : Issue → Bool
  | .mk cid _ none _ _ _ => cid == id
  | .mk cid _ (some p) _ _ _ => cid == id || circularWalk id p

/-- What a call of `UpdateParentIssue` leaves behind: the store, the receiver, the
`parent` argument, and the returned error (`none` is Go `nil`). -/
structure UpdateResult where
  w : World
  issue : Issue
  parent : Option Issue
  err : Option Err

/-- The validation block `if parent != nil { ... }` of `UpdateParentIssue`. -/
def validateParent (fuel : Nat) (cfg : Setting) (w : World) (issue : Issue) (parent : Issue) :
    Option (World × Issue × Option Err) :=
  match LookupRootIssue fuel w parent with
  | none => none
  | some (w1, parent1, .error e) => some (w1, parent1, some e)
  | some (w1, parent1, .ok (root, depth)) =>
    if (depth : Int) + 1 > cfg.MaxSubIssuesDepth then
      some (w1, parent1, some (.ErrSubIssuesTooDeep issue.ID parent.ID root.ID))
    else
      match CountSubIssues fuel w1 root with
      | none => none
      | some (w2, root2, .error e) => some (w2, parent1.setNthParent depth root2, some e)
      | some (w2, root2, .ok rootCount) =>
        let parent2 := parent1.setNthParent depth root2
        if (rootCount : Int) + 1 > cfg.MaxSubIssues then
          some (w2, parent2, some (.ErrSubIssuesTooMany issue.ID parent.ID root.ID))
        else if circularWalk issue.ID parent2 then
          some (w2, parent2, some (.ErrCircularParentIssue issue.ID parent.ID))
        else some (w2, parent2, none)

/-- Modelled from the spec: the transaction of `UpdateParentIssue` from
`db.TxContext` to `committer.Commit()`, with the deferred `committer.Close()` rolling
back what was written when `Commit` was not reached ("if cancellation occurs before
the transaction commits, the transaction must roll back and no partial effects
(including no audit comments) occur"). The in-memory assignments of the source are
in place. -/
def commitParent (w : World) (issue : Issue) (oldParent : Option Issue) (parent : Option Issue)
    (doer : Int) : UpdateResult :=
  let w1 := { w with txs := w.txs + 1 }
  if w.faults.txContext then
    { w := w1, issue := issue, parent := parent, err := some (.store .txContext) }
  else
    let parentID := parent.map Issue.ID
    let w2 := { w1 with writes := w1.writes + 1 }
    if w.faults.updateIssueCols then
      { w := w2, issue := issue, parent := parent, err := some (.store .updateIssueCols) }
    else
      let rowsTx := updateParentID w.rows issue.ID parentID
      let issue1 := (issue.setParentIssueID parentID).setIsParentIssueLoaded false
      let parent1 := parent.map (fun p => p.setIsSubIssuesLoaded false)
      if oldParent.isSome && w.faults.unlinkComment then
        { w := w2, issue := issue1, parent := parent1,
          err := some (.wrap "createSubIssueComment, unlink old" (.store .createComment)) }
      else
        let commentsTx :=
          match oldParent with
          | none => w.comments
          | some old => w.comments ++ [⟨doer, old.ID, issue.ID, false⟩]
        if parent.isSome && w.faults.linkComment then
          { w := w2, issue := issue1, parent := parent1,
            err := some (.wrap "createSubIssueComment, link new" (.store .createComment)) }
        else
          let commentsTx2 :=
            match parent with
            | none => commentsTx
            | some p => commentsTx ++ [⟨doer, p.ID, issue.ID, true⟩]
          if w.faults.commit then
            { w := w2, issue := issue1, parent := parent1, err := some (.store .commit) }
          else
            { w := { w2 with rows := rowsTx, comments := commentsTx2 },
              issue := issue1, parent := parent1, err := none }

/-- `Issue.UpdateParentIssue(ctx, parent, doer)`. -/
def UpdateParentIssue (fuel : Nat) (cfg : Setting) (w : World) (issue : Issue)
    (parent : Option Issue) (doer : Int) : Option UpdateResult :=
  if issue.ParentIssueID.isSome && parent.isSome &&
      issue.ParentIssueID == parent.map Issue.ID then
    some { w := w, issue := issue, parent := parent, err := none }
  else if issue.ParentIssueID.isNone && parent.isNone then
    some { w := w, issue := issue, parent := parent, err := none }
  else
    match LoadParentIssue w issue with
    | (w1, issue1, some e) => some { w := w1, issue := issue1, parent := parent, err := some e }
    | (w1, issue1, none) =>
      let oldParent := issue1.ParentIssue
      match parent with
      | none => some (commitParent w1 issue1 oldParent none doer)
      | some p =>
        match validateParent fuel cfg w1 issue1 p with
        | none => none
        | some (w2, p2, some e) => some { w := w2, issue := issue1, parent := some p2, err := some e }
        | some (w2, p2, none) => some (commitParent w2 issue1 oldParent (some p2) doer)

/-! ## Specification vocabulary -/

/-- The second world differs from the first at most in the read counter. -/
def ReadOnly (w w' : World) : Prop :=
  w'.rows = w.rows ∧ w'.comments = w.comments ∧ w'.writes = w.writes ∧ w'.txs = w.txs ∧
    w'.faults = w.faults

/-- Same ID and same `ParentIssueID` field. -/
def SameKey (i i' : Issue) : Prop :=
  i'.ID = i.ID ∧ i'.ParentIssueID = i.ParentIssueID

/-- The persisted parent pointer of issue `id`: column `parent_id` of its row. -/
def parentOf (rows : List Row) (id : Int) : Option Int :=
  match rows.find? (fun r => r.id == id) with
  | none => none
  | some r => r.parent_id

/-- The issue reached from `id` by following `parent_id` exactly `n` times. -/
def nthAncestor (rows : List Row) : Nat → Int → Option Int
  | 0, id => some id
  | n + 1, id =>
    match parentOf rows id with
    | none => none
    | some p => nthAncestor rows n p

/-- Depth bound: from no issue of the table can `parent_id` be followed more than `max`
times, so every issue is at most `max` parent edges away from its root. -/
def DepthBound (rows : List Row) (max : Int) : Prop :=
  ∀ r ∈ rows, ∀ n a, nthAncestor rows n r.id = some a → (n : Int) ≤ max

/-- The rows of the transitive descendants of issue `id`: the rows from which `id` is
reached by following `parent_id` at least once (a chain in a table of `k` rows without a
cycle has at most `k` edges). -/
def descendants (rows : List Row) (id : Int) : List Row :=
  rows.filter (fun x => (List.range rows.length).any (fun n => nthAncestor rows (n + 1) x.id == some id))

/-- Count bound: every root of the table has at most `max` transitive descendants. -/
def CountBound (rows : List Row) (max : Int) : Prop :=
  ∀ r ∈ rows, r.parent_id = none → ((descendants rows r.id).length : Int) ≤ max

instance (rows : List Row) (max : Int) : Decidable (CountBound rows max) := by
  unfold CountBound; infer_instance

/-- Acyclicity as the specification words it: following `parent_id` from any issue
never revisits an issue already seen. -/
def NoRevisit (rows : List Row) : Prop :=
  ∀ id i j a, i < j → nthAncestor rows i id = some a → nthAncestor rows j id ≠ some a

/-- No issue is its own ancestor. -/
def NoCycle (rows : List Row) : Prop :=
  ∀ id k, 0 < k → nthAncestor rows k id ≠ some id

/-- The `ParentIssueID` field of the object agrees with the store, and so do those of
the cached parent objects that `LoadParentIssue` keeps using: a cached parent that is
not reloaded (flag set, or its ID equal to `ParentIssueID`) is the object of that
parent issue and is coherent in turn. -/
def Coherent (rows : List Row) : Issue → Prop
  | .mk id pid none _ _ _ => pid = parentOf rows id
  | .mk id pid (some q) loaded _ _ =>
    pid = parentOf rows id ∧
      ∀ p, pid = some p → (loaded = true ∨ q.ID = p) → q.ID = p ∧ Coherent rows q

/-- The tables reachable from `rows0` by successful calls of `UpdateParentIssue`, each
made in any state of the fault switches and counters, on a `parent` object that is
coherent with the table at the time of the call. -/
inductive Reachable (cfg : Setting) (rows0 : List Row) : List Row → Prop
  | start : Reachable cfg rows0 rows0
  | call (w : World) (fuel : Nat) (issue : Issue) (parent : Option Issue) (doer : Int)
      (r : UpdateResult) :
      Reachable cfg rows0 w.rows →
      (∀ p, parent = some p → Coherent w.rows p) →
      UpdateParentIssue fuel cfg w issue parent doer = some r →
      r.err = none →
      Reachable cfg rows0 r.w.rows

/-- Column `id` is the primary key of table `issue`. -/
def UniqueIDs (rows : List Row) : Prop :=
  (rows.map Row.id).Nodup

instance (rows : List Row) : Decidable (UniqueIDs rows) := by
  unfold UniqueIDs; infer_instance

/-- The rows of the direct sub-issues of issue `id`. -/
def children (rows : List Row) (id : Int) : List Row :=
  rows.filter (fun r => r.parent_id == some id)

/-- The loop of `TestSubIssueCountLimit`: the issues `cs` are attached one after another
under the same in-memory object `R`; returns the errors of the calls in order. -/
def attachEach (fuel : Nat) (cfg : Setting) (doer : Int) :
    World → Issue → List Issue → Option (World × Issue × List (Option Err))
  | w, R, [] => some (w, R, [])
  | w, R, c :: cs =>
    match UpdateParentIssue fuel cfg w c (some R) doer with
    | none => none
    | some r =>
      match r.parent with
      | none => none
      | some R1 =>
        match attachEach fuel cfg doer r.w R1 cs with
        | none => none
        | some (w2, R2, errs) => some (w2, R2, r.err :: errs)

/-- The loop of `TestSubIssueDepthLimit`: each issue of `cs` is linked under the
previous one (the first under `p`), the object of the new sub-issue becoming the next
parent; returns the errors of the calls in order. -/
def chainEach (fuel : Nat) (cfg : Setting) (doer : Int) :
    World → Issue → List Issue → Option (World × List (Option Err))
  | w, _, [] => some (w, [])
  | w, p, c :: cs =>
    match UpdateParentIssue fuel cfg w c (some p) doer with
    | none => none
    | some r =>
      match chainEach fuel cfg doer r.w r.issue cs with
      | none => none
      | some (w2, errs) => some (w2, r.err :: errs)

/-- The condition of `LoadParentIssue` (line 18) under which the cached `ParentIssue`
is kept and no parent object is read: `ParentIssueID` is nil, or `isParentIssueLoaded`
is set, or the cached object is non-nil and has the ID `ParentIssueID`. -/
def keepsParent (i : Issue) : Bool :=
  match i.ParentIssueID with
  | none => true
  | some pid =>
    i.isParentIssueLoaded ||
      (match i.ParentIssue with
        | none => false
        | some q => q.ID == pid)

/-- No loaded cache of the object has been invalidated or replaced, down to `n` levels
of cached objects: the object keeps its ID and `ParentIssueID`; a loaded flag that was
set is still set; when `isSubIssuesLoaded` was set, `SubIssues` lists as many objects as
before, each related to the object that was at its position one level lower; and a cached
`ParentIssue` that `LoadParentIssue` keeps is still cached, with the same ID and related
one level lower. A cache that was not loaded may have been filled. The relation at every
`n` speaks of every object reachable through loaded caches. -/
def CachesPreserved : Nat → Issue → Issue → Prop
  | 0, _, _ => True
  | n + 1, i, i' =>
    i'.ID = i.ID ∧ i'.ParentIssueID = i.ParentIssueID ∧
      (i.isParentIssueLoaded = true → i'.isParentIssueLoaded = true) ∧
      (i.isSubIssuesLoaded = true →
        i'.isSubIssuesLoaded = true ∧
          List.Forall₂ (CachesPreserved n) i.SubIssues i'.SubIssues) ∧
      (keepsParent i = true → ∀ q, i.ParentIssue = some q →
        ∃ q', i'.ParentIssue = some q' ∧ q'.ID = q.ID ∧ CachesPreserved n q q')

/-- The parent cache of the object agrees with the table: `ParentIssueID` is the
persisted `parent_id`, an object with a parent and no cached parent object is not marked
loaded, and a cached parent that `LoadParentIssue` keeps using (flag set, or its ID equal
to `ParentIssueID`) is the object of that parent issue, with a parent cache that agrees
in turn. A freshly loaded object is of this kind. -/
def ParentCacheAgrees (rows : List Row) : Issue → Prop
  | .mk id pid none loaded _ _ => pid = parentOf rows id ∧ (pid ≠ none → loaded = false)
  | .mk id pid (some q) loaded _ _ =>
    pid = parentOf rows id ∧
      ∀ p, pid = some p → (loaded = true ∨ q.ID = p) → q.ID = p ∧ ParentCacheAgrees rows q

/-- Every `parent_id` of the table is the `id` of a row of the table. -/
def ParentsExist (rows : List Row) : Prop :=
  ∀ r ∈ rows, ∀ p, r.parent_id = some p → ∃ row ∈ rows, row.id = p

/-- The sub-issue cache of the object is not stale: it is not loaded, or it lists the
objects of the rows that have the issue as `parent_id`, in the order of the table, each
with a sub-issue cache that is not stale in turn. -/
inductive SubCacheAgrees (rows : List Row) : Issue → Prop
  | unloaded (i : Issue) : i.isSubIssuesLoaded = false → SubCacheAgrees rows i
  | loaded (i : Issue) : i.isSubIssuesLoaded = true →
      i.SubIssues.map Issue.ID = (children rows i.ID).map Row.id →
      (∀ s ∈ i.SubIssues, SubCacheAgrees rows s) → SubCacheAgrees rows i

/-- The object has no stale cache: its parent caches are coherent with the table, and
the sub-issue cache of the object and of every object on its `ParentIssue` pointer chain
is not stale. A freshly loaded object is of this kind. -/
def NoStaleCaches (rows : List Row) (i : Issue) : Prop :=
  Coherent rows i ∧ ∀ k q, i.nthParent k = some q → SubCacheAgrees rows q

end Issues

/-! # Path hierarchy tokenizer (`modules/indexer/code/bleve/tokenizer/hierarchy/hierarchy.go`) -/

namespace Hierarchy

/-- `analysis.TokenType`; `Tokenize` only produces `analysis.AlphaNumeric`. -/
inductive TokenType where
  | AlphaNumeric
deriving DecidableEq, Repr

/-- `analysis.Token` of bleve: the fields that `Tokenize` fills in (`Type_` is the
field `Type`). A byte is a natural number. -/
structure Token where
  Term : List Nat
  Start : Nat
  End : Nat
  Position : Nat
  Type_ : TokenType
deriving DecidableEq, Repr

/-- `bytes.Trim(s, cutset)` of the Go library for a cutset of one ASCII byte:
`trimLeftByte(trimRightByte(s, c), c)`. -/
def Trim (s : List Nat) (c : Nat) : List Nat :=
  (s.rdropWhile (fun b => b == c)).dropWhile (fun b => b == c)

/-- `bytes.IndexRune(s, r)` of the Go library for an ASCII `r`: the index of the first
byte `r` of `s`, or -1. -/
def IndexRune (s : List Nat) (r : Nat) : Int :=
  if r ∈ s then (s.indexOf r : Int) else -1

/-- The `for` loop of `Tokenize` (lines 35-49) on the trimmed `input`, with the
variables `off`, `count` and `rv`; returns `rv` and `count` at the exit of the loop.
One unit of fuel per iteration. -/
def tokenizeLoop (input : List Nat) : Nat → Nat → Nat → List Token → Option (List Token × Nat)
  | 0, _, _, _ => none
  | fuel + 1, off, count, rv =>
    let i := IndexRune (input.drop off) 47
    if i = -1 then some (rv, count)
    else
      let off1 := off + i.toNat
      tokenizeLoop input fuel (off1 + 1) (count + 1)
        (rv ++ [⟨input.take off1, 0, off1, count, .AlphaNumeric⟩])

/-- `PathHierarchyTokenizer.Tokenize`; `none` stands for "the loop did not end within
fuel". The byte of `'/'` is 47. -/
def Tokenize (fuel : Nat) (input : List Nat) : Option (List Token) :=
  let input := Trim input 47
  match tokenizeLoop input fuel 0 1 [] with
  | none => none
  | some (rv, count) => some (rv ++ [⟨input, 0, input.length, count, .AlphaNumeric⟩])

/-- Positions of the bytes `'/'` of `s`, counted from `base`. -/
def slashIdx : List Nat → Nat → List Nat
  | [], _ => []
  | b :: bs, base => if b = 47 then base :: slashIdx bs (base + 1) else slashIdx bs (base + 1)

/-- The tokens of the prefixes of `input` of the lengths `ns`, numbered from `count`. -/
def prefixTokens (input : List Nat) : List Nat → Nat → List Token
  | [], _ => []
  | n :: ns, count =>
    ⟨input.take n, 0, n, count, .AlphaNumeric⟩ :: prefixTokens input ns (count + 1)

end Hierarchy

/-! # `MakeSelfOnTop` (`routers/web/repo/helper.go`) -/

namespace Repo

/-- `user.User` of `models/user`: `MakeSelfOnTop` reads only `ID`; `Name` stands for
the other fields of the object. -/
structure User where
  ID : Int
  Name : String
deriving DecidableEq, Repr

/-- `slices.IndexFunc(s, f)` of the Go library: the first index `i` with `f(s[i])`, or
-1. -/
def IndexFunc (s : List User) (f : User → Bool) : Int :=
  if s.any f then (s.findIdx f : Int) else -1

/-- `slices.Delete(s, i, j)` of the Go library: `s` without `s[i:j]`. -/
def Delete (s : List User) (i j : Nat) : List User :=
  s.take i ++ s.drop j

/-- `slices.Insert(s, i, v)` of the Go library: `v` inserted at index `i`. -/
def Insert (s : List User) (i : Nat) (v : User) : List User :=
  s.take i ++ v :: s.drop i

/-- `MakeSelfOnTop` (`routers/web/repo/helper.go`); `doer = none` is a nil `doer`. -/
def MakeSelfOnTop (doer : Option User) (users : List User) : List User :=
  match doer with
  | some d =>
    let doerIndex := IndexFunc users (fun user => user.ID == d.ID)
    if doerIndex != -1 then
      Insert (Delete users doerIndex.toNat (doerIndex.toNat + 1)) 0 d
    else users
  | none => users

end Repo

/-! # Image cards (`modules/card/card.go`) -/

namespace Cards

/-- `image.Point` of the Go library. Go `int` is modelled as an unbounded integer: the
coordinates of an image are far from the range where `Dx * percentage` wraps. -/
structure Point where
  X : Int
  Y : Int
deriving DecidableEq, Repr

/-- `image.Rectangle` of the Go library. -/
structure Rectangle where
  Min : Point
  Max : Point
deriving DecidableEq, Repr

/-- `image.Rect(x0, y0, x1, y1)`: the coordinates are swapped where needed so that the
rectangle is well-formed. -/
def Rect (x0 y0 x1 y1 : Int) : Rectangle :=
  let (x0, x1) := if x0 > x1 then (x1, x0) else (x0, x1)
  let (y0, y1) := if y0 > y1 then (y1, y0) else (y0, y1)
  ⟨⟨x0, y0⟩, ⟨x1, y1⟩⟩

/-- `image.ZR`, the zero rectangle. -/
def ZR : Rectangle := ⟨⟨0, 0⟩, ⟨0, 0⟩⟩

/-- `Rectangle.Dx`. -/
def Rectangle.Dx (r : Rectangle) : Int := r.Max.X - r.Min.X

/-- `Rectangle.Dy`. -/
def Rectangle.Dy (r : Rectangle) : Int := r.Max.Y - r.Min.Y

/-- `Rectangle.Empty`: the rectangle contains no point. -/
def Rectangle.Empty (r : Rectangle) : Bool :=
  decide (r.Min.X ≥ r.Max.X) || decide (r.Min.Y ≥ r.Max.Y)

/-- `Rectangle.Intersect`: the largest rectangle contained in both, `ZR` when the two
do not overlap. -/
def Rectangle.Intersect (r s : Rectangle) : Rectangle :=
  let minX := if r.Min.X < s.Min.X then s.Min.X else r.Min.X
  let minY := if r.Min.Y < s.Min.Y then s.Min.Y else r.Min.Y
  let maxX := if r.Max.X > s.Max.X then s.Max.X else r.Max.X
  let maxY := if r.Max.Y > s.Max.Y then s.Max.Y else r.Max.Y
  let r1 : Rectangle := ⟨⟨minX, minY⟩, ⟨maxX, maxY⟩⟩
  if r1.Empty then ZR else r1

/-- `*image.RGBA`, reduced to its bounds `Rect` (the pixel buffer plays no role in
`Split`). -/
structure RGBA where
  Rect : Rectangle
deriving DecidableEq, Repr

/-- `RGBA.Bounds`. -/
def RGBA.Bounds (p : RGBA) : Rectangle := p.Rect

/-- `RGBA.SubImage(r)`: the part of the image visible through `r`; an empty
intersection gives the empty image `&RGBA{}`, whose bounds are the zero rectangle. -/
def RGBA.SubImage (p : RGBA) (r : Rectangle) : RGBA :=
  let r1 := r.Intersect p.Rect
  if r1.Empty then ⟨ZR⟩ else ⟨r1⟩

/-- `Card` of `modules/card`; `Font` is an opaque handle of the parsed font. -/
structure Card where
  Img : RGBA
  Font : Nat
  Margin : Int
  Width : Int
  Height : Int
deriving DecidableEq, Repr

/-- `NewCard(width, height)` with the font cache answering `font` (the error return
of the font parser is left out). -/
def NewCard (font : Nat) (width height : Int) : Card :=
  { Img := ⟨Rect 0 0 width height⟩, Font := font, Margin := 0, Width := width,
    Height := height }

/-- `Card.Split(vertical, percentage)`. Go's `/` on `int` truncates toward zero
(`Int.tdiv`); the cards returned have the zero `Margin`. -/
def Card.Split (c : Card) (vertical : Bool) (percentage : Int) : Card × Card :=
  let bounds := c.Img.Bounds
  let bounds := Rect (bounds.Min.X + c.Margin) (bounds.Min.Y + c.Margin)
    (bounds.Max.X - c.Margin) (bounds.Max.Y - c.Margin)
  if vertical then
    let mid := (bounds.Dx * percentage).tdiv 100 + bounds.Min.X
    let subleft := c.Img.SubImage (Rect bounds.Min.X bounds.Min.Y mid bounds.Max.Y)
    let subright := c.Img.SubImage (Rect mid bounds.Min.Y bounds.Max.X bounds.Max.Y)
    ({ Img := subleft, Font := c.Font, Margin := 0, Width := subleft.Bounds.Dx,
       Height := subleft.Bounds.Dy },
     { Img := subright, Font := c.Font, Margin := 0, Width := subright.Bounds.Dx,
       Height := subright.Bounds.Dy })
  else
    let mid := (bounds.Dy * percentage).tdiv 100 + bounds.Min.Y
    let subtop := c.Img.SubImage (Rect bounds.Min.X bounds.Min.Y bounds.Max.X mid)
    let subbottom := c.Img.SubImage (Rect bounds.Min.X mid bounds.Max.X bounds.Max.Y)
    ({ Img := subtop, Font := c.Font, Margin := 0, Width := subtop.Bounds.Dx,
       Height := subtop.Bounds.Dy },
     { Img := subbottom, Font := c.Font, Margin := 0, Width := subbottom.Bounds.Dx,
       Height := subbottom.Bounds.Dy })

end Cards

namespace Issues

/-! # Properties -/

/-! ## Field access -/

namespace Issue

@[simp] theorem ID_mk (a b c d e f) : (Issue.mk a b c d e f).ID = a := rfl
@[simp] theorem ParentIssueID_mk (a b c d e f) : (Issue.mk a b c d e f).ParentIssueID = b := rfl
@[simp] theorem ParentIssue_mk (a b c d e f) : (Issue.mk a b c d e f).ParentIssue = c := rfl
@[simp] theorem isParentIssueLoaded_mk (a b c d e f) :
    (Issue.mk a b c d e f).isParentIssueLoaded = d := rfl
@[simp] theorem SubIssues_mk (a b c d e f) : (Issue.mk a b c d e f).SubIssues = e := rfl
@[simp] theorem isSubIssuesLoaded_mk (a b c d e f) :
    (Issue.mk a b c d e f).isSubIssuesLoaded = f := rfl
@[simp] theorem setParentIssueID_mk (a b c d e f v) :
    (Issue.mk a b c d e f).setParentIssueID v = Issue.mk a v c d e f := rfl
@[simp] theorem setParentIssue_mk (a b c d e f v) :
    (Issue.mk a b c d e f).setParentIssue v = Issue.mk a b v d e f := rfl
@[simp] theorem setIsParentIssueLoaded_mk (a b c d e f v) :
    (Issue.mk a b c d e f).setIsParentIssueLoaded v = Issue.mk a b c v e f := rfl
@[simp] theorem setSubIssues_mk (a b c d e f v) :
    (Issue.mk a b c d e f).setSubIssues v = Issue.mk a b c d v f := rfl
@[simp] theorem setIsSubIssuesLoaded_mk (a b c d e f v) :
    (Issue.mk a b c d e f).setIsSubIssuesLoaded v = Issue.mk a b c d e v := rfl

theorem eta (i : Issue) :
    i = Issue.mk i.ID i.ParentIssueID i.ParentIssue i.isParentIssueLoaded i.SubIssues
      i.isSubIssuesLoaded := by
  cases i; rfl

end Issue

theorem ReadOnly.readOnly_refl (w : World) : ReadOnly w w := ⟨rfl, rfl, rfl, rfl, rfl⟩

theorem ReadOnly.readOnly_trans {a b c : World} (h1 : ReadOnly a b) (h2 : ReadOnly b c) : ReadOnly a c := by
  obtain ⟨h11, h12, h13, h14, h15⟩ := h1
  obtain ⟨h21, h22, h23, h24, h25⟩ := h2
  exact ⟨h21.trans h11, h22.trans h12, h23.trans h13, h24.trans h14, h25.trans h15⟩

theorem SameKey.sameKey_refl (i : Issue) : SameKey i i := ⟨rfl, rfl⟩

theorem SameKey.sameKey_trans {a b c : Issue} (h1 : SameKey a b) (h2 : SameKey b c) : SameKey a c :=
  ⟨h2.1.trans h1.1, h2.2.trans h1.2⟩

theorem GetIssueByID_readOnly (w : World) (id : Int) : ReadOnly w (GetIssueByID w id).1 := by
  unfold GetIssueByID
  simp only
  split
  · exact ⟨rfl, rfl, rfl, rfl, rfl⟩
  · split <;> exact ⟨rfl, rfl, rfl, rfl, rfl⟩

theorem GetSubIssuesByIssueID_readOnly (w : World) (id : Int) :
    ReadOnly w (GetSubIssuesByIssueID w id).1 := by
  unfold GetSubIssuesByIssueID
  simp only
  split <;> exact ⟨rfl, rfl, rfl, rfl, rfl⟩

theorem LoadParentIssue_frame (w : World) (i : Issue) :
    ReadOnly w (LoadParentIssue w i).1 ∧ SameKey i (LoadParentIssue w i).2.1 := by
  cases i with
  | mk a b c d e f =>
    unfold LoadParentIssue
    cases b with
    | none => exact ⟨ReadOnly.readOnly_refl _, SameKey.sameKey_refl _⟩
    | some pid =>
      simp only [Issue.ParentIssueID_mk]
      split
      · have h := GetIssueByID_readOnly w pid
        split
        · next w1 e heq => rw [heq] at h; exact ⟨h, rfl, rfl⟩
        · next w1 p heq => rw [heq] at h; exact ⟨h, rfl, rfl⟩
      · exact ⟨ReadOnly.readOnly_refl _, SameKey.sameKey_refl _⟩

theorem LoadSubIssues_frame (w : World) (i : Issue) :
    ReadOnly w (LoadSubIssues w i).1 ∧ SameKey i (LoadSubIssues w i).2.1 ∧
      (LoadSubIssues w i).2.1.ParentIssue = i.ParentIssue := by
  cases i with
  | mk a b c d e f =>
    unfold LoadSubIssues
    split
    · have h := GetSubIssuesByIssueID_readOnly w a
      simp only [Issue.ID_mk]
      split
      · next w1 e heq => rw [heq] at h; exact ⟨h, ⟨rfl, rfl⟩, rfl⟩
      · next w1 p heq => rw [heq] at h; exact ⟨h, ⟨rfl, rfl⟩, rfl⟩
    · exact ⟨ReadOnly.readOnly_refl _, SameKey.sameKey_refl _, rfl⟩

theorem LookupRootIssue_frame : ∀ (fuel : Nat) (w : World) (i : Issue) (w' : World) (i' : Issue)
    (res : Except Err (Issue × Nat)),
    LookupRootIssue fuel w i = some (w', i', res) → ReadOnly w w' ∧ SameKey i i' := by
  intro fuel
  induction fuel with
  | zero => intro w i w' i' res h; simp [LookupRootIssue] at h
  | succ n ih =>
    intro w i w' i' res h
    unfold LookupRootIssue at h
    split at h
    · simp only [Option.some.injEq, Prod.mk.injEq] at h
      obtain ⟨rfl, rfl, -⟩ := h
      exact ⟨ReadOnly.readOnly_refl _, SameKey.sameKey_refl _⟩
    · have hl := LoadParentIssue_frame w i
      split at h
      · next w1 root1 e heq =>
        rw [heq] at hl
        simp only [Option.some.injEq, Prod.mk.injEq] at h
        obtain ⟨rfl, rfl, -⟩ := h
        exact hl
      · next w1 root1 heq =>
        rw [heq] at hl
        split at h
        · simp only [Option.some.injEq, Prod.mk.injEq] at h
          obtain ⟨rfl, rfl, -⟩ := h
          exact hl
        · next p hp =>
          split at h
          · simp at h
          · next w2 p2 e hrec =>
            simp only [Option.some.injEq, Prod.mk.injEq] at h
            obtain ⟨rfl, rfl, -⟩ := h
            have := ih _ _ _ _ _ hrec
            refine ⟨hl.1.readOnly_trans this.1, ?_⟩
            cases root1
            exact hl.2
          · next w2 p2 r depth hrec =>
            simp only [Option.some.injEq, Prod.mk.injEq] at h
            obtain ⟨rfl, rfl, -⟩ := h
            have := ih _ _ _ _ _ hrec
            refine ⟨hl.1.readOnly_trans this.1, ?_⟩
            cases root1
            exact hl.2

theorem countLoop_frame (count : World → Issue → Option (World × Issue × Except Err Nat))
    (hc : ∀ w i w' i' res, count w i = some (w', i', res) → ReadOnly w w') :
    ∀ (l : List Issue) (w : World) (n : Nat) (w' : World) (l' : List Issue) (res : Except Err Nat),
      countLoop count w l n = some (w', l', res) → ReadOnly w w' := by
  intro l
  induction l with
  | nil =>
    intro w n w' l' res h
    simp only [countLoop, Option.some.injEq, Prod.mk.injEq] at h
    obtain ⟨rfl, -, -⟩ := h
    exact ReadOnly.readOnly_refl _
  | cons s rest ih =>
    intro w n w' l' res h
    unfold countLoop at h
    split at h
    · simp at h
    · next w1 s1 e hs =>
      simp only [Option.some.injEq, Prod.mk.injEq] at h
      obtain ⟨rfl, -, -⟩ := h
      exact hc _ _ _ _ _ hs
    · next w1 s1 subcount hs =>
      split at h
      · simp at h
      · next w2 rest2 res2 hrest =>
        simp only [Option.some.injEq, Prod.mk.injEq] at h
        obtain ⟨rfl, -, -⟩ := h
        exact (hc _ _ _ _ _ hs).readOnly_trans (ih _ _ _ _ _ hrest)

theorem CountSubIssues_frame : ∀ (fuel : Nat) (w : World) (i : Issue) (w' : World) (i' : Issue)
    (res : Except Err Nat),
    CountSubIssues fuel w i = some (w', i', res) →
      ReadOnly w w' ∧ SameKey i i' ∧ i'.ParentIssue = i.ParentIssue := by
  intro fuel
  induction fuel with
  | zero => intro w i w' i' res h; simp [CountSubIssues] at h
  | succ n ih =>
    intro w i w' i' res h
    unfold CountSubIssues at h
    have hl := LoadSubIssues_frame w i
    split at h
    · next w1 issue1 e heq =>
      rw [heq] at hl
      simp only [Option.some.injEq, Prod.mk.injEq] at h
      obtain ⟨rfl, rfl, -⟩ := h
      exact hl
    · next w1 issue1 heq =>
      rw [heq] at hl
      split at h
      · simp at h
      · next w2 subs res2 hloop =>
        simp only [Option.some.injEq, Prod.mk.injEq] at h
        obtain ⟨rfl, rfl, -⟩ := h
        have := countLoop_frame (CountSubIssues n) (fun w i w' i' res hh => (ih w i w' i' res hh).1)
          _ _ _ _ _ _ hloop
        refine ⟨hl.1.readOnly_trans this, ?_, ?_⟩
        · cases issue1; exact hl.2.1
        · cases issue1; exact hl.2.2

theorem validateParent_frame (fuel : Nat) (cfg : Setting) (w : World) (issue parent : Issue)
    (w' : World) (p' : Issue) (e : Option Err)
    (h : validateParent fuel cfg w issue parent = some (w', p', e)) : ReadOnly w w' := by
  unfold validateParent at h
  split at h
  · simp at h
  · next w1 parent1 e1 hl =>
    simp only [Option.some.injEq, Prod.mk.injEq] at h
    obtain ⟨rfl, -, -⟩ := h
    exact (LookupRootIssue_frame _ _ _ _ _ _ hl).1
  · next w1 parent1 root depth hl =>
    have h1 := (LookupRootIssue_frame _ _ _ _ _ _ hl).1
    split at h
    · simp only [Option.some.injEq, Prod.mk.injEq] at h
      obtain ⟨rfl, -, -⟩ := h
      exact h1
    · split at h
      · simp at h
      · next w2 root2 e2 hc =>
        simp only [Option.some.injEq, Prod.mk.injEq] at h
        obtain ⟨rfl, -, -⟩ := h
        exact h1.readOnly_trans (CountSubIssues_frame _ _ _ _ _ _ hc).1
      · next w2 root2 rootCount hc =>
        have h2 := h1.readOnly_trans (CountSubIssues_frame _ _ _ _ _ _ hc).1
        simp only at h
        split at h
        · simp only [Option.some.injEq, Prod.mk.injEq] at h
          obtain ⟨rfl, -, -⟩ := h
          exact h2
        · split at h
          · simp only [Option.some.injEq, Prod.mk.injEq] at h
            obtain ⟨rfl, -, -⟩ := h
            exact h2
          · simp only [Option.some.injEq, Prod.mk.injEq] at h
            obtain ⟨rfl, -, -⟩ := h
            exact h2

theorem commitParent_err_not_rejection (w : World) (issue : Issue) (oldParent parent : Option Issue)
    (doer : Int) (e : Err) (h : (commitParent w issue oldParent parent doer).err = some e) :
    e.isRejection = false := by
  unfold commitParent at h
  simp only at h
  repeat' split at h
  all_goals first
    | (simp only [Option.some.injEq] at h; subst h; rfl)
    | simp at h

/-- C7. Idempotent no-op: `UpdateParentIssue(parent)` with `parent.ID` equal to the
issue's current `ParentIssueID`, and `UpdateParentIssue(nil)` when `ParentIssueID` is
already nil, returns nil at once: the store (rows, comments and every operation
counter) and both objects are exactly as before. -/
theorem UpdateParentIssue_noop (fuel : Nat) (cfg : Setting) (w : World) (issue : Issue)
    (parent : Option Issue) (doer : Int)
    (h : (∃ p, parent = some p ∧ issue.ParentIssueID = some p.ID) ∨
      (parent = none ∧ issue.ParentIssueID = none)) :
    UpdateParentIssue fuel cfg w issue parent doer =
      some { w := w, issue := issue, parent := parent, err := none } := by
  rcases h with ⟨p, rfl, hp⟩ | ⟨rfl, hp⟩
  · simp [UpdateParentIssue, hp]
  · simp [UpdateParentIssue, hp]

theorem UpdateParentIssue_noop_witness :
    ((∃ p, some (Issue.mk 23 none none false [] false) = some p ∧
        (Issue.mk 24 (some 23) none false [] false).ParentIssueID = some p.ID) ∨
      ((some (Issue.mk 23 none none false [] false) : Option Issue) = none ∧
        (Issue.mk 24 (some 23) none false [] false).ParentIssueID = none)) ∧
    UpdateParentIssue 0 ⟨1, 1⟩ ⟨[⟨23, none⟩, ⟨24, some 23⟩], [], 0, 0, 0, Faults.none⟩
        (Issue.mk 24 (some 23) none false [] false)
        (some (Issue.mk 23 none none false [] false)) 1 =
      some { w := ⟨[⟨23, none⟩, ⟨24, some 23⟩], [], 0, 0, 0, Faults.none⟩,
             issue := Issue.mk 24 (some 23) none false [] false,
             parent := some (Issue.mk 23 none none false [] false), err := none } :=
  ⟨Or.inl ⟨_, rfl, rfl⟩,
    UpdateParentIssue_noop 0 ⟨1, 1⟩ ⟨[⟨23, none⟩, ⟨24, some 23⟩], [], 0, 0, 0, Faults.none⟩
      (Issue.mk 24 (some 23) none false [] false)
      (some (Issue.mk 23 none none false [] false)) 1 (Or.inl ⟨_, rfl, rfl⟩)⟩

/-- C8. Rejection leaves state untouched: when `UpdateParentIssue` returns
`ErrSubIssuesTooDeep`, `ErrSubIssuesTooMany` or `ErrCircularParentIssue`, every row of
the issue table (so the persisted parent pointer of the child and of every other
issue) is as before, no write and no transaction was attempted, no audit comment was
recorded, and the in-memory `ParentIssueID` of the child is as before. -/
theorem UpdateParentIssue_rejection_untouched (fuel : Nat) (cfg : Setting) (w : World)
    (issue : Issue) (parent : Option Issue) (doer : Int) (r : UpdateResult) (e : Err)
    (h : UpdateParentIssue fuel cfg w issue parent doer = some r) (he : r.err = some e)
    (hr : e.isRejection = true) :
    r.w.rows = w.rows ∧ r.w.comments = w.comments ∧ r.w.writes = w.writes ∧ r.w.txs = w.txs ∧
      r.issue.ParentIssueID = issue.ParentIssueID := by
  unfold UpdateParentIssue at h
  split at h
  · simp only [Option.some.injEq] at h; subst h; simp at he
  · split at h
    · simp only [Option.some.injEq] at h; subst h; simp at he
    · have hl := LoadParentIssue_frame w issue
      split at h
      · next w1 issue1 e1 heq =>
        rw [heq] at hl
        simp only [Option.some.injEq] at h; subst h
        exact ⟨hl.1.1, hl.1.2.1, hl.1.2.2.1, hl.1.2.2.2.1, hl.2.2⟩
      · next w1 issue1 heq =>
        rw [heq] at hl
        simp only at h
        split at h
        · simp only [Option.some.injEq] at h; subst h
          have := commitParent_err_not_rejection _ _ _ _ _ _ he
          rw [this] at hr; cases hr
        · next p =>
          split at h
          · simp at h
          · next w2 p2 e2 hv =>
            simp only [Option.some.injEq] at h; subst h
            have hv := hl.1.readOnly_trans (validateParent_frame _ _ _ _ _ _ _ _ hv)
            exact ⟨hv.1, hv.2.1, hv.2.2.1, hv.2.2.2.1, hl.2.2⟩
          · next w2 p2 hv =>
            simp only [Option.some.injEq] at h; subst h
            have := commitParent_err_not_rejection _ _ _ _ _ _ he
            rw [this] at hr; cases hr

theorem GetIssueByID_ok (w : World) (id : Int) (hf : id ∉ w.faults.getIssueByID)
    (hr : ∃ row ∈ w.rows, row.id = id) :
    ∃ row ∈ w.rows, row.id = id ∧
      GetIssueByID w id = ({ w with reads := w.reads + 1 }, .ok (Issue.ofRow row)) := by
  unfold GetIssueByID
  simp only [hf, if_false]
  cases hfind : w.rows.find? (fun r => r.id == id) with
  | none =>
    obtain ⟨row, hmem, hid⟩ := hr
    have := List.find?_eq_none.mp hfind row hmem
    simp [hid] at this
  | some r =>
    have h1 := List.find?_some hfind
    have h2 := List.mem_of_find?_eq_some hfind
    exact ⟨r, h2, by simpa using h1, rfl⟩

/-- The effects of the transaction when no store operation fails. -/
theorem commitParent_ok (w : World) (issue : Issue) (oldParent parent : Option Issue) (doer : Int)
    (hf : w.faults = Faults.none) :
    commitParent w issue oldParent parent doer =
      { w := { w with
                txs := w.txs + 1
                writes := w.writes + 1
                rows := updateParentID w.rows issue.ID (parent.map Issue.ID)
                comments :=
                  (match oldParent with
                    | none => w.comments
                    | some old => w.comments ++ [⟨doer, old.ID, issue.ID, false⟩]) ++
                  (match parent with
                    | none => []
                    | some p => [⟨doer, p.ID, issue.ID, true⟩]) }
        issue := (issue.setParentIssueID (parent.map Issue.ID)).setIsParentIssueLoaded false
        parent := parent.map (fun p => p.setIsSubIssuesLoaded false)
        err := none } := by
  unfold commitParent
  simp only [hf, Faults.none, Bool.and_false, Bool.false_eq_true, if_false]
  cases parent <;> simp

theorem updateParentID_at (rows : List Row) (id : Int) (v : Option Int) :
    ∀ row ∈ updateParentID rows id v, row.id = id → row.parent_id = v := by
  intro row hmem hid
  unfold updateParentID at hmem
  rw [List.mem_map] at hmem
  obtain ⟨r0, -, rfl⟩ := hmem
  by_cases h : r0.id = id
  · simp [h]
  · simp [h] at hid

theorem GetIssueByID_err (w : World) (id : Int) (w1 : World) (e : Err)
    (h : GetIssueByID w id = (w1, .error e)) :
    e = .store .getIssueByID ∨ e = .ErrIssueNotExist id := by
  unfold GetIssueByID at h
  simp only at h
  split at h
  · simp only [Prod.mk.injEq, Except.error.injEq] at h
    exact Or.inl h.2.symm
  · split at h
    · simp only [Prod.mk.injEq, Except.error.injEq] at h
      exact Or.inr h.2.symm
    · simp at h

theorem LoadParentIssue_err (w : World) (i : Issue) (e : Err)
    (h : (LoadParentIssue w i).2.2 = some e) :
    ∃ pid, i.ParentIssueID = some pid ∧ (e = .store .getIssueByID ∨ e = .ErrIssueNotExist pid) := by
  unfold LoadParentIssue at h
  split at h
  · simp at h
  · next pid hpid =>
    refine ⟨pid, hpid, ?_⟩
    split at h
    · split at h
      · next w1 e1 heq =>
        simp only [Option.some.injEq] at h
        subst h
        exact GetIssueByID_err _ _ _ _ heq
      · simp at h
    · simp at h

theorem LoadParentIssue_err_not_rejection (w : World) (i : Issue) (e : Err)
    (h : (LoadParentIssue w i).2.2 = some e) : e.isRejection = false := by
  obtain ⟨pid, -, rfl | rfl⟩ := LoadParentIssue_err w i e h <;> rfl

theorem LoadParentIssue_ok (w : World) (i : Issue) (pid : Int) (hp : i.ParentIssueID = some pid)
    (hf : pid ∉ w.faults.getIssueByID) (hr : ∃ row ∈ w.rows, row.id = pid) :
    (LoadParentIssue w i).2.2 = none := by
  unfold LoadParentIssue
  rw [hp]
  simp only
  split
  · obtain ⟨row, -, -, hget⟩ := GetIssueByID_ok w pid hf hr
    rw [hget]
  · rfl

/-- C10. Removal is never rejected by validation: for an issue object that has a
parent (`ParentIssueID` present), `UpdateParentIssue(nil)` returns, whatever the fuel,
the settings and the rows of the store, and what it returns is never
`ErrSubIssuesTooDeep`, `ErrSubIssuesTooMany` or `ErrCircularParentIssue`; when no
store operation fails and the parent row exists, it returns nil, the in-memory
`ParentIssueID` is absent and every persisted row of the issue has `parent_id`
absent. -/
theorem UpdateParentIssue_remove_never_rejected (fuel : Nat) (cfg : Setting) (w : World)
    (issue : Issue) (doer : Int) (pid : Int) (hp : issue.ParentIssueID = some pid) :
    ∃ r, UpdateParentIssue fuel cfg w issue none doer = some r ∧
      (∀ e, r.err = some e → e.isRejection = false) ∧
      (w.faults = Faults.none → (∃ row ∈ w.rows, row.id = pid) →
        r.err = none ∧ r.issue.ParentIssueID = none ∧
          ∀ row ∈ r.w.rows, row.id = issue.ID → row.parent_id = none) := by
  cases issue with
  | mk a b c d e f =>
    simp only [Issue.ParentIssueID_mk] at hp
    subst hp
    unfold UpdateParentIssue
    simp only [Issue.ParentIssueID_mk, Option.isSome_some, Option.isSome_none, Bool.and_false,
      Bool.false_eq_true, if_false, Option.isNone_some, Bool.false_and]
    have hl := LoadParentIssue_frame w (Issue.mk a (some pid) c d e f)
    rcases hload : LoadParentIssue w (Issue.mk a (some pid) c d e f) with ⟨w1, issue1, _ | e1⟩
    · -- the old parent is available
      rw [hload] at hl
      refine ⟨_, rfl, ?_, ?_⟩
      · intro e he
        exact commitParent_err_not_rejection _ _ _ _ _ _ he
      · intro hf _
        have hf1 : w1.faults = Faults.none := hl.1.2.2.2.2.trans hf
        rw [commitParent_ok _ _ _ _ _ hf1]
        refine ⟨rfl, ?_, ?_⟩
        · cases issue1; rfl
        · intro row hmem hid
          simp only [Option.map_none'] at hmem
          have := hl.2.1
          simp only [Issue.ID_mk] at this
          rw [this] at hmem
          exact updateParentID_at _ _ _ row hmem hid
    · -- reading the old parent failed
      have herr : (LoadParentIssue w (Issue.mk a (some pid) c d e f)).2.2 = some e1 := by
        rw [hload]
      refine ⟨_, rfl, ?_, ?_⟩
      · intro e he
        simp only [Option.some.injEq] at he
        subst he
        exact LoadParentIssue_err_not_rejection _ _ _ herr
      · intro hf hrow
        exfalso
        have hnf : pid ∉ w.faults.getIssueByID := by rw [hf]; simp [Faults.none]
        rw [LoadParentIssue_ok w (Issue.mk a (some pid) c d e f) pid rfl hnf hrow] at herr
        cases herr

theorem UpdateParentIssue_remove_never_rejected_witness :
    (Issue.mk 24 (some 23) none false [] false).ParentIssueID = some 23 ∧
    ∃ r, UpdateParentIssue 0 ⟨0, 0⟩ ⟨[⟨23, none⟩, ⟨24, some 23⟩], [], 0, 0, 0, Faults.none⟩
        (Issue.mk 24 (some 23) none false [] false) none 1 = some r ∧
      (∀ e, r.err = some e → e.isRejection = false) ∧
      ((⟨[⟨23, none⟩, ⟨24, some 23⟩], [], 0, 0, 0, Faults.none⟩ : World).faults = Faults.none →
        (∃ row ∈ (⟨[⟨23, none⟩, ⟨24, some 23⟩], [], 0, 0, 0, Faults.none⟩ : World).rows,
          row.id = 23) →
        r.err = none ∧ r.issue.ParentIssueID = none ∧
          ∀ row ∈ r.w.rows, row.id = (Issue.mk 24 (some 23) none false [] false).ID →
            row.parent_id = none) :=
  ⟨rfl, UpdateParentIssue_remove_never_rejected 0 ⟨0, 0⟩
    ⟨[⟨23, none⟩, ⟨24, some 23⟩], [], 0, 0, 0, Faults.none⟩
    (Issue.mk 24 (some 23) none false [] false) 1 23 rfl⟩

theorem UpdateParentIssue_rejection_untouched_witness :
    ∃ r, UpdateParentIssue 5 ⟨2, 3⟩ ⟨[⟨23, none⟩, ⟨24, some 23⟩], [], 0, 0, 0, Faults.none⟩
        (Issue.ofRow ⟨23, none⟩) (some (Issue.ofRow ⟨24, some 23⟩)) 1 = some r ∧
      r.err = some (.ErrCircularParentIssue 23 24) ∧
      r.w.rows = [⟨23, none⟩, ⟨24, some 23⟩] ∧ r.w.comments = [] ∧ r.w.writes = 0 ∧
      r.w.txs = 0 ∧ r.issue.ParentIssueID = none :=
  ⟨_, rfl, rfl,
    UpdateParentIssue_rejection_untouched 5 ⟨2, 3⟩
      ⟨[⟨23, none⟩, ⟨24, some 23⟩], [], 0, 0, 0, Faults.none⟩
      (Issue.ofRow ⟨23, none⟩) (some (Issue.ofRow ⟨24, some 23⟩)) 1 _
      (.ErrCircularParentIssue 23 24) rfl rfl rfl⟩

/-! ## The parent graph of the table -/

theorem nthAncestor_succ (rows : List Row) (n : Nat) (id : Int) :
    nthAncestor rows (n + 1) id = (parentOf rows id).bind (nthAncestor rows n) := by
  simp only [nthAncestor]
  cases parentOf rows id <;> rfl

theorem nthAncestor_add (rows : List Row) (i k : Nat) (x : Int) :
    nthAncestor rows (i + k) x = (nthAncestor rows i x).bind (nthAncestor rows k) := by
  induction i generalizing x with
  | zero => simp [nthAncestor]
  | succ i ih =>
    rw [Nat.add_right_comm, nthAncestor_succ, nthAncestor_succ]
    cases parentOf rows x with
    | none => rfl
    | some y => simp only [Option.some_bind]; exact ih y

theorem noRevisit_iff_noCycle (rows : List Row) : NoRevisit rows ↔ NoCycle rows := by
  constructor
  · intro h id k hk
    exact h id 0 k id hk rfl
  · intro h id i j a hij hi hj
    obtain ⟨k, rfl⟩ := Nat.exists_eq_add_of_lt hij
    have : nthAncestor rows (i + (k + 1)) id = nthAncestor rows (k + 1) a := by
      rw [nthAncestor_add, hi]; rfl
    rw [Nat.add_assoc] at hj
    rw [this] at hj
    exact h a (k + 1) (Nat.succ_pos k) hj

/-- Two tables whose parent pointers agree away from `c` have the same chains as long
as the chain in the first table stays away from `c`. -/
theorem nthAncestor_agree (rows rows' : List Row) (c : Int)
    (hag : ∀ y, y ≠ c → parentOf rows' y = parentOf rows y) :
    ∀ (k : Nat) (x : Int), (∀ j, j < k → nthAncestor rows j x ≠ some c) →
      nthAncestor rows' k x = nthAncestor rows k x := by
  intro k
  induction k with
  | zero => intro x _; rfl
  | succ k ih =>
    intro x hx
    have hxc : x ≠ c := by
      intro h
      exact hx 0 (Nat.succ_pos k) (by rw [h]; rfl)
    rw [nthAncestor_succ, nthAncestor_succ, hag x hxc]
    cases hp : parentOf rows x with
    | none => rfl
    | some y =>
      simp only [Option.some_bind]
      apply ih
      intro j hj
      have := hx (j + 1) (Nat.succ_lt_succ hj)
      rwa [nthAncestor_succ, hp] at this

theorem nthAncestor_agree_symm (rows rows' : List Row) (c : Int)
    (hag : ∀ y, y ≠ c → parentOf rows' y = parentOf rows y)
    (k : Nat) (x : Int) (h : ∀ j, j < k → nthAncestor rows' j x ≠ some c) :
    nthAncestor rows' k x = nthAncestor rows k x :=
  (nthAncestor_agree rows' rows c (fun y hy => (hag y hy).symm) k x h).symm

/-- Linking `c` under `p` keeps the graph free of cycles when `c` is not `p` nor an
ancestor of `p`. -/
theorem noCycle_link (rows rows' : List Row) (c p : Int) (hn : NoCycle rows)
    (hag : ∀ y, y ≠ c → parentOf rows' y = parentOf rows y)
    (hc : parentOf rows' c = some p)
    (hp : ∀ k, nthAncestor rows k p ≠ some c) : NoCycle rows' := by
  intro x k hk hcyc
  by_cases hhit : ∃ j, j < k ∧ nthAncestor rows' j x = some c
  · obtain ⟨j, hj, hjc⟩ := hhit
    obtain ⟨m, rfl⟩ := Nat.exists_eq_add_of_le (Nat.le_of_lt hj)
    have h1 : nthAncestor rows' m c = some x := by
      rw [nthAncestor_add, hjc] at hcyc; exact hcyc
    have h2 : nthAncestor rows' (m + j) c = some c := by
      rw [nthAncestor_add, h1]; exact hjc
    have hpos : 0 < m + j := by omega
    obtain ⟨n, hn'⟩ := Nat.exists_eq_succ_of_ne_zero (Nat.pos_iff_ne_zero.mp hpos)
    rw [hn', Nat.succ_eq_add_one, nthAncestor_succ, hc] at h2
    simp only [Option.some_bind] at h2
    rw [nthAncestor_agree rows rows' c hag n p (fun j _ => hp j)] at h2
    exact hp n h2
  · have hfree : ∀ j, j < k → nthAncestor rows' j x ≠ some c := by
      intro j hj h
      exact hhit ⟨j, hj, h⟩
    rw [nthAncestor_agree_symm rows rows' c hag k x hfree] at hcyc
    exact hn x k hk hcyc

/-- Removing the parent pointer of `c` only shortens chains. -/
theorem nthAncestor_unlink (rows rows' : List Row) (c : Int)
    (hag : ∀ y, y ≠ c → parentOf rows' y = parentOf rows y)
    (hc : parentOf rows' c = none) :
    ∀ (k : Nat) (x a : Int), nthAncestor rows' k x = some a → nthAncestor rows k x = some a := by
  intro k
  induction k with
  | zero => intro x a h; exact h
  | succ k ih =>
    intro x a h
    rw [nthAncestor_succ] at h ⊢
    by_cases hx : x = c
    · rw [hx, hc] at h; cases h
    · rw [hag x hx] at h
      cases hp : parentOf rows x with
      | none => rw [hp] at h; cases h
      | some y =>
        rw [hp] at h
        simp only [Option.some_bind] at h ⊢
        exact ih y a h

theorem noCycle_unlink (rows rows' : List Row) (c : Int) (hn : NoCycle rows)
    (hag : ∀ y, y ≠ c → parentOf rows' y = parentOf rows y)
    (hc : parentOf rows' c = none) : NoCycle rows' := by
  intro x k hk hcyc
  exact hn x k hk (nthAncestor_unlink rows rows' c hag hc k x x hcyc)

/-- The parent pointers after the write of `parent_id`. -/
theorem parentOf_updateParentID (rows : List Row) (c : Int) (v : Option Int) (x : Int) :
    parentOf (updateParentID rows c v) x =
      if x = c then (if (rows.find? (fun r => r.id == c)).isSome then v else none)
      else parentOf rows x := by
  induction rows with
  | nil => simp [updateParentID, parentOf]
  | cons r rest ih =>
    unfold updateParentID parentOf at *
    simp only [List.map_cons, List.find?_cons]
    by_cases hrc : r.id = c
    · by_cases hxc : x = c
      · subst hxc; simp [hrc]
      · have : ¬ r.id = x := fun h => hxc (h.symm.trans hrc)
        simp only [hrc, beq_self_eq_true, if_true, hxc, if_false]
        have hb : (c == x) = false := by simpa using (fun h : c = x => hxc h.symm)
        simp only [hb]
        have := ih
        simp only [hxc, if_false] at this
        exact this
    · have hb : (r.id == c) = false := by simpa using hrc
      simp only [hb, Bool.false_eq_true, if_false]
      by_cases hrx : r.id = x
      · have hxc : x ≠ c := fun h => hrc (hrx.trans h)
        simp [hrx, hxc]
      · have hb2 : (r.id == x) = false := by simpa using hrx
        simp only [hb2]
        exact ih

/-- C2 (failing input). With `MaxSubIssuesDepth = 1`, issue 1 a root and issue 2 a root
with sub-issue 3, every issue has depth at most 1; `UpdateParentIssue` of issue 2 under
issue 1 succeeds (only `depth(1) + 1` is compared with the limit) and afterwards
issue 3 is two parent edges below its root: the depth bound no longer holds. -/
theorem UpdateParentIssue_depth_bound_violated :
    DepthBound [⟨1, none⟩, ⟨2, none⟩, ⟨3, some 2⟩] 1 ∧
    ∃ r, UpdateParentIssue 3 ⟨1, 10⟩ ⟨[⟨1, none⟩, ⟨2, none⟩, ⟨3, some 2⟩], [], 0, 0, 0, Faults.none⟩
        (Issue.ofRow ⟨2, none⟩) (some (Issue.ofRow ⟨1, none⟩)) 7 = some r ∧
      r.err = none ∧ r.w.rows = [⟨1, none⟩, ⟨2, some 1⟩, ⟨3, some 2⟩] ∧
      nthAncestor r.w.rows 2 3 = some 1 ∧ ¬ DepthBound r.w.rows 1 := by
  refine ⟨?_, _, rfl, rfl, rfl, rfl, ?_⟩
  · intro r hr n a h
    match n with
    | 0 => simp
    | 1 => simp
    | n + 2 =>
      exfalso
      simp only [List.mem_cons, List.mem_singleton, List.not_mem_nil, or_false] at hr
      rcases hr with rfl | rfl | rfl <;> simp [nthAncestor, parentOf, List.find?] at h
  · show ¬ DepthBound [⟨1, none⟩, ⟨2, some 1⟩, ⟨3, some 2⟩] 1
    intro hb
    have := hb ⟨3, some 2⟩ (by simp) 2 1 rfl
    omega

/-- C3 (failing input). With `MaxSubIssues = 1`, issue 1 a root without sub-issues and
issue 2 a root with sub-issue 3, every root has at most one descendant;
`UpdateParentIssue` of issue 2 under issue 1 succeeds (`CountSubIssues(1) + 1 = 1`
passes the check) and afterwards root 1 has the two descendants 2 and 3, which is also
what `CountSubIssues` returns for it. -/
theorem UpdateParentIssue_count_bound_violated :
    CountBound [⟨1, none⟩, ⟨2, none⟩, ⟨3, some 2⟩] 1 ∧
    ∃ r, UpdateParentIssue 3 ⟨10, 1⟩ ⟨[⟨1, none⟩, ⟨2, none⟩, ⟨3, some 2⟩], [], 0, 0, 0, Faults.none⟩
        (Issue.ofRow ⟨2, none⟩) (some (Issue.ofRow ⟨1, none⟩)) 7 = some r ∧
      r.err = none ∧ r.w.rows = [⟨1, none⟩, ⟨2, some 1⟩, ⟨3, some 2⟩] ∧
      (descendants r.w.rows 1).length = 2 ∧
      (CountSubIssues 3 r.w (Issue.ofRow ⟨1, none⟩)).map (fun x => x.2.2) = some (.ok 2) ∧
      ¬ CountBound r.w.rows 1 := by
  refine ⟨by decide, _, rfl, rfl, rfl, by decide, rfl, ?_⟩
  show ¬ CountBound [⟨1, none⟩, ⟨2, some 1⟩, ⟨3, some 2⟩] 1
  decide

/-! ## The cached parent chain -/

theorem circularWalk_eq (id : Int) : ∀ (i : Issue), circularWalk id i = decide (id ∈ i.chainIDs)
  | .mk cid _ none _ _ _ => by
    simp only [circularWalk, Issue.chainIDs, List.mem_singleton]
    by_cases h : cid = id
    · simp [h]
    · have : ¬ id = cid := fun h' => h h'.symm
      simp [h, this]
  | .mk cid _ (some p) _ _ _ => by
    simp only [circularWalk, Issue.chainIDs, List.mem_cons, circularWalk_eq id p]
    by_cases h : cid = id
    · simp [h]
    · have : ¬ id = cid := fun h' => h h'.symm
      simp [h, this]

theorem chainIDs_eq (i : Issue) :
    i.chainIDs = i.ID :: (match i.ParentIssue with
      | none => []
      | some p => p.chainIDs) := by
  cases i with
  | mk a b c d e f =>
    cases c <;> rfl

theorem chainIDs_setNthParent : ∀ (d : Nat) (i root r2 : Issue),
    i.nthParent d = some root → r2.ID = root.ID → r2.ParentIssue = root.ParentIssue →
    (i.setNthParent d r2).chainIDs = i.chainIDs := by
  intro d
  induction d with
  | zero =>
    intro i root r2 h h1 h2
    simp only [Issue.nthParent, Option.some.injEq] at h
    subst h
    rw [Issue.setNthParent, chainIDs_eq r2, chainIDs_eq i, h1, h2]
  | succ d ih =>
    intro i root r2 h h1 h2
    cases i with
    | mk a b c dd e f =>
      cases c with
      | none => simp [Issue.nthParent] at h
      | some p =>
        simp only [Issue.nthParent, Issue.ParentIssue_mk] at h
        simp only [Issue.setNthParent, Issue.ParentIssue_mk, Issue.setParentIssue_mk,
          Issue.chainIDs]
        rw [ih p root r2 h h1 h2]

theorem ID_setNthParent : ∀ (d : Nat) (i root r2 : Issue),
    i.nthParent d = some root → r2.ID = root.ID → (i.setNthParent d r2).ID = i.ID := by
  intro d i root r2 h h1
  cases d with
  | zero =>
    simp only [Issue.nthParent, Option.some.injEq] at h
    subst h
    exact h1
  | succ d =>
    cases i with
    | mk a b c dd e f =>
      cases c with
      | none => rfl
      | some p => rfl

/-- What `LookupRootIssue` returns is the object `depth` pointers up the chain it
leaves behind, and that object has no `ParentIssueID`. -/
theorem LookupRootIssue_root : ∀ (fuel : Nat) (w : World) (i : Issue) (w' : World) (i' : Issue)
    (root : Issue) (d : Nat),
    LookupRootIssue fuel w i = some (w', i', .ok (root, d)) →
      i'.nthParent d = some root ∧ root.ParentIssueID = none := by
  intro fuel
  induction fuel with
  | zero => intro w i w' i' root d h; simp [LookupRootIssue] at h
  | succ n ih =>
    intro w i w' i' root d h
    unfold LookupRootIssue at h
    split at h
    · next hnone =>
      simp only [Option.some.injEq, Prod.mk.injEq, Except.ok.injEq] at h
      obtain ⟨-, rfl, rfl, rfl⟩ := h
      exact ⟨rfl, hnone⟩
    · split at h
      · simp at h
      · next w1 root1 heq =>
        split at h
        · simp at h
        · next p hp =>
          split at h
          · simp at h
          · simp at h
          · next w2 p2 r depth hrec =>
            simp only [Option.some.injEq, Prod.mk.injEq, Except.ok.injEq] at h
            obtain ⟨-, rfl, rfl, rfl⟩ := h
            have := ih _ _ _ _ _ _ hrec
            refine ⟨?_, this.2⟩
            cases root1
            simp only [Issue.setParentIssue_mk, Issue.nthParent, Issue.ParentIssue_mk]
            exact this.1

theorem parentOf_of_find (rows : List Row) (id : Int) (r : Row)
    (h : rows.find? (fun r => r.id == id) = some r) :
    r.id = id ∧ parentOf rows id = r.parent_id := by
  refine ⟨by simpa using List.find?_some h, ?_⟩
  unfold parentOf
  rw [h]

/-- The object `GetIssueByID` returns is coherent with the table it was read from. -/
theorem GetIssueByID_coherent (w : World) (id : Int) (w1 : World) (p : Issue)
    (h : GetIssueByID w id = (w1, .ok p)) : p.ID = id ∧ Coherent w.rows p := by
  unfold GetIssueByID at h
  simp only at h
  split at h
  · simp at h
  · split at h
    · simp at h
    · next r hfind =>
      simp only [Prod.mk.injEq, Except.ok.injEq] at h
      obtain ⟨-, rfl⟩ := h
      obtain ⟨h1, h2⟩ := parentOf_of_find _ _ _ hfind
      refine ⟨h1, ?_⟩
      simp only [Issue.ofRow, Coherent]
      rw [h1, h2]

/-- After a successful `LoadParentIssue` of a coherent object with `ParentIssueID`
`pid`, the `ParentIssue` pointer, when not nil, is a coherent object with ID `pid`. -/
theorem LoadParentIssue_coherent (w : World) (i : Issue) (pid : Int) (w1 : World) (i1 : Issue)
    (hc : Coherent w.rows i) (hp : i.ParentIssueID = some pid)
    (h : LoadParentIssue w i = (w1, i1, none)) :
    ∀ q, i1.ParentIssue = some q → q.ID = pid ∧ Coherent w.rows q := by
  cases i with
  | mk a b c d e f =>
    simp only [Issue.ParentIssueID_mk] at hp
    subst hp
    unfold LoadParentIssue at h
    simp only [Issue.ParentIssueID_mk, Issue.isParentIssueLoaded_mk, Issue.ParentIssue_mk] at h
    split at h
    · split at h
      · simp at h
      · next w2 p hget =>
        simp only [Issue.setParentIssue_mk, Issue.setIsParentIssueLoaded_mk, Prod.mk.injEq,
          and_true] at h
        obtain ⟨-, rfl⟩ := h
        intro q hq
        simp only [Issue.ParentIssue_mk, Option.some.injEq] at hq
        subst hq
        exact GetIssueByID_coherent _ _ _ _ hget
    · next hcond =>
      simp only [Prod.mk.injEq, and_true] at h
      obtain ⟨-, rfl⟩ := h
      intro q hq
      simp only [Issue.ParentIssue_mk] at hq
      subst hq
      simp only [Coherent] at hc
      apply hc.2 pid rfl
      cases d with
      | true => exact Or.inl rfl
      | false =>
        right
        simp only [Bool.not_false, Bool.true_and, bne_iff_ne, ne_eq, Decidable.not_not] at hcond
        exact hcond

/-- On a coherent object a successful `LookupRootIssue` has walked the persisted
parent chain: every issue reached from the object's ID by following `parent_id` is
the ID of an object on the pointer chain left behind. -/
theorem LookupRootIssue_chain : ∀ (fuel : Nat) (w : World) (i : Issue) (w' : World) (i' : Issue)
    (root : Issue) (d : Nat),
    Coherent w.rows i →
    LookupRootIssue fuel w i = some (w', i', .ok (root, d)) →
      ∀ k a, nthAncestor w.rows k i.ID = some a → a ∈ i'.chainIDs := by
  intro fuel
  induction fuel with
  | zero => intro w i w' i' root d _ h; simp [LookupRootIssue] at h
  | succ n ih =>
    intro w i w' i' root d hc h k a hk
    unfold LookupRootIssue at h
    split at h
    · next hnone =>
      simp only [Option.some.injEq, Prod.mk.injEq, Except.ok.injEq] at h
      obtain ⟨-, rfl, -, -⟩ := h
      have hpar : parentOf w.rows i.ID = none := by
        cases i with
        | mk a1 b c dd e f =>
          simp only [Issue.ParentIssueID_mk] at hnone
          subst hnone
          cases c with
          | none => simp only [Coherent] at hc; exact hc.symm
          | some q => simp only [Coherent] at hc; exact hc.1.symm
      cases k with
      | zero =>
        simp only [nthAncestor, Option.some.injEq] at hk
        subst hk
        rw [chainIDs_eq]; exact List.mem_cons_self _ _
      | succ k => rw [nthAncestor_succ, hpar] at hk; cases hk
    · next pid hpid =>
      split at h
      · simp at h
      · next w1 root1 heq =>
        have hfr := LoadParentIssue_frame w i
        rw [heq] at hfr
        have hcoh := LoadParentIssue_coherent w i pid w1 root1 hc hpid heq
        split at h
        · simp at h
        · next p hp =>
          obtain ⟨hpidq, hcq⟩ := hcoh p hp
          split at h
          · simp at h
          · simp at h
          · next w2 p2 r depth hrec =>
            simp only [Option.some.injEq, Prod.mk.injEq, Except.ok.injEq] at h
            obtain ⟨-, rfl, -, -⟩ := h
            have hrows : w1.rows = w.rows := hfr.1.1
            have hpar : parentOf w.rows i.ID = some pid := by
              cases i with
              | mk a1 b c dd e f =>
                simp only [Issue.ParentIssueID_mk] at hpid
                subst hpid
                cases c with
                | none => simp only [Coherent] at hc; exact hc.symm
                | some q => simp only [Coherent] at hc; exact hc.1.symm
            have hid1 : root1.ID = i.ID := hfr.2.1
            rw [chainIDs_eq]
            cases k with
            | zero =>
              simp only [nthAncestor, Option.some.injEq] at hk
              subst hk
              have : (root1.setParentIssue (some p2)).ID = i.ID := by
                cases root1; exact hid1
              rw [this]; exact List.mem_cons_self _ _
            | succ k =>
              rw [nthAncestor_succ, hpar] at hk
              simp only [Option.some_bind] at hk
              have hmem := ih w1 p w2 p2 r depth (by rw [hrows]; exact hcq) hrec k a
                (by rw [hrows, hpidq]; exact hk)
              have : (root1.setParentIssue (some p2)).ParentIssue = some p2 := by
                cases root1; rfl
              rw [this]
              exact List.mem_cons_of_mem _ hmem

/-- When the validation block lets a coherent `parent` through, the child is neither
the parent nor one of its persisted ancestors. -/
theorem validateParent_pass (fuel : Nat) (cfg : Setting) (w : World) (issue parent : Issue)
    (w' : World) (p' : Issue) (hc : Coherent w.rows parent)
    (h : validateParent fuel cfg w issue parent = some (w', p', none)) :
    (∀ k, nthAncestor w.rows k parent.ID ≠ some issue.ID) ∧ p'.ID = parent.ID := by
  unfold validateParent at h
  split at h
  · simp at h
  · simp at h
  · next w1 parent1 root depth hl =>
    split at h
    · simp at h
    · split at h
      · simp at h
      · simp at h
      · next w2 root2 rootCount hcount =>
        simp only at h
        split at h
        · simp at h
        · split at h
          · simp at h
          · next hwalk =>
            simp only [Option.some.injEq, Prod.mk.injEq, and_true] at h
            obtain ⟨-, rfl⟩ := h
            obtain ⟨hroot, -⟩ := LookupRootIssue_root _ _ _ _ _ _ _ hl
            obtain ⟨-, hkey, hpi⟩ := CountSubIssues_frame _ _ _ _ _ _ hcount
            have hchain := chainIDs_setNthParent depth parent1 root root2 hroot hkey.1 hpi
            have hid := ID_setNthParent depth parent1 root root2 hroot hkey.1
            have hfr := LookupRootIssue_frame _ _ _ _ _ _ hl
            refine ⟨?_, hid.trans hfr.2.1⟩
            intro k hk
            have hmem := LookupRootIssue_chain _ _ _ _ _ _ _ hc hl k issue.ID hk
            rw [circularWalk_eq, hchain] at hwalk
            simp only [decide_eq_true_eq] at hwalk
            exact hwalk hmem

/-- A transaction that returned nil has written `parent_id` and nothing else. -/
theorem commitParent_success (w : World) (issue : Issue) (oldParent parent : Option Issue)
    (doer : Int) (h : (commitParent w issue oldParent parent doer).err = none) :
    (commitParent w issue oldParent parent doer).w.rows =
      updateParentID w.rows issue.ID (parent.map Issue.ID) := by
  unfold commitParent at h ⊢
  simp only at h ⊢
  repeat' split at h
  all_goals first
    | (exfalso; simp at h; done)
    | simp_all

/-- One successful call of `UpdateParentIssue` on a coherent `parent` keeps the parent
graph free of cycles. -/
theorem UpdateParentIssue_noCycle (fuel : Nat) (cfg : Setting) (w : World) (issue : Issue)
    (parent : Option Issue) (doer : Int) (r : UpdateResult)
    (hn : NoCycle w.rows) (hc : ∀ p, parent = some p → Coherent w.rows p)
    (h : UpdateParentIssue fuel cfg w issue parent doer = some r) (he : r.err = none) :
    NoCycle r.w.rows := by
  unfold UpdateParentIssue at h
  split at h
  · simp only [Option.some.injEq] at h; subst h; exact hn
  · split at h
    · simp only [Option.some.injEq] at h; subst h; exact hn
    · have hl := LoadParentIssue_frame w issue
      split at h
      · simp only [Option.some.injEq] at h; subst h; simp at he
      · next w1 issue1 heq =>
        rw [heq] at hl
        have hrows1 : w1.rows = w.rows := hl.1.1
        have hid1 : issue1.ID = issue.ID := hl.2.1
        simp only at h
        cases parent with
        | none =>
          simp only [Option.some.injEq] at h; subst h
          rw [commitParent_success _ _ _ _ _ he, hrows1, hid1]
          simp only [Option.map_none']
          have hpo := parentOf_updateParentID w.rows issue.ID none
          refine noCycle_unlink w.rows _ issue.ID hn ?_ ?_
          · intro y hy; rw [hpo y]; simp [hy]
          · rw [hpo issue.ID]; simp
        | some p =>
          simp only at h
          split at h
          · simp at h
          · simp only [Option.some.injEq] at h; subst h; simp at he
          · next w2 p2 hv =>
            simp only [Option.some.injEq] at h; subst h
            have hcp : Coherent w1.rows p := by rw [hrows1]; exact hc p rfl
            obtain ⟨hanc, hpid⟩ := validateParent_pass _ _ _ _ _ _ _ hcp hv
            have hrows2 : w2.rows = w.rows :=
              (validateParent_frame _ _ _ _ _ _ _ _ hv).1.trans hrows1
            rw [hrows1, hid1] at hanc
            rw [commitParent_success _ _ _ _ _ he, hrows2, hid1]
            simp only [Option.map_some', hpid]
            have hpo := parentOf_updateParentID w.rows issue.ID (some p.ID)
            by_cases hrow : (w.rows.find? (fun r => r.id == issue.ID)).isSome = true
            · refine noCycle_link w.rows _ issue.ID p.ID hn ?_ ?_ hanc
              · intro y hy; rw [hpo y]; simp [hy]
              · rw [hpo issue.ID]; simp [hrow]
            · have hpar : parentOf w.rows issue.ID = none := by
                unfold parentOf
                cases hf : w.rows.find? (fun r => r.id == issue.ID) with
                | none => rfl
                | some x => rw [hf] at hrow; simp at hrow
              refine noCycle_unlink w.rows _ issue.ID hn ?_ ?_
              · intro y hy; rw [hpo y]; simp [hy]
              · rw [hpo issue.ID]; simp [hrow]

/-- C1. Acyclicity is preserved: from a table in which following `parent_id` never
revisits an issue, any sequence of successful `UpdateParentIssue` calls, each given a
`parent` object whose `ParentIssueID` field and those of its cached parents agree with
the table, leads to a table in which following `parent_id` from any issue never
revisits an issue already seen. -/
theorem UpdateParentIssue_preserves_acyclicity (cfg : Setting) (rows0 rows : List Row)
    (h0 : NoRevisit rows0) (hr : Reachable cfg rows0 rows) : NoRevisit rows := by
  rw [noRevisit_iff_noCycle] at h0 ⊢
  induction hr with
  | start => exact h0
  | call w fuel issue parent doer r _ hc h he ih =>
    exact UpdateParentIssue_noCycle fuel cfg w issue parent doer r ih hc h he

theorem UpdateParentIssue_preserves_acyclicity_witness :
    NoRevisit [⟨23, none⟩, ⟨24, none⟩] ∧
    Reachable ⟨2, 3⟩ [⟨23, none⟩, ⟨24, none⟩] [⟨23, none⟩, ⟨24, some 23⟩] ∧
    NoRevisit [⟨23, none⟩, ⟨24, some 23⟩] := by
  have h0 : NoRevisit [⟨23, none⟩, ⟨24, none⟩] := by
    rw [noRevisit_iff_noCycle]
    intro id k hk
    obtain ⟨n, rfl⟩ := Nat.exists_eq_succ_of_ne_zero (Nat.pos_iff_ne_zero.mp hk)
    have : parentOf [⟨23, none⟩, ⟨24, none⟩] id = none := by
      simp only [parentOf, List.find?]
      cases (23 == id) <;> cases (24 == id) <;> rfl
    rw [Nat.succ_eq_add_one, nthAncestor_succ, this]
    simp
  have hr : Reachable ⟨2, 3⟩ [⟨23, none⟩, ⟨24, none⟩] [⟨23, none⟩, ⟨24, some 23⟩] :=
    @Reachable.call ⟨2, 3⟩ [⟨23, none⟩, ⟨24, none⟩]
      ⟨[⟨23, none⟩, ⟨24, none⟩], [], 0, 0, 0, Faults.none⟩ 2
      (Issue.ofRow ⟨24, none⟩) (some (Issue.ofRow ⟨23, none⟩)) 1
      ⟨⟨[⟨23, none⟩, ⟨24, some 23⟩], [⟨1, 23, 24, true⟩], 1, 1, 1, Faults.none⟩,
        Issue.mk 24 (some 23) none false [] false,
        some (Issue.mk 23 none none false [] false), none⟩
      Reachable.start
      (fun p hp => by
        simp only [Option.some.injEq] at hp
        subst hp
        exact (rfl : (none : Option Int) = parentOf [⟨23, none⟩, ⟨24, none⟩] 23))
      rfl rfl
  exact ⟨h0, hr, UpdateParentIssue_preserves_acyclicity ⟨2, 3⟩ _ _ h0 hr⟩

theorem LoadParentIssue_root (w : World) (i : Issue) (h : i.ParentIssueID = none) :
    LoadParentIssue w i = (w, i, none) := by
  unfold LoadParentIssue
  rw [h]

theorem LookupRootIssue_of_root (fuel : Nat) (w : World) (i : Issue)
    (h : i.ParentIssueID = none) :
    LookupRootIssue (fuel + 1) w i = some (w, i, .ok (i, 0)) := by
  unfold LookupRootIssue
  rw [h]

theorem CountSubIssues_fuel_pos {fuel : Nat} {w : World} {i : Issue}
    {x : World × Issue × Except Err Nat} (h : CountSubIssues fuel w i = some x) :
    ∃ n, fuel = n + 1 := by
  cases fuel with
  | zero => simp [CountSubIssues] at h
  | succ n => exact ⟨n, rfl⟩

theorem chainIDs_congr (a b : Issue) (h1 : b.ID = a.ID) (h2 : b.ParentIssue = a.ParentIssue) :
    b.chainIDs = a.chainIDs := by
  rw [chainIDs_eq b, chainIDs_eq a, h1, h2]

/-- The validation block for a `parent` that is a root, in terms of what
`CountSubIssues` returns for it. -/
theorem validateParent_root (fuel : Nat) (cfg : Setting) (w : World) (c R : Issue)
    (w2 : World) (R2 : Issue) (n : Nat)
    (hR : R.ParentIssueID = none) (hd : 1 ≤ cfg.MaxSubIssuesDepth)
    (hcount : CountSubIssues fuel w R = some (w2, R2, .ok n)) :
    validateParent fuel cfg w c R = some (w2, R2,
      if (n : Int) + 1 > cfg.MaxSubIssues then some (.ErrSubIssuesTooMany c.ID R.ID R.ID)
      else if c.ID ∈ R.chainIDs then some (.ErrCircularParentIssue c.ID R.ID)
      else none) := by
  obtain ⟨m, rfl⟩ := CountSubIssues_fuel_pos hcount
  obtain ⟨-, hkey, hpi⟩ := CountSubIssues_frame _ _ _ _ _ _ hcount
  unfold validateParent
  rw [LookupRootIssue_of_root m w R hR]
  have hnd : ¬ (((0 : Nat) : Int) + 1 > cfg.MaxSubIssuesDepth) := by
    simp only [Nat.cast_zero, zero_add, gt_iff_lt, not_lt]; exact hd
  simp only [hnd, if_false, hcount, Issue.setNthParent]
  rw [circularWalk_eq, chainIDs_congr R R2 hkey.1 hpi]
  by_cases h1 : (n : Int) + 1 > cfg.MaxSubIssues
  · simp [h1]
  · by_cases h2 : c.ID ∈ R.chainIDs
    · simp [h1, h2]
    · simp [h1, h2]

/-- The count check of `UpdateParentIssue(c, R)` for a parentless `c` and a root object
`R` on which `CountSubIssues` returns `n`: the call succeeds below the limit and is
rejected with `ErrSubIssuesTooMany` at the limit. -/
theorem UpdateParentIssue_count_check (fuel : Nat) (cfg : Setting) (w : World) (c R : Issue)
    (doer : Int) (w2 : World) (R2 : Issue) (n : Nat)
    (hc : c.ParentIssueID = none) (hR : R.ParentIssueID = none)
    (hd : 1 ≤ cfg.MaxSubIssuesDepth)
    (hcount : CountSubIssues fuel w R = some (w2, R2, .ok n)) :
    ((n : Int) < cfg.MaxSubIssues → c.ID ∉ R.chainIDs → w.faults = Faults.none →
      ∃ r, UpdateParentIssue fuel cfg w c (some R) doer = some r ∧ r.err = none ∧
        r.w.rows = updateParentID w.rows c.ID (some R.ID) ∧
        r.issue.ParentIssueID = some R.ID) ∧
    ((n : Int) = cfg.MaxSubIssues →
      ∃ r, UpdateParentIssue fuel cfg w c (some R) doer = some r ∧
        r.err = some (.ErrSubIssuesTooMany c.ID R.ID R.ID) ∧ r.w.rows = w.rows) := by
  have hv := validateParent_root fuel cfg w c R w2 R2 n hR hd hcount
  obtain ⟨hro, hkey, -⟩ := CountSubIssues_frame _ _ _ _ _ _ hcount
  have hnoop1 : (c.ParentIssueID.isSome && (some R).isSome &&
      c.ParentIssueID == Option.map Issue.ID (some R)) = false := by
    rw [hc]; rfl
  have hnoop2 : (c.ParentIssueID.isNone && (some R).isNone) = false := by
    rw [hc]; rfl
  constructor
  · intro hlt hnot hf
    have h1 : ¬ ((n : Int) + 1 > cfg.MaxSubIssues) := by omega
    simp only [h1, hnot, if_false] at hv
    have hupd : UpdateParentIssue fuel cfg w c (some R) doer =
        some (commitParent w2 c c.ParentIssue (some R2) doer) := by
      unfold UpdateParentIssue
      simp only [hnoop1, hnoop2, Bool.false_eq_true, if_false, LoadParentIssue_root w c hc, hv]
    refine ⟨_, hupd, ?_, ?_, ?_⟩
    · rw [commitParent_ok _ _ _ _ _ (hro.2.2.2.2.trans hf)]
    · rw [commitParent_ok _ _ _ _ _ (hro.2.2.2.2.trans hf)]
      simp only [Option.map_some', hro.1, hkey.1]
    · rw [commitParent_ok _ _ _ _ _ (hro.2.2.2.2.trans hf)]
      simp only [Option.map_some', hkey.1]
      cases c; rfl
  · intro heq
    have h1 : (n : Int) + 1 > cfg.MaxSubIssues := by omega
    simp only [h1, if_true] at hv
    have hupd : UpdateParentIssue fuel cfg w c (some R) doer =
        some { w := w2, issue := c, parent := some R2,
               err := some (.ErrSubIssuesTooMany c.ID R.ID R.ID) } := by
      unfold UpdateParentIssue
      simp only [hnoop1, hnoop2, Bool.false_eq_true, if_false, LoadParentIssue_root w c hc, hv]
    exact ⟨_, hupd, rfl, hro.1⟩

/-- C4 (counterexample). A root without sub-issues and without parent, offered as its
own parent with the count below the limit (`CountSubIssues = 0 < 3`), is rejected with
`ErrCircularParentIssue`; the call does not succeed. -/
theorem UpdateParentIssue_count_boundary_self :
    (Issue.ofRow ⟨23, none⟩).ParentIssueID = none ∧
    (CountSubIssues 2 ⟨[⟨23, none⟩], [], 0, 0, 0, Faults.none⟩ (Issue.ofRow ⟨23, none⟩)).map
      (fun x => x.2.2) = some (.ok 0) ∧
    ∃ r, UpdateParentIssue 2 ⟨2, 3⟩ ⟨[⟨23, none⟩], [], 0, 0, 0, Faults.none⟩
        (Issue.ofRow ⟨23, none⟩) (some (Issue.ofRow ⟨23, none⟩)) 1 = some r ∧
      r.err = some (.ErrCircularParentIssue 23 23) :=
  ⟨rfl, rfl, _, rfl, rfl⟩

/-- C6 (counterexample). Issue 1 is the parent of issue 2 and `MaxSubIssuesDepth = 1`:
`UpdateParentIssue(1, 2)` returns `ErrSubIssuesTooDeep{1, 2, 1}`, not
`ErrCircularParentIssue{1, 2}`, because the depth check comes first. -/
theorem UpdateParentIssue_cycle_reported_too_deep :
    parentOf [⟨1, none⟩, ⟨2, some 1⟩] 2 = some 1 ∧
    ∃ r, UpdateParentIssue 3 ⟨1, 10⟩ ⟨[⟨1, none⟩, ⟨2, some 1⟩], [], 0, 0, 0, Faults.none⟩
        (Issue.ofRow ⟨1, none⟩) (some (Issue.ofRow ⟨2, some 1⟩)) 7 = some r ∧
      r.err = some (.ErrSubIssuesTooDeep 1 2 1) ∧
      r.err ≠ some (.ErrCircularParentIssue 1 2) :=
  ⟨rfl, _, rfl, rfl, by decide⟩

/-- C9 (failing input). Issues 23 and 24 are roots. After a first link and unlink of
24 under 23 the child object has no `ParentIssueID` but still points to the old parent
object. A link then unlink round trip on the same objects succeeds twice, ends with
`parent_id` of 24 absent, and has recorded three audit events, the first of them an
unlink of 24 from 23 although 24 was a root. -/
theorem UpdateParentIssue_round_trip_stale_parent :
    ∃ r1 r2 r3 r4,
      UpdateParentIssue 2 ⟨2, 3⟩ ⟨[⟨23, none⟩, ⟨24, none⟩], [], 0, 0, 0, Faults.none⟩
        (Issue.ofRow ⟨24, none⟩) (some (Issue.ofRow ⟨23, none⟩)) 1 = some r1 ∧
      UpdateParentIssue 2 ⟨2, 3⟩ r1.w r1.issue none 1 = some r2 ∧
      r2.w.rows = [⟨23, none⟩, ⟨24, none⟩] ∧
      r2.issue = Issue.mk 24 none (some (Issue.mk 23 none none false [] false)) false [] false ∧
      r1.parent = some (Issue.mk 23 none none false [] false) ∧
      UpdateParentIssue 2 ⟨2, 3⟩ r2.w r2.issue r1.parent 1 = some r3 ∧ r3.err = none ∧
      UpdateParentIssue 2 ⟨2, 3⟩ r3.w r3.issue none 1 = some r4 ∧ r4.err = none ∧
      r4.issue.ParentIssueID = none ∧ r4.w.rows = [⟨23, none⟩, ⟨24, none⟩] ∧
      r4.w.comments = r2.w.comments ++
        [⟨1, 23, 24, false⟩, ⟨1, 23, 24, true⟩, ⟨1, 23, 24, false⟩] :=
  ⟨_, _, _, _, rfl, rfl, rfl, rfl, rfl, rfl, rfl, rfl, rfl, rfl, rfl, rfl⟩

/-! ## Primary key and chain length -/

theorem find_of_mem (rows : List Row) (hu : UniqueIDs rows) (r : Row) (hr : r ∈ rows) :
    rows.find? (fun x => x.id == r.id) = some r := by
  induction rows with
  | nil => cases hr
  | cons a rest ih =>
    unfold UniqueIDs at hu
    simp only [List.map_cons, List.nodup_cons] at hu
    rw [List.find?_cons]
    rcases List.mem_cons.mp hr with rfl | hmem
    · simp
    · have hne : a.id ≠ r.id := by
        intro h
        exact hu.1 (h ▸ List.mem_map_of_mem Row.id hmem)
      have hb : (a.id == r.id) = false := by simpa using hne
      rw [hb]
      exact ih hu.2 hmem

theorem parentOf_of_mem (rows : List Row) (hu : UniqueIDs rows) (r : Row) (hr : r ∈ rows) :
    parentOf rows r.id = r.parent_id := by
  unfold parentOf
  rw [find_of_mem rows hu r hr]

theorem mem_of_parentOf (rows : List Row) (x p : Int) (h : parentOf rows x = some p) :
    ∃ r ∈ rows, r.id = x ∧ r.parent_id = some p := by
  unfold parentOf at h
  cases hf : rows.find? (fun r => r.id == x) with
  | none => rw [hf] at h; cases h
  | some r =>
    rw [hf] at h
    exact ⟨r, List.mem_of_find?_eq_some hf, by simpa using List.find?_some hf, h⟩

theorem nthAncestor_isSome_of_le (rows : List Row) (n : Nat) (x a : Int)
    (h : nthAncestor rows n x = some a) (i : Nat) (hi : i ≤ n) :
    ∃ v, nthAncestor rows i x = some v := by
  obtain ⟨k, rfl⟩ := Nat.exists_eq_add_of_le hi
  rw [nthAncestor_add] at h
  cases hv : nthAncestor rows i x with
  | none => rw [hv] at h; cases h
  | some v => exact ⟨v, rfl⟩

theorem nthAncestor_one (rows : List Row) (x : Int) :
    nthAncestor rows 1 x = parentOf rows x := by
  simp only [nthAncestor]
  cases parentOf rows x <;> rfl

/-- In a table without cycle a chain of `n` parent edges passes through `n` different
rows. -/
theorem chain_le_length (rows : List Row) (hn : NoCycle rows) (n : Nat) (x a : Int)
    (h : nthAncestor rows n x = some a) : n ≤ rows.length := by
  have hrev := (noRevisit_iff_noCycle rows).mpr hn
  let L := (List.range n).map (fun i => nthAncestor rows i x)
  have hnd : L.Nodup := by
    refine List.Nodup.map_on ?_ (List.nodup_range n)
    intro i hi j hj hij
    simp only [List.mem_range] at hi hj
    obtain ⟨v, hv⟩ := nthAncestor_isSome_of_le rows n x a h i (Nat.le_of_lt hi)
    by_contra hne
    rcases Nat.lt_or_gt_of_ne hne with hlt | hgt
    · exact hrev x i j v hlt hv (hij ▸ hv)
    · exact hrev x j i v hgt (hij ▸ hv) hv
  have hsub : L ⊆ rows.map (fun r => some r.id) := by
    intro o ho
    simp only [L, List.mem_map, List.mem_range] at ho
    obtain ⟨i, hi, rfl⟩ := ho
    obtain ⟨v, hv⟩ := nthAncestor_isSome_of_le rows n x a h i (Nat.le_of_lt hi)
    obtain ⟨v', hv'⟩ := nthAncestor_isSome_of_le rows n x a h (i + 1) hi
    rw [nthAncestor_add, hv, Option.some_bind, nthAncestor_one] at hv'
    obtain ⟨r, hr, hid, -⟩ := mem_of_parentOf rows v v' hv'
    rw [hv]
    exact List.mem_map.mpr ⟨r, hr, by rw [hid]⟩
  have := (List.Nodup.subperm hnd hsub).length_le
  simpa [L] using this

/-! ## `LookupRootIssue` on an object as scanned from its row -/

theorem GetIssueByID_of_mem (w : World) (hu : UniqueIDs w.rows) (r : Row) (hr : r ∈ w.rows)
    (hf : w.faults.getIssueByID = []) :
    GetIssueByID w r.id = ({ w with reads := w.reads + 1 }, .ok (Issue.ofRow r)) := by
  unfold GetIssueByID
  simp only [hf, List.not_mem_nil, if_false, find_of_mem w.rows hu r hr]

theorem LookupRootIssue_ofRow : ∀ (d : Nat) (w : World) (irow : Row) (r : Int) (fuel : Nat),
    UniqueIDs w.rows → irow ∈ w.rows → w.faults.getIssueByID = [] →
    nthAncestor w.rows d irow.id = some r → parentOf w.rows r = none →
    (∃ row ∈ w.rows, row.id = r) → d < fuel →
    ∃ w' i' rootRow,
      LookupRootIssue fuel w (Issue.ofRow irow) = some (w', i', .ok (Issue.ofRow rootRow, d)) ∧
      rootRow ∈ w.rows ∧ rootRow.id = r ∧ rootRow.parent_id = none ∧
      (∀ a ∈ i'.chainIDs, ∃ k, k ≤ d ∧ nthAncestor w.rows k irow.id = some a) := by
  intro d
  induction d with
  | zero =>
    intro w irow r fuel hu hmem _ hchain hroot _ hfuel
    simp only [nthAncestor, Option.some.injEq] at hchain
    subst hchain
    obtain ⟨f, rfl⟩ := Nat.exists_eq_succ_of_ne_zero (Nat.pos_iff_ne_zero.mp hfuel)
    have hpar : irow.parent_id = none := by
      rw [← parentOf_of_mem w.rows hu irow hmem]; exact hroot
    refine ⟨w, Issue.ofRow irow, irow, ?_, hmem, rfl, hpar, ?_⟩
    · exact LookupRootIssue_of_root f w _ (by simp [Issue.ofRow, hpar])
    · intro a ha
      simp only [Issue.ofRow, Issue.chainIDs, List.mem_singleton] at ha
      exact ⟨0, Nat.le_refl _, by rw [ha]; rfl⟩
  | succ d ih =>
    intro w irow r fuel hu hmem hf hchain hroot hrow hfuel
    obtain ⟨f, rfl⟩ := Nat.exists_eq_succ_of_ne_zero
      (Nat.pos_iff_ne_zero.mp (Nat.lt_of_le_of_lt (Nat.zero_le _) hfuel))
    have hfuel' : d < f := Nat.lt_of_succ_lt_succ hfuel
    rw [nthAncestor_succ] at hchain
    cases hp : parentOf w.rows irow.id with
    | none => rw [hp] at hchain; cases hchain
    | some p =>
      rw [hp, Option.some_bind] at hchain
      have hpid : irow.parent_id = some p := by
        rw [← parentOf_of_mem w.rows hu irow hmem]; exact hp
      have hprow : ∃ prow ∈ w.rows, prow.id = p := by
        cases d with
        | zero =>
          simp only [nthAncestor, Option.some.injEq] at hchain
          subst hchain; exact hrow
        | succ d' =>
          rw [nthAncestor_succ] at hchain
          cases hpp : parentOf w.rows p with
          | none => rw [hpp] at hchain; cases hchain
          | some g =>
            obtain ⟨row, hr1, hr2, -⟩ := mem_of_parentOf w.rows p g hpp
            exact ⟨row, hr1, hr2⟩
      obtain ⟨prow, hpmem, rfl⟩ := hprow
      obtain ⟨w2, p2, rootRow, hrec, h1, h2, h3, h4⟩ :=
        ih { w with reads := w.reads + 1 } prow r f hu hpmem hf hchain hroot hrow hfuel'
      refine ⟨w2, (Issue.mk irow.id (some prow.id) (some p2) true [] false), rootRow, ?_, h1, h2,
        h3, ?_⟩
      · unfold LookupRootIssue
        simp only [Issue.ofRow, Issue.ParentIssueID_mk, hpid, LoadParentIssue,
          Issue.isParentIssueLoaded_mk, Issue.ParentIssue_mk, Bool.not_false, Bool.and_self,
          if_true, GetIssueByID_of_mem w hu prow hpmem hf, Issue.setParentIssue_mk,
          Issue.setIsParentIssueLoaded_mk]
        have hrec' := hrec
        simp only [Issue.ofRow] at hrec'
        rw [hrec']
      · intro a ha
        simp only [Issue.chainIDs, List.mem_cons] at ha
        rcases ha with rfl | ha
        · exact ⟨0, Nat.zero_le _, rfl⟩
        · obtain ⟨k, hk, hka⟩ := h4 a ha
          refine ⟨k + 1, Nat.succ_le_succ hk, ?_⟩
          rw [nthAncestor_succ, hp, Option.some_bind]
          exact hka

/-! ## Counting descendants -/

theorem countP_or_disjoint {α : Type} (p q : α → Bool) (l : List α)
    (h : ∀ y ∈ l, ¬ (p y = true ∧ q y = true)) :
    l.countP (fun y => p y || q y) = l.countP p + l.countP q := by
  induction l with
  | nil => rfl
  | cons a rest ih =>
    have ih' := ih (fun y hy => h y (List.mem_cons_of_mem _ hy))
    have ha := h a (List.mem_cons_self _ _)
    simp only [List.countP_cons, ih']
    cases hp : p a <;> cases hq : q a <;> simp_all <;> omega

theorem countP_any_disjoint {α γ : Type} (E : γ → α → Bool) (rows : List α) :
    ∀ (cs : List γ), cs.Nodup →
      (∀ c ∈ cs, ∀ c' ∈ cs, c ≠ c' → ∀ y ∈ rows, ¬ (E c y = true ∧ E c' y = true)) →
      rows.countP (fun y => cs.any (fun c => E c y)) = (cs.map (fun c => rows.countP (E c))).sum := by
  intro cs
  induction cs with
  | nil => intro _ _; simp
  | cons c rest ih =>
    intro hnd hdis
    simp only [List.any_cons, List.map_cons, List.sum_cons]
    rw [countP_or_disjoint (E c) (fun y => rest.any (fun c => E c y)) rows]
    · rw [ih (List.nodup_cons.mp hnd).2
        (fun a ha b hb hab => hdis a (List.mem_cons_of_mem _ ha) b (List.mem_cons_of_mem _ hb) hab)]
    · intro y hy ⟨h1, h2⟩
      rw [List.any_eq_true] at h2
      obtain ⟨c', hc', hE⟩ := h2
      have hne : c ≠ c' := by
        intro h; subst h
        exact (List.nodup_cons.mp hnd).1 hc'
      exact hdis c (List.mem_cons_self _ _) c' (List.mem_cons_of_mem _ hc') hne y hy ⟨h1, hE⟩

/-- Issue `x` is reached from issue `y` by following `parent_id` at least once. -/
theorem isDescendant_iff (rows : List Row) (hn : NoCycle rows) (x y : Int) :
    (List.range rows.length).any (fun n => nthAncestor rows (n + 1) y == some x) = true ↔
      ∃ n, nthAncestor rows (n + 1) y = some x := by
  rw [List.any_eq_true]
  constructor
  · rintro ⟨n, -, h⟩
    exact ⟨n, by simpa using h⟩
  · rintro ⟨n, h⟩
    have := chain_le_length rows hn (n + 1) y x h
    exact ⟨n, List.mem_range.mpr this, by simpa using h⟩

theorem isDescendant_step (rows : List Row) (x y : Int) :
    (∃ n, nthAncestor rows (n + 1) y = some x) ↔
      parentOf rows y = some x ∨
        ∃ c, parentOf rows c = some x ∧ ∃ n, nthAncestor rows (n + 1) y = some c := by
  constructor
  · rintro ⟨n, h⟩
    cases n with
    | zero => left; rw [← nthAncestor_one]; exact h
    | succ m =>
      right
      rw [nthAncestor_add] at h
      cases hc : nthAncestor rows (m + 1) y with
      | none => rw [hc] at h; cases h
      | some c =>
        rw [hc, Option.some_bind, nthAncestor_one] at h
        exact ⟨c, h, m, hc⟩
  · rintro (h | ⟨c, hc, n, hn⟩)
    · exact ⟨0, by rw [nthAncestor_one]; exact h⟩
    · refine ⟨n + 1, ?_⟩
      rw [nthAncestor_add, hn, Option.some_bind, nthAncestor_one]
      exact hc

theorem mem_children (rows : List Row) (x : Int) (c : Row) :
    c ∈ children rows x ↔ c ∈ rows ∧ c.parent_id = some x := by
  unfold children
  rw [List.mem_filter]
  simp

theorem nodup_of_uniqueIDs (rows : List Row) (hu : UniqueIDs rows) : rows.Nodup :=
  List.Nodup.of_map Row.id hu

theorem eq_of_id_eq (rows : List Row) (hu : UniqueIDs rows) (a b : Row) (ha : a ∈ rows)
    (hb : b ∈ rows) (h : a.id = b.id) : a = b := by
  have h1 := find_of_mem rows hu a ha
  have h2 := find_of_mem rows hu b hb
  rw [h] at h1
  rw [h1] at h2
  exact Option.some.inj h2

/-- Two different sub-issues of `x` have no row in common among themselves and their
descendants. -/
theorem children_disjoint (rows : List Row) (hu : UniqueIDs rows) (hn : NoCycle rows) (x : Int)
    (c c' : Row) (hc : c ∈ children rows x) (hc' : c' ∈ children rows x) (hne : c ≠ c')
    (y : Int) (i j : Nat) (hi : nthAncestor rows i y = some c.id)
    (hj : nthAncestor rows j y = some c'.id) : False := by
  rw [mem_children] at hc hc'
  have hpc : parentOf rows c.id = some x := by rw [parentOf_of_mem rows hu c hc.1]; exact hc.2
  have hpc' : parentOf rows c'.id = some x := by rw [parentOf_of_mem rows hu c' hc'.1]; exact hc'.2
  -- the later of the two on the chain is an ancestor of the earlier one
  have key : ∀ (a b : Row) (i j : Nat), parentOf rows a.id = some x → parentOf rows b.id = some x →
      nthAncestor rows i y = some a.id → nthAncestor rows j y = some b.id → i < j → False := by
    intro a b i j hpa hpb hi hj hij
    obtain ⟨k, rfl⟩ := Nat.exists_eq_add_of_lt hij
    rw [Nat.add_assoc, nthAncestor_add, hi, Option.some_bind, nthAncestor_succ, hpa,
      Option.some_bind] at hj
    -- x reaches b in k steps and b's parent is x
    have : nthAncestor rows (k + 1) x = some x := by
      rw [nthAncestor_add, hj, Option.some_bind, nthAncestor_one]; exact hpb
    exact hn x (k + 1) (Nat.succ_pos k) this
  rcases Nat.lt_trichotomy i j with hlt | heq | hgt
  · exact key c c' i j hpc hpc' hi hj hlt
  · subst heq
    rw [hi] at hj
    exact hne (eq_of_id_eq rows hu c c' hc.1 hc'.1 (Option.some.inj hj))
  · exact key c' c j i hpc' hpc hj hi hgt

/-- The descendants of `x` are its sub-issues together with their descendants, each
counted once. -/
theorem descendants_length (rows : List Row) (hu : UniqueIDs rows) (hn : NoCycle rows) (x : Int) :
    (descendants rows x).length =
      ((children rows x).map (fun c => 1 + (descendants rows c.id).length)).sum := by
  have hnd := nodup_of_uniqueIDs rows hu
  let dB : Int → Row → Bool := fun a y =>
    (List.range rows.length).any (fun n => nthAncestor rows (n + 1) y.id == some a)
  let E : Row → Row → Bool := fun c y => (y == c) || dB c.id y
  have hdesc : ∀ a, (descendants rows a).length = rows.countP (dB a) := by
    intro a
    rw [List.countP_eq_length_filter]
    rfl
  have hcs_nd : (children rows x).Nodup := List.Nodup.filter _ hnd
  -- the descendants of x are described through the sub-issues of x
  have h1 : rows.countP (dB x) = rows.countP (fun y => (children rows x).any (fun c => E c y)) := by
    apply List.countP_congr
    intro y hy
    simp only [dB, E]
    rw [isDescendant_iff rows hn, List.any_eq_true, isDescendant_step]
    constructor
    · rintro (h | ⟨c, hc, n, hcn⟩)
      · refine ⟨y, (mem_children rows x y).mpr ⟨hy, ?_⟩, by simp⟩
        rw [← parentOf_of_mem rows hu y hy]; exact h
      · obtain ⟨r, hr, hrid, hrp⟩ := mem_of_parentOf rows c x hc
        refine ⟨r, (mem_children rows x r).mpr ⟨hr, hrp⟩, ?_⟩
        rw [Bool.or_eq_true]
        right
        rw [isDescendant_iff rows hn, hrid]
        exact ⟨n, hcn⟩
    · rintro ⟨c, hc, hE⟩
      rw [Bool.or_eq_true] at hE
      have hc2 := (mem_children rows x c).mp hc
      rcases hE with h | h
      · have : y = c := by simpa using h
        subst this
        left
        rw [parentOf_of_mem rows hu y hy]; exact hc2.2
      · right
        rw [isDescendant_iff rows hn] at h
        exact ⟨c.id, by rw [parentOf_of_mem rows hu c hc2.1]; exact hc2.2, h⟩
  -- the parts belonging to different sub-issues are disjoint
  have h2 : rows.countP (fun y => (children rows x).any (fun c => E c y)) =
      ((children rows x).map (fun c => rows.countP (E c))).sum := by
    apply countP_any_disjoint E rows _ hcs_nd
    intro c hc c' hc' hne y hy ⟨hE, hE'⟩
    simp only [E, Bool.or_eq_true] at hE hE'
    have pos : ∀ (a : Row), ((y == a) = true ∨ dB a.id y = true) →
        ∃ i, nthAncestor rows i y.id = some a.id := by
      intro a ha
      rcases ha with h | h
      · have : y = a := by simpa using h
        exact ⟨0, by rw [this]; rfl⟩
      · simp only [dB] at h
        rw [isDescendant_iff rows hn] at h
        obtain ⟨n, hn'⟩ := h
        exact ⟨n + 1, hn'⟩
    obtain ⟨i, hi⟩ := pos c hE
    obtain ⟨j, hj⟩ := pos c' hE'
    exact children_disjoint rows hu hn x c c' hc hc' hne y.id i j hi hj
  -- each part is the sub-issue and its descendants
  have h3 : ∀ c ∈ children rows x, rows.countP (E c) = 1 + (descendants rows c.id).length := by
    intro c hc
    have hc2 := (mem_children rows x c).mp hc
    simp only [E]
    rw [countP_or_disjoint (fun y => y == c) (dB c.id) rows, hdesc c.id]
    · congr 1
      have := List.count_eq_one_of_mem hnd hc2.1
      rw [List.count] at this
      rw [← this]
    · intro y _ ⟨hy1, hy2⟩
      have : y = c := by simpa using hy1
      subst this
      simp only [dB] at hy2
      rw [isDescendant_iff rows hn] at hy2
      obtain ⟨n, hn'⟩ := hy2
      exact hn y.id (n + 1) (Nat.succ_pos n) hn'
  rw [hdesc x, h1, h2, List.map_congr_left h3]

/-! ## `CountSubIssues` on an object without loaded sub-issues -/

theorem sum_map_one_add (l : List Row) (g : Row → Nat) :
    (l.map (fun c => 1 + g c)).sum = l.length + (l.map g).sum := by
  induction l with
  | nil => rfl
  | cons a rest ih => simp only [List.map_cons, List.sum_cons, List.length_cons, ih]; omega

/-- The loop of `CountSubIssues` when every recursive call returns its count. -/
theorem countLoop_ok (count : World → Issue → Option (World × Issue × Except Err Nat))
    (P : World → Prop) (f : Row → Nat) :
    ∀ (l : List Row),
      (∀ c ∈ l, ∀ w, P w → ∃ w' c', count w (Issue.ofRow c) = some (w', c', .ok (f c)) ∧ P w' ∧
        ReadOnly w w') →
      ∀ w n, P w → ∃ w' l', countLoop count w (l.map Issue.ofRow) n =
        some (w', l', .ok (n + (l.map f).sum)) ∧ P w' ∧ ReadOnly w w' := by
  intro l
  induction l with
  | nil =>
    intro _ w n hP
    exact ⟨w, [], by simp [countLoop], hP, ReadOnly.readOnly_refl w⟩
  | cons c rest ih =>
    intro hc w n hP
    obtain ⟨w1, c1, h1, hP1, hr1⟩ := hc c (List.mem_cons_self _ _) w hP
    obtain ⟨w2, l2, h2, hP2, hr2⟩ :=
      ih (fun a ha => hc a (List.mem_cons_of_mem _ ha)) w1 (n + f c) hP1
    refine ⟨w2, c1 :: l2, ?_, hP2, hr1.readOnly_trans hr2⟩
    simp only [List.map_cons, countLoop, h1, h2, List.sum_cons, Nat.add_assoc]

/-- `CountSubIssues` of an object whose sub-issues are not loaded returns the number
of transitive descendants of its issue, once the fuel exceeds what is left of the
longest possible chain. -/
theorem CountSubIssues_descendants (rows : List Row) (faults : Faults) (hu : UniqueIDs rows)
    (hn : NoCycle rows) (hf : faults.find = []) :
    ∀ (fuel : Nat) (x : Int) (k : Nat) (a : Int), nthAncestor rows k x = some a →
      rows.length < k + fuel →
      ∀ (w : World) (i : Issue), w.rows = rows → w.faults = faults → i.ID = x →
        i.isSubIssuesLoaded = false →
        ∃ w' i', CountSubIssues fuel w i = some (w', i', .ok (descendants rows x).length) ∧
          ReadOnly w w' := by
  intro fuel
  induction fuel with
  | zero =>
    intro x k a hk hlt
    have := chain_le_length rows hn k x a hk
    omega
  | succ fuel ih =>
    intro x k a hk hlt w i hrows hfaults hid hunl
    have hload : LoadSubIssues w i =
        ({ w with reads := w.reads + 1 },
          (i.setSubIssues ((children rows x).map Issue.ofRow)).setIsSubIssuesLoaded true, none) := by
      unfold LoadSubIssues GetSubIssuesByIssueID
      simp only [hunl, Bool.not_false, if_true, hfaults, hf, List.not_mem_nil, if_false, hrows, hid]
      rfl
    let P : World → Prop := fun v => v.rows = rows ∧ v.faults = faults
    have hchild : ∀ c ∈ children rows x, ∀ v, P v →
        ∃ v' c', CountSubIssues fuel v (Issue.ofRow c) =
          some (v', c', .ok ((fun c => (descendants rows c.id).length) c)) ∧ P v' ∧ ReadOnly v v' := by
      intro c hc v hP
      have hc2 := (mem_children rows x c).mp hc
      have hanc : nthAncestor rows (k + 1) c.id = some a := by
        rw [nthAncestor_succ, parentOf_of_mem rows hu c hc2.1, hc2.2, Option.some_bind]
        exact hk
      obtain ⟨v', c', h1, h2⟩ := ih c.id (k + 1) a hanc (by omega) v (Issue.ofRow c) hP.1 hP.2 rfl rfl
      exact ⟨v', c', h1, ⟨h2.1.trans hP.1, h2.2.2.2.2.trans hP.2⟩, h2⟩
    obtain ⟨w2, l2, hloop, -, hr2⟩ :=
      countLoop_ok (CountSubIssues fuel) P (fun c => (descendants rows c.id).length)
        (children rows x) hchild { w with reads := w.reads + 1 }
        ((children rows x).map Issue.ofRow).length ⟨hrows, hfaults⟩
    have hr1 : ReadOnly w { w with reads := w.reads + 1 } := ⟨rfl, rfl, rfl, rfl, rfl⟩
    refine ⟨w2, ((i.setSubIssues ((children rows x).map Issue.ofRow)).setIsSubIssuesLoaded
      true).setSubIssues l2, ?_, hr1.readOnly_trans hr2⟩
    unfold CountSubIssues
    rw [hload]
    have hsubs : ((i.setSubIssues ((children rows x).map Issue.ofRow)).setIsSubIssuesLoaded
        true).SubIssues = (children rows x).map Issue.ofRow := by
      cases i; rfl
    simp only [hsubs, hloop]
    rw [descendants_length rows hu hn x, sum_map_one_add, List.length_map]

/-! ## The validation block on a parent object as scanned from its row -/

theorem coherent_ofRow (rows : List Row) (hu : UniqueIDs rows) (r : Row) (hr : r ∈ rows) :
    Coherent rows (Issue.ofRow r) := by
  simp only [Issue.ofRow, Coherent]
  exact (parentOf_of_mem rows hu r hr).symm

theorem chain_rows (rows : List Row) (n : Nat) (x r : Int) (h : nthAncestor rows n x = some r)
    (hr : ∃ row ∈ rows, row.id = r) (i : Nat) (hi : i ≤ n) (v : Int)
    (hv : nthAncestor rows i x = some v) : ∃ row ∈ rows, row.id = v := by
  rcases Nat.eq_or_lt_of_le hi with heq | hlt
  · subst heq
    rw [h] at hv
    cases hv
    exact hr
  · obtain ⟨v', hv'⟩ := nthAncestor_isSome_of_le rows n x r h (i + 1) hlt
    rw [nthAncestor_add, hv, Option.some_bind, nthAncestor_one] at hv'
    obtain ⟨row, h1, h2, -⟩ := mem_of_parentOf rows v v' hv'
    exact ⟨row, h1, h2⟩

/-- The outcome of the validation block for a `parent` object as scanned from its row
`prow`, at depth `d` below root `r`, in a table with primary key and without cycle, when
no read fails and the fuel exceeds the number of rows. -/
theorem validateParent_ofRow (fuel : Nat) (cfg : Setting) (w : World) (issue : Issue) (prow : Row)
    (d : Nat) (r : Int) (hu : UniqueIDs w.rows) (hn : NoCycle w.rows)
    (hf1 : w.faults.getIssueByID = []) (hf2 : w.faults.find = [])
    (hp : prow ∈ w.rows) (hchain : nthAncestor w.rows d prow.id = some r)
    (hroot : parentOf w.rows r = none) (hrrow : ∃ row ∈ w.rows, row.id = r)
    (hfuel : w.rows.length < fuel) :
    ∃ w' p' e, validateParent fuel cfg w issue (Issue.ofRow prow) = some (w', p', e) ∧
      ReadOnly w w' ∧ p'.ID = prow.id ∧
      ((d : Int) + 1 > cfg.MaxSubIssuesDepth →
        e = some (.ErrSubIssuesTooDeep issue.ID prow.id r)) ∧
      ((d : Int) + 1 ≤ cfg.MaxSubIssuesDepth →
        ((descendants w.rows r).length : Int) + 1 > cfg.MaxSubIssues →
        e = some (.ErrSubIssuesTooMany issue.ID prow.id r)) ∧
      ((d : Int) + 1 ≤ cfg.MaxSubIssuesDepth →
        ((descendants w.rows r).length : Int) + 1 ≤ cfg.MaxSubIssues →
        (∃ k, nthAncestor w.rows k prow.id = some issue.ID) →
        e = some (.ErrCircularParentIssue issue.ID prow.id)) ∧
      ((d : Int) + 1 ≤ cfg.MaxSubIssuesDepth →
        ((descendants w.rows r).length : Int) + 1 ≤ cfg.MaxSubIssues →
        (¬ ∃ k, nthAncestor w.rows k prow.id = some issue.ID) → e = none) := by
  have hd : d < fuel := Nat.lt_of_le_of_lt (chain_le_length w.rows hn d prow.id r hchain) hfuel
  obtain ⟨w1, p1, rootRow, hl, hrmem, hrid, hrpar, hsub⟩ :=
    LookupRootIssue_ofRow d w prow r fuel hu hp hf1 hchain hroot hrrow hd
  have hfr1 := LookupRootIssue_frame _ _ _ _ _ _ hl
  have hparent_id : (Issue.ofRow prow).ID = prow.id := rfl
  have hroot_id : (Issue.ofRow rootRow).ID = r := hrid
  by_cases hdeep : (d : Int) + 1 > cfg.MaxSubIssuesDepth
  · refine ⟨w1, p1, _, ?_, hfr1.1, hfr1.2.1, fun _ => rfl, ?_, ?_, ?_⟩
    · unfold validateParent
      simp only [hl, hdeep, if_true, hparent_id, hroot_id]
    · intro h; omega
    · intro h; omega
    · intro h; omega
  · obtain ⟨w2, root2, hcount, hfr2⟩ :=
      CountSubIssues_descendants w.rows w.faults hu hn hf2 fuel r 0 r rfl (by omega) w1
        (Issue.ofRow rootRow) hfr1.1.1 hfr1.1.2.2.2.2 hrid rfl
    obtain ⟨-, hkey, hpi⟩ := CountSubIssues_frame _ _ _ _ _ _ hcount
    obtain ⟨hnth, -⟩ := LookupRootIssue_root _ _ _ _ _ _ _ hl
    have hchainIDs := chainIDs_setNthParent d p1 (Issue.ofRow rootRow) root2 hnth hkey.1 hpi
    have hid2 := ID_setNthParent d p1 (Issue.ofRow rootRow) root2 hnth hkey.1
    have hwalk : circularWalk issue.ID (p1.setNthParent d root2) = true ↔
        ∃ k, nthAncestor w.rows k prow.id = some issue.ID := by
      rw [circularWalk_eq, hchainIDs, decide_eq_true_eq]
      constructor
      · intro hmem
        obtain ⟨k, -, hk⟩ := hsub _ hmem
        exact ⟨k, hk⟩
      · rintro ⟨k, hk⟩
        exact LookupRootIssue_chain _ _ _ _ _ _ _ (coherent_ofRow w.rows hu prow hp) hl k _ hk
    have hval : validateParent fuel cfg w issue (Issue.ofRow prow) = some (w2, p1.setNthParent d root2,
        if ((descendants w.rows r).length : Int) + 1 > cfg.MaxSubIssues then
          some (.ErrSubIssuesTooMany issue.ID prow.id r)
        else if circularWalk issue.ID (p1.setNthParent d root2) then
          some (.ErrCircularParentIssue issue.ID prow.id)
        else none) := by
      unfold validateParent
      simp only [hl, hdeep, if_false, hcount, hparent_id, hroot_id]
      by_cases h1 : ((descendants w.rows r).length : Int) + 1 > cfg.MaxSubIssues
      · simp only [h1, if_true]
      · simp only [h1, if_false]
        cases hcw : circularWalk issue.ID (p1.setNthParent d root2) <;> simp
    refine ⟨w2, _, _, hval, hfr1.1.readOnly_trans hfr2, hid2.trans hfr1.2.1, ?_, ?_, ?_, ?_⟩
    · intro h; exact absurd h hdeep
    · intro _ h; simp only [h, if_true]
    · intro _ h hex
      have h1 : ¬ (((descendants w.rows r).length : Int) + 1 > cfg.MaxSubIssues) := by omega
      simp only [h1, if_false, hwalk.mpr hex, if_true]
    · intro _ h hex
      have h1 : ¬ (((descendants w.rows r).length : Int) + 1 > cfg.MaxSubIssues) := by omega
      have h2 : circularWalk issue.ID (p1.setNthParent d root2) = false := by
        cases hcw : circularWalk issue.ID (p1.setNthParent d root2) with
        | false => rfl
        | true => exact absurd (hwalk.mp hcw) hex
      simp only [h1, if_false, h2, Bool.false_eq_true]

/-- The depth check of `UpdateParentIssue(c, p)` for a parentless `c` and an object `p`
as scanned from its row at depth `d` below root `r`. -/
theorem UpdateParentIssue_depth_check (fuel : Nat) (cfg : Setting) (w : World) (c : Issue)
    (prow : Row) (doer : Int) (d : Nat) (r : Int)
    (hu : UniqueIDs w.rows) (hn : NoCycle w.rows) (hf : w.faults = Faults.none)
    (hp : prow ∈ w.rows) (hchain : nthAncestor w.rows d prow.id = some r)
    (hroot : parentOf w.rows r = none) (hrrow : ∃ row ∈ w.rows, row.id = r)
    (hc : c.ParentIssueID = none) (hfuel : w.rows.length < fuel) :
    ((d : Int) + 1 ≤ cfg.MaxSubIssuesDepth →
      ((descendants w.rows r).length : Int) + 1 ≤ cfg.MaxSubIssues →
      children w.rows c.ID = [] → c.ID ≠ prow.id →
      ∃ res, UpdateParentIssue fuel cfg w c (some (Issue.ofRow prow)) doer = some res ∧
        res.err = none ∧ res.w.rows = updateParentID w.rows c.ID (some prow.id) ∧
        res.issue.ParentIssueID = some prow.id) ∧
    ((d : Int) + 1 > cfg.MaxSubIssuesDepth →
      ∃ res, UpdateParentIssue fuel cfg w c (some (Issue.ofRow prow)) doer = some res ∧
        res.err = some (.ErrSubIssuesTooDeep c.ID prow.id r) ∧ res.w.rows = w.rows) := by
  have hf1 : w.faults.getIssueByID = [] := by rw [hf]; rfl
  have hf2 : w.faults.find = [] := by rw [hf]; rfl
  obtain ⟨w', p', e, hv, hro, hpid, hdeep, -, -, hpass⟩ :=
    validateParent_ofRow fuel cfg w c prow d r hu hn hf1 hf2 hp hchain hroot hrrow hfuel
  have hnoop1 : (c.ParentIssueID.isSome && (some (Issue.ofRow prow)).isSome &&
      c.ParentIssueID == Option.map Issue.ID (some (Issue.ofRow prow))) = false := by
    rw [hc]; rfl
  have hnoop2 : (c.ParentIssueID.isNone && (some (Issue.ofRow prow)).isNone) = false := by
    rw [hc]; rfl
  constructor
  · intro h1 h2 hleaf hne
    have hnot : ¬ ∃ k, nthAncestor w.rows k prow.id = some c.ID := by
      rintro ⟨k, hk⟩
      cases k with
      | zero =>
        simp only [nthAncestor, Option.some.injEq] at hk
        exact hne hk.symm
      | succ k =>
        rw [nthAncestor_add] at hk
        cases hv' : nthAncestor w.rows k prow.id with
        | none => rw [hv'] at hk; cases hk
        | some v =>
          rw [hv', Option.some_bind, nthAncestor_one] at hk
          obtain ⟨row, hr1, -, hr3⟩ := mem_of_parentOf w.rows v c.ID hk
          have : row ∈ children w.rows c.ID := (mem_children w.rows c.ID row).mpr ⟨hr1, hr3⟩
          rw [hleaf] at this
          cases this
    have he := hpass h1 h2 hnot
    subst he
    have hupd : UpdateParentIssue fuel cfg w c (some (Issue.ofRow prow)) doer =
        some (commitParent w' c c.ParentIssue (some p') doer) := by
      unfold UpdateParentIssue
      simp only [hnoop1, hnoop2, Bool.false_eq_true, if_false, LoadParentIssue_root w c hc, hv]
    have hfw : w'.faults = Faults.none := hro.2.2.2.2.trans hf
    refine ⟨_, hupd, ?_, ?_, ?_⟩
    · rw [commitParent_ok _ _ _ _ _ hfw]
    · rw [commitParent_ok _ _ _ _ _ hfw]
      simp only [Option.map_some', hro.1, hpid]
    · rw [commitParent_ok _ _ _ _ _ hfw]
      simp only [Option.map_some', hpid]
      cases c; rfl
  · intro h1
    have he := hdeep h1
    subst he
    have hupd : UpdateParentIssue fuel cfg w c (some (Issue.ofRow prow)) doer =
        some { w := w', issue := c, parent := some p',
               err := some (.ErrSubIssuesTooDeep c.ID prow.id r) } := by
      unfold UpdateParentIssue
      simp only [hnoop1, hnoop2, Bool.false_eq_true, if_false, LoadParentIssue_root w c hc, hv]
    exact ⟨_, hupd, rfl, hro.1⟩

/-- C5 (counterexample). Issue 31 is a root (depth 0 below itself) without parent and
without sub-issues, the tree count is below the limit and `0 + 1 <= MaxSubIssuesDepth`;
offered as its own parent it is rejected with `ErrCircularParentIssue`. -/
theorem UpdateParentIssue_depth_boundary_self :
    nthAncestor [⟨23, none⟩, ⟨31, none⟩] 0 31 = some 31 ∧
    parentOf [⟨23, none⟩, ⟨31, none⟩] 31 = none ∧
    children [⟨23, none⟩, ⟨31, none⟩] 31 = [] ∧
    (descendants [⟨23, none⟩, ⟨31, none⟩] 31).length = 0 ∧
    ∃ r, UpdateParentIssue 3 ⟨2, 3⟩ ⟨[⟨23, none⟩, ⟨31, none⟩], [], 0, 0, 0, Faults.none⟩
        (Issue.ofRow ⟨31, none⟩) (some (Issue.ofRow ⟨31, none⟩)) 1 = some r ∧
      r.err = some (.ErrCircularParentIssue 31 31) ∧ r.err ≠ none :=
  ⟨rfl, rfl, rfl, rfl, _, rfl, rfl, by decide⟩

/-- A table in which every chain starting at a row ends within `length + 1` steps has
no cycle. -/
theorem noCycle_of_bounded (rows : List Row)
    (h : ∀ r ∈ rows, nthAncestor rows (rows.length + 1) r.id = none) : NoCycle rows := by
  intro x k hk hcyc
  have hmul : ∀ m, nthAncestor rows (m * k) x = some x := by
    intro m
    induction m with
    | zero => simp [nthAncestor]
    | succ m ih => rw [Nat.succ_mul, nthAncestor_add, ih, Option.some_bind]; exact hcyc
  obtain ⟨j, rfl⟩ := Nat.exists_eq_succ_of_ne_zero (Nat.pos_iff_ne_zero.mp hk)
  have hpar : ∃ p, parentOf rows x = some p := by
    rw [Nat.succ_eq_add_one, nthAncestor_succ] at hcyc
    cases hp : parentOf rows x with
    | none => rw [hp] at hcyc; cases hcyc
    | some p => exact ⟨p, rfl⟩
  obtain ⟨p, hp⟩ := hpar
  obtain ⟨r, hr, hid, -⟩ := mem_of_parentOf rows x p hp
  have hnone := h r hr
  rw [hid] at hnone
  have := hmul (rows.length + 1)
  have hsplit : (rows.length + 1) * (j + 1) = (rows.length + 1) + (rows.length + 1) * j := by ring
  rw [Nat.succ_eq_add_one, hsplit, nthAncestor_add, hnone] at this
  cases this

/-- C6 (amended). Cycle rejection: in a table with primary key and without cycle where
`A` is the parent of `B` (object of `B` as scanned from its row, at depth `d` below root
`r`; `A.ParentIssueID` as persisted), when no store operation fails and the fuel exceeds
the number of rows, `UpdateParentIssue(A, B)` fails and writes nothing; the error is
`ErrSubIssuesTooDeep{A.ID, B.ID, r}` when `d + 1 > MaxSubIssuesDepth`, otherwise
`ErrSubIssuesTooMany{A.ID, B.ID, r}` when the tree of `r` already has `MaxSubIssues`
descendants or more, and `ErrCircularParentIssue{A.ID, B.ID}` when neither limit check
fires. -/
theorem UpdateParentIssue_cycle_rejected (fuel : Nat) (cfg : Setting) (w : World) (A : Issue)
    (brow : Row) (doer : Int) (d : Nat) (r : Int)
    (hu : UniqueIDs w.rows) (hn : NoCycle w.rows) (hf : w.faults = Faults.none)
    (hb : brow ∈ w.rows) (hAB : brow.parent_id = some A.ID)
    (hA : A.ParentIssueID = parentOf w.rows A.ID)
    (hchain : nthAncestor w.rows d brow.id = some r)
    (hroot : parentOf w.rows r = none) (hrrow : ∃ row ∈ w.rows, row.id = r)
    (hfuel : w.rows.length < fuel) :
    ∃ res e, UpdateParentIssue fuel cfg w A (some (Issue.ofRow brow)) doer = some res ∧
      res.err = some e ∧ res.w.rows = w.rows ∧ res.w.comments = w.comments ∧
      res.w.writes = w.writes ∧ res.w.txs = w.txs ∧
      ((d : Int) + 1 > cfg.MaxSubIssuesDepth → e = .ErrSubIssuesTooDeep A.ID brow.id r) ∧
      ((d : Int) + 1 ≤ cfg.MaxSubIssuesDepth →
        ((descendants w.rows r).length : Int) + 1 > cfg.MaxSubIssues →
        e = .ErrSubIssuesTooMany A.ID brow.id r) ∧
      ((d : Int) + 1 ≤ cfg.MaxSubIssuesDepth →
        ((descendants w.rows r).length : Int) + 1 ≤ cfg.MaxSubIssues →
        e = .ErrCircularParentIssue A.ID brow.id) := by
  have hf1 : w.faults.getIssueByID = [] := by rw [hf]; rfl
  have hf2 : w.faults.find = [] := by rw [hf]; rfl
  have hpb : parentOf w.rows brow.id = some A.ID := by
    rw [parentOf_of_mem w.rows hu brow hb]; exact hAB
  have hone : nthAncestor w.rows 1 brow.id = some A.ID := by rw [nthAncestor_one]; exact hpb
  -- the call is not the no-op: `B` is not the parent of `A`
  have hnot_noop : A.ParentIssueID ≠ some brow.id := by
    intro h
    rw [hA] at h
    have : nthAncestor w.rows 2 brow.id = some brow.id := by
      rw [nthAncestor_succ, hpb, Option.some_bind, nthAncestor_one]; exact h
    exact hn brow.id 2 (by decide) this
  have hnoop1 : (A.ParentIssueID.isSome && (some (Issue.ofRow brow)).isSome &&
      A.ParentIssueID == Option.map Issue.ID (some (Issue.ofRow brow))) = false := by
    cases hp : A.ParentIssueID with
    | none => rfl
    | some g =>
      rw [hp] at hnot_noop
      have : g ≠ brow.id := fun h => hnot_noop (by rw [h])
      simpa [Issue.ofRow] using this
  have hnoop2 : (A.ParentIssueID.isNone && (some (Issue.ofRow brow)).isNone) = false := by
    simp
  -- the parent of `A`, when it has one, can be read
  have hd1 : 1 ≤ d := by
    cases d with
    | zero =>
      simp only [nthAncestor, Option.some.injEq] at hchain
      rw [hchain] at hpb
      rw [hpb] at hroot
      cases hroot
    | succ d' => exact Nat.succ_le_succ (Nat.zero_le _)
  have hloadA : (LoadParentIssue w A).2.2 = none := by
    cases hp : A.ParentIssueID with
    | none => rw [LoadParentIssue_root w A hp]
    | some g =>
      have hg : parentOf w.rows A.ID = some g := by rw [← hA]; exact hp
      have h2 : nthAncestor w.rows 2 brow.id = some g := by
        rw [nthAncestor_succ, hpb, Option.some_bind, nthAncestor_one]; exact hg
      have hd2 : 2 ≤ d := by
        rcases Nat.lt_or_ge d 2 with hlt | hge
        · have hd' : d = 1 := by omega
          subst hd'
          rw [hone] at hchain
          cases hchain
          rw [hg] at hroot
          cases hroot
        · exact hge
      apply LoadParentIssue_ok w A g hp (by rw [hf1]; simp)
      exact chain_rows w.rows d brow.id r hchain hrrow 2 hd2 g h2
  have hfrA := LoadParentIssue_frame w A
  rcases hload : LoadParentIssue w A with ⟨w1, A1, e1⟩
  rw [hload] at hloadA hfrA
  simp only at hloadA
  subst hloadA
  have hrows1 : w1.rows = w.rows := hfrA.1.1
  have hfaults1 : w1.faults = w.faults := hfrA.1.2.2.2.2
  have hid1 : A1.ID = A.ID := hfrA.2.1
  obtain ⟨w', p', e, hv, hro, -, hdeep, hmany, hcirc, -⟩ :=
    validateParent_ofRow fuel cfg w1 A1 brow d r (by rw [hrows1]; exact hu)
      (by rw [hrows1]; exact hn) (by rw [hfaults1]; exact hf1) (by rw [hfaults1]; exact hf2)
      (by rw [hrows1]; exact hb) (by rw [hrows1]; exact hchain) (by rw [hrows1]; exact hroot)
      (by rw [hrows1]; exact hrrow) (by rw [hrows1]; exact hfuel)
  simp only [hrows1, hid1] at hdeep hmany hcirc
  have hro' := hfrA.1.readOnly_trans hro
  have hcases : ∃ e', e = some e' := by
    by_cases h1 : (d : Int) + 1 > cfg.MaxSubIssuesDepth
    · exact ⟨_, hdeep h1⟩
    · by_cases h2 : ((descendants w.rows r).length : Int) + 1 > cfg.MaxSubIssues
      · exact ⟨_, hmany (by omega) h2⟩
      · exact ⟨_, hcirc (by omega) (by omega) ⟨1, hone⟩⟩
  obtain ⟨e', rfl⟩ := hcases
  have hupd : UpdateParentIssue fuel cfg w A (some (Issue.ofRow brow)) doer =
      some { w := w', issue := A1, parent := some p', err := some e' } := by
    unfold UpdateParentIssue
    simp only [hnoop1, hnoop2, Bool.false_eq_true, if_false, hload, hv]
  refine ⟨_, e', hupd, rfl, hro'.1, hro'.2.1, hro'.2.2.1, hro'.2.2.2.1, ?_, ?_, ?_⟩
  · intro h1; exact Option.some.inj (hdeep h1)
  · intro h1 h2; exact Option.some.inj (hmany h1 h2)
  · intro h1 h2; exact Option.some.inj (hcirc h1 h2 ⟨1, hone⟩)

theorem UpdateParentIssue_cycle_rejected_witness :
    ∃ res, UpdateParentIssue 3 ⟨2, 3⟩ ⟨[⟨23, none⟩, ⟨24, some 23⟩], [], 0, 0, 0, Faults.none⟩
        (Issue.ofRow ⟨23, none⟩) (some (Issue.ofRow ⟨24, some 23⟩)) 1 = some res ∧
      res.err = some (.ErrCircularParentIssue 23 24) ∧
      res.w.rows = [⟨23, none⟩, ⟨24, some 23⟩] ∧ res.w.comments = [] ∧ res.w.writes = 0 := by
  obtain ⟨res, e, hupd, herr, hrows, hcomments, hwrites, -, -, -, hcirc⟩ :=
    UpdateParentIssue_cycle_rejected 3 ⟨2, 3⟩
      ⟨[⟨23, none⟩, ⟨24, some 23⟩], [], 0, 0, 0, Faults.none⟩
      (Issue.ofRow ⟨23, none⟩) ⟨24, some 23⟩ 1 1 23 (by decide)
      (noCycle_of_bounded _ (by decide)) rfl (by decide) rfl rfl rfl rfl
      ⟨⟨23, none⟩, by decide, rfl⟩ (by decide)
  have he := hcirc (by decide) (by decide)
  exact ⟨res, hupd, by rw [herr, he]; rfl, hrows, hcomments, hwrites⟩

/-! ## Attaching leaves under a root -/

theorem updateParentID_ids (rows : List Row) (c : Int) (v : Option Int) :
    (updateParentID rows c v).map Row.id = rows.map Row.id := by
  unfold updateParentID
  rw [List.map_map]
  apply List.map_congr_left
  intro r _
  simp only [Function.comp]
  split <;> rfl

theorem uniqueIDs_updateParentID (rows : List Row) (c : Int) (v : Option Int)
    (hu : UniqueIDs rows) : UniqueIDs (updateParentID rows c v) := by
  unfold UniqueIDs
  rw [updateParentID_ids]
  exact hu

theorem children_eq_nil_iff (rows : List Row) (y : Int) :
    children rows y = [] ↔ ∀ r ∈ rows, r.parent_id ≠ some y := by
  unfold children
  rw [List.filter_eq_nil_iff]
  simp

theorem mem_updateParentID (rows : List Row) (c : Int) (v : Option Int) (x : Row) :
    x ∈ updateParentID rows c v ↔
      ∃ r ∈ rows, (r.id = c ∧ x = { r with parent_id := v }) ∨ (r.id ≠ c ∧ x = r) := by
  unfold updateParentID
  rw [List.mem_map]
  constructor
  · rintro ⟨r, hr, rfl⟩
    refine ⟨r, hr, ?_⟩
    by_cases h : r.id = c
    · left; simp [h]
    · right; simp [h]
  · rintro ⟨r, hr, ⟨h, hx⟩ | ⟨h, hx⟩⟩
    · exact ⟨r, hr, by rw [hx]; simp [h]⟩
    · exact ⟨r, hr, by rw [hx]; simp [h]⟩

/-- An issue without sub-issues still has none after `c` was linked under another
issue. -/
theorem children_nil_updateParentID (rows : List Row) (c R y : Int) (hy : children rows y = [])
    (hne : y ≠ R) : children (updateParentID rows c (some R)) y = [] := by
  rw [children_eq_nil_iff] at hy ⊢
  intro x hx
  rw [mem_updateParentID] at hx
  obtain ⟨r, hr, ⟨-, rfl⟩ | ⟨-, rfl⟩⟩ := hx
  · simp only [ne_eq, Option.some.injEq]
    exact fun h => hne h.symm
  · exact hy _ hr

/-- Linking the parentless issue `c` under `R` adds exactly its row to the sub-issues
of `R`. -/
theorem children_length_updateParentID (rows : List Row) (hu : UniqueIDs rows) (c R : Int)
    (hc : (⟨c, none⟩ : Row) ∈ rows) :
    (children (updateParentID rows c (some R)) R).length = (children rows R).length + 1 := by
  have hnd := nodup_of_uniqueIDs rows hu
  unfold children updateParentID
  rw [← List.countP_eq_length_filter, ← List.countP_eq_length_filter, List.countP_map]
  have hcongr : rows.countP ((fun r => r.parent_id == some R) ∘
      (fun r => if r.id == c then { r with parent_id := some R } else r)) =
      rows.countP (fun r => (r.parent_id == some R) || (r == (⟨c, none⟩ : Row))) := by
    apply List.countP_congr
    intro r hr
    simp only [Function.comp]
    by_cases h : r.id = c
    · have : r = ⟨c, none⟩ := eq_of_id_eq rows hu r ⟨c, none⟩ hr hc h
      subst this
      simp
    · have h2 : ¬ r = ⟨c, none⟩ := fun h' => h (by rw [h'])
      simp [h, h2]
  rw [hcongr, countP_or_disjoint]
  · congr 1
    have := List.count_eq_one_of_mem hnd hc
    rw [List.count] at this
    exact this
  · intro r _ ⟨h1, h2⟩
    have : r = ⟨c, none⟩ := by simpa using h2
    subst this
    simp at h1

theorem mem_updateParentID_of_ne (rows : List Row) (c : Int) (v : Option Int) (x : Row)
    (hx : x ∈ rows) (hne : x.id ≠ c) : x ∈ updateParentID rows c v := by
  rw [mem_updateParentID]
  exact ⟨x, hx, Or.inr ⟨hne, rfl⟩⟩

/-- `CountSubIssues` of an object without loaded sub-issues, all of whose sub-issues
are leaves, is their number. -/
theorem CountSubIssues_leaves (fuel : Nat) (w : World) (i : Issue) (hf : w.faults.find = [])
    (hunl : i.isSubIssuesLoaded = false)
    (hleaves : ∀ x ∈ children w.rows i.ID, children w.rows x.id = []) :
    ∃ w' i', CountSubIssues (fuel + 2) w i = some (w', i', .ok (children w.rows i.ID).length) ∧
      ReadOnly w w' ∧ SameKey i i' ∧ i'.ParentIssue = i.ParentIssue := by
  have hload : LoadSubIssues w i =
      ({ w with reads := w.reads + 1 },
        (i.setSubIssues ((children w.rows i.ID).map Issue.ofRow)).setIsSubIssuesLoaded true,
        none) := by
    unfold LoadSubIssues GetSubIssuesByIssueID
    simp only [hunl, Bool.not_false, if_true, hf, List.not_mem_nil, if_false]
    rfl
  let P : World → Prop := fun v => v.rows = w.rows ∧ v.faults = w.faults
  have hchild : ∀ c ∈ children w.rows i.ID, ∀ v, P v →
      ∃ v' c', CountSubIssues (fuel + 1) v (Issue.ofRow c) =
        some (v', c', .ok ((fun _ => 0) c)) ∧ P v' ∧ ReadOnly v v' := by
    intro c hc v hP
    have hnil : children v.rows (Issue.ofRow c).ID = [] := by
      rw [hP.1]; exact hleaves c hc
    have hl : LoadSubIssues v (Issue.ofRow c) =
        ({ v with reads := v.reads + 1 },
          ((Issue.ofRow c).setSubIssues []).setIsSubIssuesLoaded true, none) := by
      unfold LoadSubIssues GetSubIssuesByIssueID
      have : (v.rows.filter (fun r => r.parent_id == some (Issue.ofRow c).ID)) = [] := hnil
      simp only [Issue.ofRow, Issue.isSubIssuesLoaded_mk, Bool.not_false, if_true, hP.2, hf,
        List.not_mem_nil, if_false]
      simp only [Issue.ofRow] at this
      rw [this]
      rfl
    refine ⟨{ v with reads := v.reads + 1 },
      (((Issue.ofRow c).setSubIssues []).setIsSubIssuesLoaded true).setSubIssues [], ?_,
      ⟨hP.1, hP.2⟩, ⟨rfl, rfl, rfl, rfl, rfl⟩⟩
    unfold CountSubIssues
    rw [hl]
    simp [Issue.ofRow, countLoop]
  obtain ⟨w2, l2, hloop, -, hr2⟩ :=
    countLoop_ok (CountSubIssues (fuel + 1)) P (fun _ => 0) (children w.rows i.ID) hchild
      { w with reads := w.reads + 1 } ((children w.rows i.ID).map Issue.ofRow).length ⟨rfl, rfl⟩
  have hr1 : ReadOnly w { w with reads := w.reads + 1 } := ⟨rfl, rfl, rfl, rfl, rfl⟩
  have hsubs : ((i.setSubIssues ((children w.rows i.ID).map Issue.ofRow)).setIsSubIssuesLoaded
      true).SubIssues = (children w.rows i.ID).map Issue.ofRow := by
    cases i; rfl
  have hres : CountSubIssues (fuel + 2) w i = some (w2,
      ((i.setSubIssues ((children w.rows i.ID).map Issue.ofRow)).setIsSubIssuesLoaded
        true).setSubIssues l2, .ok (children w.rows i.ID).length) := by
    unfold CountSubIssues
    rw [hload]
    simp only [hsubs, hloop]
    simp
  obtain ⟨-, hk, hp⟩ := CountSubIssues_frame _ _ _ _ _ _ hres
  exact ⟨w2, _, hres, hr1.readOnly_trans hr2, hk, hp⟩

/-- `UpdateParentIssue(c, R)` for a parentless `c` and a root object `R`, in terms of
what `CountSubIssues` returns for `R`. -/
theorem UpdateParentIssue_root (fuel : Nat) (cfg : Setting) (w : World) (c R : Issue)
    (doer : Int) (w2 : World) (R2 : Issue) (n : Nat)
    (hc : c.ParentIssueID = none) (hR : R.ParentIssueID = none)
    (hd : 1 ≤ cfg.MaxSubIssuesDepth)
    (hcount : CountSubIssues fuel w R = some (w2, R2, .ok n)) :
    UpdateParentIssue fuel cfg w c (some R) doer = some
      (if (n : Int) + 1 > cfg.MaxSubIssues then
        { w := w2, issue := c, parent := some R2,
          err := some (.ErrSubIssuesTooMany c.ID R.ID R.ID) }
      else if c.ID ∈ R.chainIDs then
        { w := w2, issue := c, parent := some R2,
          err := some (.ErrCircularParentIssue c.ID R.ID) }
      else commitParent w2 c c.ParentIssue (some R2) doer) := by
  have hv := validateParent_root fuel cfg w c R w2 R2 n hR hd hcount
  have hnoop1 : (c.ParentIssueID.isSome && (some R).isSome &&
      c.ParentIssueID == Option.map Issue.ID (some R)) = false := by
    rw [hc]; rfl
  have hnoop2 : (c.ParentIssueID.isNone && (some R).isNone) = false := by
    rw [hc]; rfl
  unfold UpdateParentIssue
  simp only [hnoop1, hnoop2, Bool.false_eq_true, if_false, LoadParentIssue_root w c hc, hv]
  by_cases h1 : (n : Int) + 1 > cfg.MaxSubIssues
  · simp only [h1, if_true]
  · by_cases h2 : c.ID ∈ R.chainIDs
    · simp only [h1, if_false, h2, if_true]
    · simp only [h1, if_false, h2]

/-- Attaching parentless leaves one after another under the same root object: with `k`
leaf sub-issues already under the root and `MaxSubIssues = k + init.length`, every issue
of `init` is attached and the next one is rejected with `ErrSubIssuesTooMany`. -/
theorem attachEach_leaves (fuel : Nat) (cfg : Setting) (doer : Int) (Rid : Int) (last : Int)
    (hd : 1 ≤ cfg.MaxSubIssuesDepth) :
    ∀ (init : List Int) (w : World) (R : Issue) (k : Nat),
      cfg.MaxSubIssues = ((k + init.length : Nat) : Int) →
      UniqueIDs w.rows → w.faults = Faults.none →
      R.ID = Rid → R.ParentIssueID = none → R.ParentIssue = none → R.isSubIssuesLoaded = false →
      (children w.rows Rid).length = k →
      (∀ x ∈ children w.rows Rid, children w.rows x.id = []) →
      (init ++ [last]).Nodup →
      (∀ c ∈ init ++ [last], (⟨c, none⟩ : Row) ∈ w.rows ∧ children w.rows c = [] ∧ c ≠ Rid) →
      ∃ w' R', attachEach (fuel + 2) cfg doer w R
          ((init ++ [last]).map (fun c => Issue.ofRow ⟨c, none⟩)) =
        some (w', R', List.replicate init.length none ++
          [some (.ErrSubIssuesTooMany last Rid Rid)]) := by
  intro init
  induction init with
  | nil =>
    intro w R k hmax hu hf hRid hR1 hR2 hR3 hk hleaf _ _
    obtain ⟨w2, R2, hcount, -, -, -⟩ :=
      CountSubIssues_leaves fuel w R (by rw [hf]; rfl) hR3 (by rw [hRid]; exact hleaf)
    rw [hRid, hk] at hcount
    have hupd := UpdateParentIssue_root (fuel + 2) cfg w (Issue.ofRow ⟨last, none⟩) R doer w2 R2 k
      rfl hR1 hd hcount
    have hgt : (k : Int) + 1 > cfg.MaxSubIssues := by
      rw [hmax]; simp
    simp only [hgt, if_true] at hupd
    refine ⟨w2, R2, ?_⟩
    simp only [List.nil_append, List.map_cons, List.map_nil, attachEach, hupd, List.length_nil,
      List.replicate_zero, hRid]
    rfl
  | cons c init ih =>
    intro w R k hmax hu hf hRid hR1 hR2 hR3 hk hleaf hnd hcs
    obtain ⟨w2, R2, hcount, hro, hkey, hpar⟩ :=
      CountSubIssues_leaves fuel w R (by rw [hf]; rfl) hR3 (by rw [hRid]; exact hleaf)
    rw [hRid, hk] at hcount
    have hupd := UpdateParentIssue_root (fuel + 2) cfg w (Issue.ofRow ⟨c, none⟩) R doer w2 R2 k
      rfl hR1 hd hcount
    have hle : ¬ ((k : Int) + 1 > cfg.MaxSubIssues) := by
      rw [hmax]; simp only [List.length_cons, Nat.cast_add, Nat.cast_one]; omega
    obtain ⟨hcrow, hcleaf, hcne⟩ := hcs c (by simp)
    have hchain : (Issue.ofRow ⟨c, none⟩).ID ∉ R.chainIDs := by
      rw [chainIDs_eq, hR2]
      simp only [List.mem_singleton, hRid]
      exact hcne
    simp only [hle, if_false, hchain] at hupd
    have hfw : w2.faults = Faults.none := hro.2.2.2.2.trans hf
    rw [commitParent_ok _ _ _ _ _ hfw] at hupd
    -- the state after the call
    have hR2id : R2.ID = Rid := hkey.1.trans hRid
    have hnd' : (init ++ [last]).Nodup := (List.nodup_cons.mp hnd).2
    have hcnot : c ∉ init ++ [last] := (List.nodup_cons.mp hnd).1
    obtain ⟨w3, R3, hrec⟩ := ih
      { w2 with
          txs := w2.txs + 1
          writes := w2.writes + 1
          rows := updateParentID w2.rows (Issue.ofRow ⟨c, none⟩).ID
            (Option.map Issue.ID (some R2))
          comments :=
            (match (Issue.ofRow ⟨c, none⟩).ParentIssue with
              | none => w2.comments
              | some old => w2.comments ++ [⟨doer, old.ID, (Issue.ofRow ⟨c, none⟩).ID, false⟩]) ++
            (match some R2 with
              | none => []
              | some p => [⟨doer, p.ID, (Issue.ofRow ⟨c, none⟩).ID, true⟩]) }
      (R2.setIsSubIssuesLoaded false) (k + 1)
      (by rw [hmax]; simp only [List.length_cons]; congr 1; omega)
      (by
        show UniqueIDs (updateParentID w2.rows _ _)
        rw [hro.1]; exact uniqueIDs_updateParentID _ _ _ hu)
      hfw
      (by cases R2; exact hR2id)
      (by cases R2; exact hkey.2.trans hR1)
      (by cases R2; exact hpar.trans hR2)
      (by cases R2; rfl)
      (by
        show (children (updateParentID w2.rows c (some R2.ID)) Rid).length = k + 1
        rw [hro.1, hR2id, children_length_updateParentID w.rows hu c Rid hcrow, hk])
      (by
        show ∀ x ∈ children (updateParentID w2.rows c (some R2.ID)) Rid,
          children (updateParentID w2.rows c (some R2.ID)) x.id = []
        rw [hro.1, hR2id]
        intro x hx
        obtain ⟨hxmem, hxpar⟩ := (mem_children _ _ _).mp hx
        rw [mem_updateParentID] at hxmem
        obtain ⟨r0, hr0, ⟨hr0c, hxeq⟩ | ⟨hr0c, hxeq⟩⟩ := hxmem
        · -- the row of `c`
          have hxid : x.id = c := by rw [hxeq]; exact hr0c
          rw [hxid]
          exact children_nil_updateParentID w.rows c Rid c hcleaf hcne
        · -- a sub-issue that was there before
          rw [hxeq] at hxpar ⊢
          have hr0ch : r0 ∈ children w.rows Rid := (mem_children _ _ _).mpr ⟨hr0, hxpar⟩
          have hr0leaf := hleaf r0 hr0ch
          have hr0ne : r0.id ≠ Rid := by
            intro h
            rw [h] at hr0leaf
            rw [hr0leaf] at hr0ch
            cases hr0ch
          exact children_nil_updateParentID w.rows c Rid r0.id hr0leaf hr0ne)
      hnd'
      (by
        intro c' hc'
        obtain ⟨h1, h2, h3⟩ := hcs c' (List.mem_cons_of_mem _ hc')
        have hne : c' ≠ c := fun h => hcnot (h ▸ hc')
        refine ⟨?_, ?_, h3⟩
        · show (⟨c', none⟩ : Row) ∈ updateParentID w2.rows c (some R2.ID)
          rw [hro.1]
          exact mem_updateParentID_of_ne w.rows c _ ⟨c', none⟩ h1 hne
        · show children (updateParentID w2.rows c (some R2.ID)) c' = []
          rw [hro.1, hR2id]
          exact children_nil_updateParentID w.rows c Rid c' h2 h3)
    refine ⟨w3, R3, ?_⟩
    have hgoal : attachEach (fuel + 2) cfg doer w R
        (Issue.ofRow ⟨c, none⟩ :: (init ++ [last]).map (fun c => Issue.ofRow ⟨c, none⟩)) =
        some (w3, R3, none :: (List.replicate init.length none ++
          [some (.ErrSubIssuesTooMany last Rid Rid)])) := by
      rw [attachEach, hupd]
      simp only [Option.map_some'] at hrec ⊢
      rw [hrec]
    simpa [List.replicate_succ] using hgoal

/-! ## Linking a leaf under an issue as scanned from its row -/

/-- A parentless issue without sub-issues other than `p` is not on the parent chain
of `p`. -/
theorem leaf_not_ancestor (rows : List Row) (c p : Int) (hleaf : children rows c = [])
    (hne : c ≠ p) : ¬ ∃ k, nthAncestor rows k p = some c := by
  rintro ⟨k, hk⟩
  cases k with
  | zero =>
    simp only [nthAncestor, Option.some.injEq] at hk
    exact hne hk.symm
  | succ k =>
    rw [nthAncestor_add] at hk
    cases hv' : nthAncestor rows k p with
    | none => rw [hv'] at hk; cases hk
    | some v =>
      rw [hv', Option.some_bind, nthAncestor_one] at hk
      obtain ⟨row, hr1, -, hr3⟩ := mem_of_parentOf rows v c hk
      have : row ∈ children rows c := (mem_children rows c row).mpr ⟨hr1, hr3⟩
      rw [hleaf] at this
      cases this

/-- `UpdateParentIssue(c, p)` for a parentless `c` and an object `p` as scanned from
its row at depth `d` below root `r`: the result when the depth limit is exceeded, and
when both limit checks pass and `c` is a leaf other than `p`. -/
theorem UpdateParentIssue_ofRow (fuel : Nat) (cfg : Setting) (w : World) (c : Issue)
    (prow : Row) (doer : Int) (d : Nat) (r : Int)
    (hu : UniqueIDs w.rows) (hn : NoCycle w.rows) (hf : w.faults = Faults.none)
    (hp : prow ∈ w.rows) (hchain : nthAncestor w.rows d prow.id = some r)
    (hroot : parentOf w.rows r = none) (hrrow : ∃ row ∈ w.rows, row.id = r)
    (hc : c.ParentIssueID = none) (hfuel : w.rows.length < fuel) :
    ∃ w' p', ReadOnly w w' ∧ p'.ID = prow.id ∧
      ((d : Int) + 1 ≤ cfg.MaxSubIssuesDepth →
        ((descendants w.rows r).length : Int) + 1 ≤ cfg.MaxSubIssues →
        children w.rows c.ID = [] → c.ID ≠ prow.id →
        UpdateParentIssue fuel cfg w c (some (Issue.ofRow prow)) doer =
          some (commitParent w' c c.ParentIssue (some p') doer)) ∧
      ((d : Int) + 1 > cfg.MaxSubIssuesDepth →
        UpdateParentIssue fuel cfg w c (some (Issue.ofRow prow)) doer =
          some { w := w', issue := c, parent := some p',
                 err := some (.ErrSubIssuesTooDeep c.ID prow.id r) }) := by
  have hf1 : w.faults.getIssueByID = [] := by rw [hf]; rfl
  have hf2 : w.faults.find = [] := by rw [hf]; rfl
  obtain ⟨w', p', e, hv, hro, hpid, hdeep, -, -, hpass⟩ :=
    validateParent_ofRow fuel cfg w c prow d r hu hn hf1 hf2 hp hchain hroot hrrow hfuel
  have hnoop1 : (c.ParentIssueID.isSome && (some (Issue.ofRow prow)).isSome &&
      c.ParentIssueID == Option.map Issue.ID (some (Issue.ofRow prow))) = false := by
    rw [hc]; rfl
  have hnoop2 : (c.ParentIssueID.isNone && (some (Issue.ofRow prow)).isNone) = false := by
    rw [hc]; rfl
  refine ⟨w', p', hro, hpid, ?_, ?_⟩
  · intro h1 h2 hleaf hne
    have he := hpass h1 h2 (leaf_not_ancestor w.rows c.ID prow.id hleaf hne)
    subst he
    unfold UpdateParentIssue
    simp only [hnoop1, hnoop2, Bool.false_eq_true, if_false, LoadParentIssue_root w c hc, hv]
  · intro h1
    have he := hdeep h1
    subst he
    unfold UpdateParentIssue
    simp only [hnoop1, hnoop2, Bool.false_eq_true, if_false, LoadParentIssue_root w c hc, hv]

theorem descendants_length_lt (rows : List Row) (x : Int) :
    (descendants rows x).length ≤ rows.length := by
  unfold descendants
  exact List.length_filter_le _ _

theorem updateParentID_length (rows : List Row) (c : Int) (v : Option Int) :
    (updateParentID rows c v).length = rows.length := by
  unfold updateParentID
  rw [List.length_map]

theorem mem_updateParentID_self (rows : List Row) (c : Int) (v : Option Int)
    (hc : (⟨c, none⟩ : Row) ∈ rows) : (⟨c, v⟩ : Row) ∈ updateParentID rows c v := by
  rw [mem_updateParentID]
  exact ⟨⟨c, none⟩, hc, Or.inl ⟨rfl, rfl⟩⟩

theorem find_isSome_of_mem (rows : List Row) (x : Row) (hx : x ∈ rows) :
    (rows.find? (fun r => r.id == x.id)).isSome = true := by
  rw [List.find?_isSome]
  exact ⟨x, hx, by simp⟩

/-- Building a chain of parentless leaves below an issue at depth `k`: with
`MaxSubIssuesDepth = k + init.length` and a table smaller than `MaxSubIssues`, every
issue of `init` is linked below the previous one and the next one is rejected with
`ErrSubIssuesTooDeep`. -/
theorem chainEach_leaves (fuel : Nat) (cfg : Setting) (doer : Int) (r : Int) (last : Int) :
    ∀ (init : List Int) (w : World) (prow : Row) (k : Nat),
      cfg.MaxSubIssuesDepth = ((k + init.length : Nat) : Int) →
      (w.rows.length : Int) < cfg.MaxSubIssues → w.rows.length < fuel →
      UniqueIDs w.rows → NoCycle w.rows → w.faults = Faults.none →
      prow ∈ w.rows → nthAncestor w.rows k prow.id = some r → parentOf w.rows r = none →
      (∃ row ∈ w.rows, row.id = r) →
      (init ++ [last]).Nodup →
      (∀ c ∈ init ++ [last], (⟨c, none⟩ : Row) ∈ w.rows ∧ children w.rows c = [] ∧ c ≠ prow.id) →
      ∃ w', chainEach fuel cfg doer w (Issue.ofRow prow)
          ((init ++ [last]).map (fun c => Issue.ofRow ⟨c, none⟩)) =
        some (w', List.replicate init.length none ++
          [some (.ErrSubIssuesTooDeep last (init.getLastD prow.id) r)]) := by
  intro init
  induction init with
  | nil =>
    intro w prow k hmax _ hfuel hu hn hf hp hchain hroot hrrow _ _
    obtain ⟨w', p', -, -, -, hdeep⟩ :=
      UpdateParentIssue_ofRow fuel cfg w (Issue.ofRow ⟨last, none⟩) prow doer k r hu hn hf hp
        hchain hroot hrrow rfl hfuel
    have hgt : (k : Int) + 1 > cfg.MaxSubIssuesDepth := by rw [hmax]; simp
    have hupd := hdeep hgt
    refine ⟨w', ?_⟩
    simp only [List.nil_append, List.map_cons, List.map_nil, chainEach, hupd, List.length_nil,
      List.replicate_zero, List.getLastD_nil]
    rfl
  | cons c init ih =>
    intro w prow k hmax hcnt hfuel hu hn hf hp hchain hroot hrrow hnd hcs
    obtain ⟨w', p', hro, hpid, hpass, -⟩ :=
      UpdateParentIssue_ofRow fuel cfg w (Issue.ofRow ⟨c, none⟩) prow doer k r hu hn hf hp
        hchain hroot hrrow rfl hfuel
    obtain ⟨hcrow, hcleaf, hcne⟩ := hcs c (by simp)
    have hle : (k : Int) + 1 ≤ cfg.MaxSubIssuesDepth := by
      rw [hmax]; simp only [List.length_cons, Nat.cast_add, Nat.cast_one]; omega
    have hcount : ((descendants w.rows r).length : Int) + 1 ≤ cfg.MaxSubIssues := by
      have := descendants_length_lt w.rows r
      omega
    have hupd := hpass hle hcount hcleaf hcne
    have hfw : w'.faults = Faults.none := hro.2.2.2.2.trans hf
    rw [commitParent_ok _ _ _ _ _ hfw] at hupd
    simp only [Option.map_some', hpid, hro.1] at hupd
    have hnd' : (init ++ [last]).Nodup := (List.nodup_cons.mp hnd).2
    have hcnot : c ∉ init ++ [last] := (List.nodup_cons.mp hnd).1
    have hanc : ∀ j, nthAncestor w.rows j prow.id ≠ some c := by
      intro j hj
      exact leaf_not_ancestor w.rows c prow.id hcleaf hcne ⟨j, hj⟩
    have hpo := parentOf_updateParentID w.rows c (some prow.id)
    have hag : ∀ y, y ≠ c → parentOf (updateParentID w.rows c (some prow.id)) y = parentOf w.rows y := by
      intro y hy; rw [hpo y]; simp [hy]
    have hpc : parentOf (updateParentID w.rows c (some prow.id)) c = some prow.id := by
      rw [hpo c]
      have := find_isSome_of_mem w.rows ⟨c, none⟩ hcrow
      simp only at this
      simp [this]
    have hrc : r ≠ c := fun h => hanc k (h ▸ hchain)
    obtain ⟨rrow, hrr1, hrr2⟩ := hrrow
    obtain ⟨w3, hrec⟩ := ih
      { w' with
          txs := w'.txs + 1
          writes := w'.writes + 1
          rows := updateParentID w.rows (Issue.ofRow ⟨c, none⟩).ID (some prow.id)
          comments :=
            (match (Issue.ofRow ⟨c, none⟩).ParentIssue with
              | none => w'.comments
              | some old => w'.comments ++ [⟨doer, old.ID, (Issue.ofRow ⟨c, none⟩).ID, false⟩]) ++
            [⟨doer, prow.id, (Issue.ofRow ⟨c, none⟩).ID, true⟩] }
      ⟨c, some prow.id⟩ (k + 1)
      (by rw [hmax]; simp only [List.length_cons]; congr 1; omega)
      (by
        show ((updateParentID w.rows c (some prow.id)).length : Int) < cfg.MaxSubIssues
        rw [updateParentID_length]; exact hcnt)
      (by
        show (updateParentID w.rows c (some prow.id)).length < fuel
        rw [updateParentID_length]; exact hfuel)
      (uniqueIDs_updateParentID _ _ _ hu)
      (noCycle_link w.rows _ c prow.id hn hag hpc hanc)
      hfw
      (mem_updateParentID_self w.rows c (some prow.id) hcrow)
      (by
        show nthAncestor (updateParentID w.rows c (some prow.id)) (k + 1) c = some r
        rw [nthAncestor_succ, hpc, Option.some_bind,
          nthAncestor_agree w.rows _ c hag k prow.id (fun j _ => hanc j)]
        exact hchain)
      (by
        show parentOf (updateParentID w.rows c (some prow.id)) r = none
        rw [hag r hrc]; exact hroot)
      ⟨rrow, mem_updateParentID_of_ne w.rows c _ rrow hrr1 (by rw [hrr2]; exact hrc), hrr2⟩
      hnd'
      (by
        intro c' hc'
        obtain ⟨h1, h2, h3⟩ := hcs c' (List.mem_cons_of_mem _ hc')
        have hne : c' ≠ c := fun h => hcnot (h ▸ hc')
        exact ⟨mem_updateParentID_of_ne w.rows c _ ⟨c', none⟩ h1 hne,
          children_nil_updateParentID w.rows c prow.id c' h2 h3, hne⟩)
    refine ⟨w3, ?_⟩
    have hgoal : chainEach fuel cfg doer w (Issue.ofRow prow)
        (Issue.ofRow ⟨c, none⟩ :: (init ++ [last]).map (fun c => Issue.ofRow ⟨c, none⟩)) =
        some (w3, none :: (List.replicate init.length none ++
          [some (.ErrSubIssuesTooDeep last (init.getLastD c) r)])) := by
      rw [chainEach, hupd]
      simp only [Issue.ofRow, Issue.setParentIssueID_mk, Issue.setIsParentIssueLoaded_mk,
        Issue.ID_mk, Issue.ParentIssue_mk] at hrec ⊢
      rw [hrec]
    have hl : (c :: init).getLastD prow.id = init.getLastD c := List.getLastD_cons _ _ _
    rw [hl]
    simpa [List.replicate_succ] using hgoal

/-- C4 (amended). Count limit boundary, with `MaxSubIssuesDepth >= 1`. (1) For a root
object `R` on which `CountSubIssues` returns `n` and an issue `c` without parent: when
`n < MaxSubIssues`, `c`'s ID is not on the chain of parent objects cached from `R` (`R`
itself included) and no store operation fails, `UpdateParentIssue(c, R)` returns nil and
has written `parent_id = R.ID` for `c`; when `n = MaxSubIssues` it returns
`ErrSubIssuesTooMany{c.ID, R.ID, R.ID}` and the table is as before. (2) For a root `R`
without sub-issues (object without cached parent and without loaded sub-issues) and
`MaxSubIssues + 1` different issues without parent and without sub-issues, none of them
`R`, attached one after another under the same object `R`: the first `MaxSubIssues`
calls return nil and the next one returns `ErrSubIssuesTooMany{last, R.ID, R.ID}`. -/
theorem UpdateParentIssue_count_boundary (fuel : Nat) (cfg : Setting) (doer : Int)
    (hd : 1 ≤ cfg.MaxSubIssuesDepth) :
    (∀ (w : World) (c R : Issue) (w2 : World) (R2 : Issue) (n : Nat),
      c.ParentIssueID = none → R.ParentIssueID = none →
      CountSubIssues fuel w R = some (w2, R2, .ok n) →
      ((n : Int) < cfg.MaxSubIssues → c.ID ∉ R.chainIDs → w.faults = Faults.none →
        ∃ r, UpdateParentIssue fuel cfg w c (some R) doer = some r ∧ r.err = none ∧
          r.w.rows = updateParentID w.rows c.ID (some R.ID) ∧
          r.issue.ParentIssueID = some R.ID) ∧
      ((n : Int) = cfg.MaxSubIssues →
        ∃ r, UpdateParentIssue fuel cfg w c (some R) doer = some r ∧
          r.err = some (.ErrSubIssuesTooMany c.ID R.ID R.ID) ∧ r.w.rows = w.rows)) ∧
    (∀ (w : World) (R : Issue) (init : List Int) (last : Int),
      2 ≤ fuel → cfg.MaxSubIssues = (init.length : Int) →
      UniqueIDs w.rows → w.faults = Faults.none →
      R.ParentIssueID = none → R.ParentIssue = none → R.isSubIssuesLoaded = false →
      children w.rows R.ID = [] → (init ++ [last]).Nodup →
      (∀ c ∈ init ++ [last], (⟨c, none⟩ : Row) ∈ w.rows ∧ children w.rows c = [] ∧ c ≠ R.ID) →
      ∃ w' R', attachEach fuel cfg doer w R
          ((init ++ [last]).map (fun c => Issue.ofRow ⟨c, none⟩)) =
        some (w', R', List.replicate init.length none ++
          [some (.ErrSubIssuesTooMany last R.ID R.ID)])) := by
  constructor
  · intro w c R w2 R2 n hc hR hcount
    exact UpdateParentIssue_count_check fuel cfg w c R doer w2 R2 n hc hR hd hcount
  · intro w R init last hfuel hmax hu hf hR1 hR2 hR3 hnone hnd hcs
    obtain ⟨f, rfl⟩ := Nat.exists_eq_add_of_le' hfuel
    exact attachEach_leaves f cfg doer R.ID last hd init w R 0 (by rw [hmax]; simp) hu hf rfl
      hR1 hR2 hR3 (by rw [hnone]; rfl) (by rw [hnone]; intro x hx; cases hx) hnd hcs

theorem UpdateParentIssue_count_boundary_witness :
    (∃ r, UpdateParentIssue 2 ⟨2, 3⟩
        ⟨[⟨23, none⟩, ⟨24, some 23⟩, ⟨25, some 23⟩, ⟨26, none⟩], [], 0, 0, 0, Faults.none⟩
        (Issue.ofRow ⟨26, none⟩) (some (Issue.ofRow ⟨23, none⟩)) 1 = some r ∧ r.err = none ∧
      r.w.rows = updateParentID [⟨23, none⟩, ⟨24, some 23⟩, ⟨25, some 23⟩, ⟨26, none⟩] 26 (some 23) ∧
      r.issue.ParentIssueID = some 23) ∧
    (∃ w' R', attachEach 2 ⟨2, 3⟩ 1
        ⟨[⟨23, none⟩, ⟨24, none⟩, ⟨25, none⟩, ⟨26, none⟩, ⟨27, none⟩], [], 0, 0, 0, Faults.none⟩
        (Issue.ofRow ⟨23, none⟩)
        (([24, 25, 26] ++ [27]).map (fun c => Issue.ofRow ⟨c, none⟩)) =
      some (w', R', List.replicate 3 none ++ [some (.ErrSubIssuesTooMany 27 23 23)])) :=
  ⟨((UpdateParentIssue_count_boundary 2 ⟨2, 3⟩ 1 (by decide)).1
      ⟨[⟨23, none⟩, ⟨24, some 23⟩, ⟨25, some 23⟩, ⟨26, none⟩], [], 0, 0, 0, Faults.none⟩
      (Issue.ofRow ⟨26, none⟩) (Issue.ofRow ⟨23, none⟩) _ _ 2 rfl rfl rfl).1
      (by decide) (by decide) rfl,
   (UpdateParentIssue_count_boundary 2 ⟨2, 3⟩ 1 (by decide)).2
      ⟨[⟨23, none⟩, ⟨24, none⟩, ⟨25, none⟩, ⟨26, none⟩, ⟨27, none⟩], [], 0, 0, 0, Faults.none⟩
      (Issue.ofRow ⟨23, none⟩) [24, 25, 26] 27 (by decide) rfl (by decide) rfl rfl rfl rfl rfl
      (by decide) (by decide)⟩

/-- C5 (amended). Depth limit boundary, in a table with primary key and without cycle,
when no store operation fails and the fuel exceeds the number of rows. (1) For an issue
`p` at depth `d` below root `r` (object as scanned from its row) and an issue `c`
without parent: `UpdateParentIssue(c, p)` returns nil and writes `parent_id = p.ID` for
`c` when `d + 1 <= MaxSubIssuesDepth`, the tree of `r` has fewer than `MaxSubIssues`
descendants and `c` is an issue without sub-issues other than `p`; it returns
`ErrSubIssuesTooDeep{c.ID, p.ID, r}`, leaving the table as it was, when
`d + 1 > MaxSubIssuesDepth`. (2) For a root `R` and `MaxSubIssuesDepth + 1` different
issues without parent and without sub-issues, none of them `R`, in a table of fewer than
`MaxSubIssues` rows, each linked under the previous one (the first under `R`): the
first `MaxSubIssuesDepth` calls return nil and the next one returns
`ErrSubIssuesTooDeep{last, bottom of the chain, R}`. -/
theorem UpdateParentIssue_depth_boundary (fuel : Nat) (cfg : Setting) (doer : Int) :
    (∀ (w : World) (c : Issue) (prow : Row) (d : Nat) (r : Int),
      UniqueIDs w.rows → NoCycle w.rows → w.faults = Faults.none →
      prow ∈ w.rows → nthAncestor w.rows d prow.id = some r →
      parentOf w.rows r = none → (∃ row ∈ w.rows, row.id = r) →
      c.ParentIssueID = none → w.rows.length < fuel →
      ((d : Int) + 1 ≤ cfg.MaxSubIssuesDepth →
        ((descendants w.rows r).length : Int) + 1 ≤ cfg.MaxSubIssues →
        children w.rows c.ID = [] → c.ID ≠ prow.id →
        ∃ res, UpdateParentIssue fuel cfg w c (some (Issue.ofRow prow)) doer = some res ∧
          res.err = none ∧ res.w.rows = updateParentID w.rows c.ID (some prow.id) ∧
          res.issue.ParentIssueID = some prow.id) ∧
      ((d : Int) + 1 > cfg.MaxSubIssuesDepth →
        ∃ res, UpdateParentIssue fuel cfg w c (some (Issue.ofRow prow)) doer = some res ∧
          res.err = some (.ErrSubIssuesTooDeep c.ID prow.id r) ∧ res.w.rows = w.rows)) ∧
    (∀ (w : World) (R : Int) (init : List Int) (last : Int),
      cfg.MaxSubIssuesDepth = (init.length : Int) →
      (w.rows.length : Int) < cfg.MaxSubIssues → w.rows.length < fuel →
      UniqueIDs w.rows → NoCycle w.rows → w.faults = Faults.none →
      (⟨R, none⟩ : Row) ∈ w.rows → (init ++ [last]).Nodup →
      (∀ c ∈ init ++ [last], (⟨c, none⟩ : Row) ∈ w.rows ∧ children w.rows c = [] ∧ c ≠ R) →
      ∃ w', chainEach fuel cfg doer w (Issue.ofRow ⟨R, none⟩)
          ((init ++ [last]).map (fun c => Issue.ofRow ⟨c, none⟩)) =
        some (w', List.replicate init.length none ++
          [some (.ErrSubIssuesTooDeep last (init.getLastD R) R)])) := by
  constructor
  · intro w c prow d r hu hn hf hp hchain hroot hrrow hc hfuel
    exact UpdateParentIssue_depth_check fuel cfg w c prow doer d r hu hn hf hp hchain hroot hrrow
      hc hfuel
  · intro w R init last hmax hcnt hfuel hu hn hf hR hnd hcs
    exact chainEach_leaves fuel cfg doer R last init w ⟨R, none⟩ 0 (by rw [hmax]; simp) hcnt hfuel
      hu hn hf hR rfl (parentOf_of_mem w.rows hu ⟨R, none⟩ hR) ⟨⟨R, none⟩, hR, rfl⟩ hnd hcs

theorem UpdateParentIssue_depth_boundary_witness :
    (∃ res, UpdateParentIssue 4 ⟨2, 3⟩
        ⟨[⟨23, none⟩, ⟨24, some 23⟩, ⟨25, none⟩], [], 0, 0, 0, Faults.none⟩
        (Issue.ofRow ⟨25, none⟩) (some (Issue.ofRow ⟨24, some 23⟩)) 1 = some res ∧
      res.err = none ∧
      res.w.rows = updateParentID [⟨23, none⟩, ⟨24, some 23⟩, ⟨25, none⟩] 25 (some 24) ∧
      res.issue.ParentIssueID = some 24) ∧
    (∃ res, UpdateParentIssue 4 ⟨1, 3⟩
        ⟨[⟨23, none⟩, ⟨24, some 23⟩, ⟨25, none⟩], [], 0, 0, 0, Faults.none⟩
        (Issue.ofRow ⟨25, none⟩) (some (Issue.ofRow ⟨24, some 23⟩)) 1 = some res ∧
      res.err = some (.ErrSubIssuesTooDeep 25 24 23) ∧
      res.w.rows = [⟨23, none⟩, ⟨24, some 23⟩, ⟨25, none⟩]) ∧
    (∃ w', chainEach 5 ⟨2, 10⟩ 1
        ⟨[⟨23, none⟩, ⟨24, none⟩, ⟨25, none⟩, ⟨26, none⟩], [], 0, 0, 0, Faults.none⟩
        (Issue.ofRow ⟨23, none⟩) (([24, 25] ++ [26]).map (fun c => Issue.ofRow ⟨c, none⟩)) =
      some (w', List.replicate 2 none ++ [some (.ErrSubIssuesTooDeep 26 25 23)])) :=
  ⟨((UpdateParentIssue_depth_boundary 4 ⟨2, 3⟩ 1).1
      ⟨[⟨23, none⟩, ⟨24, some 23⟩, ⟨25, none⟩], [], 0, 0, 0, Faults.none⟩
      (Issue.ofRow ⟨25, none⟩) ⟨24, some 23⟩ 1 23 (by decide)
      (noCycle_of_bounded _ (by decide)) rfl (by decide) rfl rfl ⟨⟨23, none⟩, by decide, rfl⟩ rfl
      (by decide)).1 (by decide) (by decide) rfl (by decide),
   ((UpdateParentIssue_depth_boundary 4 ⟨1, 3⟩ 1).1
      ⟨[⟨23, none⟩, ⟨24, some 23⟩, ⟨25, none⟩], [], 0, 0, 0, Faults.none⟩
      (Issue.ofRow ⟨25, none⟩) ⟨24, some 23⟩ 1 23 (by decide)
      (noCycle_of_bounded _ (by decide)) rfl (by decide) rfl rfl ⟨⟨23, none⟩, by decide, rfl⟩ rfl
      (by decide)).2 (by decide),
   (UpdateParentIssue_depth_boundary 5 ⟨2, 10⟩ 1).2
      ⟨[⟨23, none⟩, ⟨24, none⟩, ⟨25, none⟩, ⟨26, none⟩], [], 0, 0, 0, Faults.none⟩
      23 [24, 25] 26 rfl (by decide) (by decide) (by decide)
      (noCycle_of_bounded _ (by decide)) rfl (by decide) (by decide) (by decide)⟩

/-! ## Audit comments, caches and the cycle walk after an unlink -/

/-- C11 (failing input). Issues 23, 24 and 25 are roots. After a link and an unlink of 24
under 23 the child object has no `ParentIssueID` but still points to the object of 23.
Linking it under 25 succeeds and records two audit events: an unlink of 24 from 23,
although `ParentIssueID` was absent before the call, and then the link under 25. -/
theorem UpdateParentIssue_unlink_comment_without_parent :
    ∃ r1 r2 r3,
      UpdateParentIssue 3 ⟨5, 5⟩
        ⟨[⟨23, none⟩, ⟨24, none⟩, ⟨25, none⟩], [], 0, 0, 0, Faults.none⟩
        (Issue.ofRow ⟨24, none⟩) (some (Issue.ofRow ⟨23, none⟩)) 1 = some r1 ∧
      UpdateParentIssue 3 ⟨5, 5⟩ r1.w r1.issue none 1 = some r2 ∧ r2.err = none ∧
      r2.issue.ParentIssueID = none ∧ parentOf r2.w.rows 24 = none ∧
      UpdateParentIssue 3 ⟨5, 5⟩ r2.w r2.issue (some (Issue.ofRow ⟨25, none⟩)) 1 = some r3 ∧
      r3.err = none ∧ parentOf r3.w.rows 24 = some 25 ∧
      r3.w.comments = r2.w.comments ++ [⟨1, 23, 24, false⟩, ⟨1, 25, 24, true⟩] :=
  ⟨_, _, _, rfl, rfl, rfl, rfl, rfl, rfl, rfl, rfl, rfl⟩

/-- C14 (failing input). Issue 2 is a sub-issue of 1 and issue 3 is a root. Linking 3
under the object of 2 leaves on that object the cached parent object of 1 with its
sub-issues loaded. Unlinking 2 through the same object succeeds, and the old parent
object still has `isSubIssuesLoaded` set and still lists 2, so `LoadSubIssues` on it
reads nothing although 1 has no sub-issue in the table. -/
theorem UpdateParentIssue_old_parent_cache_kept :
    ∃ r1 x r2 old,
      UpdateParentIssue 4 ⟨5, 5⟩
        ⟨[⟨1, none⟩, ⟨2, some 1⟩, ⟨3, none⟩], [], 0, 0, 0, Faults.none⟩
        (Issue.ofRow ⟨3, none⟩) (some (Issue.ofRow ⟨2, some 1⟩)) 1 = some r1 ∧
      r1.err = none ∧ r1.parent = some x ∧
      UpdateParentIssue 4 ⟨5, 5⟩ r1.w x none 1 = some r2 ∧ r2.err = none ∧
      r2.issue.isParentIssueLoaded = false ∧
      r2.issue.ParentIssue = some old ∧ old.ID = 1 ∧
      old.isSubIssuesLoaded = true ∧ old.SubIssues.map Issue.ID = [2] ∧
      children r2.w.rows 1 = [] ∧
      LoadSubIssues r2.w old = (r2.w, old, none) :=
  ⟨_, _, _, _, rfl, rfl, rfl, rfl, rfl, rfl, rfl, rfl, rfl, rfl, rfl, rfl⟩

/-- C20 (failing input). Issue 24 is a sub-issue of 23. Unlinking 24 succeeds and leaves
on the child object the pointer to the object of 23. Linking 23 under that object of 24
is rejected as circular, although in the table 24 is a root and 23 is not on the parent
chain of 24: the walk over `ParentIssue` has gone beyond the root. -/
theorem UpdateParentIssue_circular_beyond_root :
    ∃ r1 r2,
      UpdateParentIssue 4 ⟨5, 5⟩ ⟨[⟨23, none⟩, ⟨24, some 23⟩], [], 0, 0, 0, Faults.none⟩
        (Issue.ofRow ⟨24, some 23⟩) none 1 = some r1 ∧ r1.err = none ∧
      r1.w.rows = [⟨23, none⟩, ⟨24, none⟩] ∧ r1.issue.ParentIssueID = none ∧
      UpdateParentIssue 4 ⟨5, 5⟩ r1.w (Issue.ofRow ⟨23, none⟩) (some r1.issue) 1 = some r2 ∧
      r2.err = some (.ErrCircularParentIssue 23 24) ∧
      parentOf [⟨23, none⟩, ⟨24, none⟩] 24 = none ∧
      ¬ ∃ k, nthAncestor [⟨23, none⟩, ⟨24, none⟩] k 24 = some 23 := by
  refine ⟨_, _, rfl, rfl, rfl, rfl, rfl, rfl, rfl, ?_⟩
  rintro ⟨k, hk⟩
  cases k with
  | zero => exact absurd hk (by decide)
  | succ n =>
    have hp : parentOf [⟨23, none⟩, ⟨24, none⟩] 24 = none := rfl
    rw [nthAncestor_succ, hp] at hk
    cases hk

/-! ## The transaction block -/

theorem sameKey_setNthParent (d : Nat) (i root r2 : Issue)
    (h : i.nthParent d = some root) (hk : SameKey root r2) : SameKey i (i.setNthParent d r2) := by
  cases d with
  | zero =>
    simp only [Issue.nthParent, Option.some.injEq] at h
    subst h
    exact hk
  | succ d =>
    cases i with
    | mk a b c dd e f =>
      cases c with
      | none => exact SameKey.sameKey_refl _
      | some q => exact ⟨rfl, rfl⟩

theorem validateParent_sameKey (fuel : Nat) (cfg : Setting) (w : World) (issue parent : Issue)
    (w' : World) (p' : Issue) (e : Option Err)
    (h : validateParent fuel cfg w issue parent = some (w', p', e)) : SameKey parent p' := by
  unfold validateParent at h
  split at h
  · simp at h
  · next w1 parent1 e1 hl =>
    simp only [Option.some.injEq, Prod.mk.injEq] at h
    obtain ⟨-, rfl, -⟩ := h
    exact (LookupRootIssue_frame _ _ _ _ _ _ hl).2
  · next w1 parent1 root depth hl =>
    have h1 := (LookupRootIssue_frame _ _ _ _ _ _ hl).2
    have h2 := (LookupRootIssue_root _ _ _ _ _ _ _ hl).1
    split at h
    · simp only [Option.some.injEq, Prod.mk.injEq] at h
      obtain ⟨-, rfl, -⟩ := h
      exact h1
    · have hset : ∀ w2 root2 res, CountSubIssues fuel w1 root = some (w2, root2, res) →
          SameKey parent (parent1.setNthParent depth root2) := by
        intro w2 root2 res hc
        have h3 := (CountSubIssues_frame _ _ _ _ _ _ hc).2.1
        exact h1.sameKey_trans (sameKey_setNthParent depth parent1 root root2 h2 h3)
      split at h
      · simp at h
      · next w2 root2 e2 hc =>
        simp only [Option.some.injEq, Prod.mk.injEq] at h
        obtain ⟨-, rfl, -⟩ := h
        exact hset _ _ _ hc
      · next w2 root2 rootCount hc =>
        have h4 := hset _ _ _ hc
        simp only at h
        repeat' split at h
        all_goals
          simp only [Option.some.injEq, Prod.mk.injEq] at h
          obtain ⟨-, rfl, -⟩ := h
          exact h4

/-- Every call of `UpdateParentIssue` that returns either has stopped before
`db.TxContext` (a no-op, a failed `LoadParentIssue` or a failed validation: the store
is untouched) or has run the transaction block on the receiver as `LoadParentIssue`
left it and on a `parent` object with the ID of the argument. -/
theorem UpdateParentIssue_reaches (fuel : Nat) (cfg : Setting) (w : World) (issue : Issue)
    (parent : Option Issue) (doer : Int) (r : UpdateResult)
    (h : UpdateParentIssue fuel cfg w issue parent doer = some r) :
    (ReadOnly w r.w ∧ SameKey issue r.issue ∧
        (r.err = none → issue.ParentIssueID = parent.map Issue.ID ∧ r.w = w)) ∨
      (∃ w1 p1, ReadOnly w w1 ∧ p1.map Issue.ID = parent.map Issue.ID ∧
        issue.ParentIssueID ≠ parent.map Issue.ID ∧
        r = commitParent w1 (LoadParentIssue w issue).2.1
              (LoadParentIssue w issue).2.1.ParentIssue p1 doer) := by
  unfold UpdateParentIssue at h
  split at h
  · next hc =>
    simp only [Option.some.injEq] at h
    subst h
    simp only [Bool.and_eq_true, beq_iff_eq] at hc
    exact Or.inl ⟨ReadOnly.readOnly_refl _, SameKey.sameKey_refl _, fun _ => ⟨hc.2, rfl⟩⟩
  · next hc1 =>
    split at h
    · next hc =>
      simp only [Option.some.injEq] at h
      subst h
      simp only [Bool.and_eq_true, Option.isNone_iff_eq_none] at hc
      refine Or.inl ⟨ReadOnly.readOnly_refl _, SameKey.sameKey_refl _, fun _ => ⟨?_, rfl⟩⟩
      rw [hc.1, hc.2]; rfl
    · next hc2 =>
      have hne : issue.ParentIssueID ≠ parent.map Issue.ID := by
        intro heq
        cases hp : parent with
        | none =>
          rw [hp] at heq
          simp only [Option.map_none'] at heq
          simp [hp, heq] at hc2
        | some p =>
          rw [hp] at heq
          simp [hp, heq] at hc1
      have hl := LoadParentIssue_frame w issue
      split at h
      · next w1 issue1 e1 heq =>
        rw [heq] at hl
        simp only [Option.some.injEq] at h
        subst h
        exact Or.inl ⟨hl.1, hl.2, fun he => by simp at he⟩
      · next w1 issue1 heq =>
        rw [heq] at hl
        simp only at hl
        split at h
        · simp only [Option.some.injEq] at h
          exact Or.inr ⟨w1, none, hl.1, rfl, hne, by rw [heq]; exact h.symm⟩
        · next p =>
          split at h
          · simp at h
          · next w2 p2 e2 hv =>
            simp only [Option.some.injEq] at h
            subst h
            have hv1 := validateParent_frame _ _ _ _ _ _ _ _ hv
            exact Or.inl ⟨hl.1.readOnly_trans hv1, hl.2, fun he => by simp at he⟩
          · next w2 p2 hv =>
            simp only [Option.some.injEq] at h
            have hv1 := validateParent_frame _ _ _ _ _ _ _ _ hv
            have hv2 := validateParent_sameKey _ _ _ _ _ _ _ _ hv
            refine Or.inr ⟨w2, some p2, hl.1.readOnly_trans hv1, ?_, hne, by rw [heq]; exact h.symm⟩
            simp only [Option.map_some', hv2.1]

theorem commitParent_txContext (w : World) (issue : Issue) (oldParent parent : Option Issue)
    (doer : Int) (hf : w.faults.txContext = true) :
    commitParent w issue oldParent parent doer =
      { w := { w with txs := w.txs + 1 }, issue := issue, parent := parent,
        err := some (.store .txContext) } := by
  unfold commitParent
  simp only [hf, if_true]

theorem commitParent_updateIssueCols (w : World) (issue : Issue) (oldParent parent : Option Issue)
    (doer : Int) (hf : w.faults.txContext = false) (hg : w.faults.updateIssueCols = true) :
    commitParent w issue oldParent parent doer =
      { w := { w with txs := w.txs + 1, writes := w.writes + 1 }, issue := issue,
        parent := parent, err := some (.store .updateIssueCols) } := by
  unfold commitParent
  simp only [hf, hg, if_true, Bool.false_eq_true, if_false]

theorem commitParent_txs (w : World) (issue : Issue) (oldParent parent : Option Issue)
    (doer : Int) : (commitParent w issue oldParent parent doer).w.txs = w.txs + 1 := by
  unfold commitParent
  simp only
  repeat' split
  all_goals rfl

theorem commitParent_wrap (w : World) (issue : Issue) (oldParent parent : Option Issue)
    (doer : Int) (msg : String) (e : Err)
    (h : (commitParent w issue oldParent parent doer).err = some (.wrap msg e)) :
    e = .store .createComment ∧
      (msg = "createSubIssueComment, unlink old" ∨ msg = "createSubIssueComment, link new") ∧
      (commitParent w issue oldParent parent doer).w.rows = w.rows ∧
      (commitParent w issue oldParent parent doer).w.comments = w.comments ∧
      (commitParent w issue oldParent parent doer).w.writes = w.writes + 1 ∧
      (commitParent w issue oldParent parent doer).issue.ParentIssueID = parent.map Issue.ID := by
  revert h
  unfold commitParent
  simp only
  repeat' split
  all_goals
    intro h
    first
    | (exfalso; simp at h; done)
    | (simp only [Option.some.injEq, Err.wrap.injEq] at h
       obtain ⟨rfl, rfl⟩ := h
       refine ⟨rfl, by simp, rfl, rfl, rfl, ?_⟩
       cases issue
       rfl)

/-! ## Where the errors come from -/

theorem LookupRootIssue_err : ∀ (fuel : Nat) (w : World) (i : Issue) (w' : World) (i' : Issue)
    (e : Err), LookupRootIssue fuel w i = some (w', i', .error e) →
      e = .store .getIssueByID ∨ e = .nilDereference ∨ ∃ id, e = .ErrIssueNotExist id := by
  intro fuel
  induction fuel with
  | zero => intro w i w' i' e h; simp [LookupRootIssue] at h
  | succ n ih =>
    intro w i w' i' e h
    unfold LookupRootIssue at h
    split at h
    · simp at h
    · split at h
      · next w1 root1 e1 heq =>
        simp only [Option.some.injEq, Prod.mk.injEq, Except.error.injEq] at h
        obtain ⟨-, -, rfl⟩ := h
        obtain ⟨pid, -, hl | hl⟩ := LoadParentIssue_err w i e1 (by rw [heq])
        · exact Or.inl hl
        · exact Or.inr (Or.inr ⟨pid, hl⟩)
      · split at h
        · simp only [Option.some.injEq, Prod.mk.injEq, Except.error.injEq] at h
          exact Or.inr (Or.inl h.2.2.symm)
        · split at h
          · simp at h
          · next w2 p2 e2 hrec =>
            simp only [Option.some.injEq, Prod.mk.injEq, Except.error.injEq] at h
            obtain ⟨-, -, rfl⟩ := h
            exact ih _ _ _ _ _ hrec
          · simp at h

theorem LoadSubIssues_err (w : World) (i : Issue) (e : Err)
    (h : (LoadSubIssues w i).2.2 = some e) : e = .store .find := by
  unfold LoadSubIssues GetSubIssuesByIssueID at h
  simp only at h
  repeat' split at h
  all_goals first
    | (simp at h; done)
    | (rename_i heq
       simp only [Option.some.injEq] at h
       subst h
       split at heq
       · simp only [Prod.mk.injEq, Except.error.injEq] at heq
         exact heq.2.symm
       · simp at heq)

theorem countLoop_err (count : World → Issue → Option (World × Issue × Except Err Nat))
    (hc : ∀ w i w' i' e, count w i = some (w', i', .error e) → e = .store .find) :
    ∀ (l : List Issue) (w : World) (n : Nat) (w' : World) (l' : List Issue) (e : Err),
      countLoop count w l n = some (w', l', .error e) → e = .store .find := by
  intro l
  induction l with
  | nil =>
    intro w n w' l' e h
    simp [countLoop] at h
  | cons s rest ih =>
    intro w n w' l' e h
    unfold countLoop at h
    split at h
    · simp at h
    · next w1 s1 e1 hs =>
      simp only [Option.some.injEq, Prod.mk.injEq, Except.error.injEq] at h
      obtain ⟨-, -, rfl⟩ := h
      exact hc _ _ _ _ _ hs
    · next w1 s1 subcount hs =>
      split at h
      · simp at h
      · next w2 rest2 res2 hrest =>
        simp only [Option.some.injEq, Prod.mk.injEq] at h
        obtain ⟨-, -, rfl⟩ := h
        exact ih _ _ _ _ _ hrest

theorem CountSubIssues_err : ∀ (fuel : Nat) (w : World) (i : Issue) (w' : World) (i' : Issue)
    (e : Err), CountSubIssues fuel w i = some (w', i', .error e) → e = .store .find := by
  intro fuel
  induction fuel with
  | zero => intro w i w' i' e h; simp [CountSubIssues] at h
  | succ n ih =>
    intro w i w' i' e h
    unfold CountSubIssues at h
    split at h
    · next w1 issue1 e1 heq =>
      simp only [Option.some.injEq, Prod.mk.injEq, Except.error.injEq] at h
      obtain ⟨-, -, rfl⟩ := h
      exact LoadSubIssues_err w i e1 (by rw [heq])
    · split at h
      · simp at h
      · next w2 subs res2 hloop =>
        simp only [Option.some.injEq, Prod.mk.injEq] at h
        obtain ⟨-, -, rfl⟩ := h
        exact countLoop_err (CountSubIssues n) ih _ _ _ _ _ _ hloop

theorem validateParent_err (fuel : Nat) (cfg : Setting) (w : World) (issue parent : Issue)
    (w' : World) (p' : Issue) (e : Err)
    (h : validateParent fuel cfg w issue parent = some (w', p', some e)) :
    e.isRejection = true ∨ e = .store .getIssueByID ∨ e = .nilDereference ∨
      e = .store .find ∨ ∃ id, e = .ErrIssueNotExist id := by
  unfold validateParent at h
  split at h
  · simp at h
  · next w1 parent1 e1 hl =>
    simp only [Option.some.injEq, Prod.mk.injEq] at h
    obtain ⟨-, -, rfl⟩ := h
    rcases LookupRootIssue_err _ _ _ _ _ _ hl with h1 | h1 | h1
    · exact Or.inr (Or.inl h1)
    · exact Or.inr (Or.inr (Or.inl h1))
    · exact Or.inr (Or.inr (Or.inr (Or.inr h1)))
  · split at h
    · simp only [Option.some.injEq, Prod.mk.injEq] at h
      obtain ⟨-, -, rfl⟩ := h
      exact Or.inl rfl
    · split at h
      · simp at h
      · next w2 root2 e2 hc =>
        simp only [Option.some.injEq, Prod.mk.injEq] at h
        obtain ⟨-, -, rfl⟩ := h
        exact Or.inr (Or.inr (Or.inr (Or.inl (CountSubIssues_err _ _ _ _ _ _ hc))))
      · simp only at h
        repeat' split at h
        all_goals first
          | (simp at h; done)
          | (simp only [Option.some.injEq, Prod.mk.injEq] at h
             obtain ⟨-, -, rfl⟩ := h
             exact Or.inl rfl)

/-- A wrapped error comes from the transaction block. -/
theorem UpdateParentIssue_wrap_reaches (fuel : Nat) (cfg : Setting) (w : World) (issue : Issue)
    (parent : Option Issue) (doer : Int) (r : UpdateResult) (msg : String) (e : Err)
    (h : UpdateParentIssue fuel cfg w issue parent doer = some r)
    (he : r.err = some (.wrap msg e)) :
    ∃ w1 p1, ReadOnly w w1 ∧ p1.map Issue.ID = parent.map Issue.ID ∧
      r = commitParent w1 (LoadParentIssue w issue).2.1
            (LoadParentIssue w issue).2.1.ParentIssue p1 doer := by
  rcases UpdateParentIssue_reaches fuel cfg w issue parent doer r h with h1 | h1
  · exfalso
    unfold UpdateParentIssue at h
    split at h
    · simp only [Option.some.injEq] at h; subst h; simp at he
    · split at h
      · simp only [Option.some.injEq] at h; subst h; simp at he
      · split at h
        · next w1 issue1 e1 heq =>
          simp only [Option.some.injEq] at h
          subst h
          simp only [Option.some.injEq] at he
          obtain ⟨pid, -, hl | hl⟩ := LoadParentIssue_err w issue e1 (by rw [heq]) <;>
            rw [hl] at he <;> cases he
        · next w1 issue1 heq =>
          have hw := (LoadParentIssue_frame w issue).1.2.2.2.1
          rw [heq] at hw
          simp only at hw
          split at h
          · simp only [Option.some.injEq] at h
            have := commitParent_txs w1 issue1 issue1.ParentIssue none doer
            rw [h, h1.1.2.2.2.1] at this
            omega
          · next p =>
            split at h
            · simp at h
            · next w2 p2 e2 hv =>
              simp only [Option.some.injEq] at h
              subst h
              simp only [Option.some.injEq] at he
              subst he
              rcases validateParent_err _ _ _ _ _ _ _ _ hv with h2 | h2 | h2 | h2 | ⟨id, h2⟩
              · simp [Err.isRejection, IsErrSubIssuesTooDeep, IsErrSubIssuesTooMany,
                  IsErrCircularParentIssue] at h2
              all_goals cases h2
            · next w2 p2 hv =>
              simp only [Option.some.injEq] at h
              have := commitParent_txs w2 issue1 issue1.ParentIssue (some p2) doer
              rw [h, h1.1.2.2.2.1] at this
              have hw2 := (validateParent_frame _ _ _ _ _ _ _ _ hv).2.2.2.1
              omega
  · obtain ⟨w1, p1, hro, hp, -, hr⟩ := h1
    exact ⟨w1, p1, hro, hp, hr⟩

/-- C13. Persistence error atomicity: when a call of `UpdateParentIssue` has got as far
as `db.TxContext` and opening the transaction fails, or it opens and the `parent_id`
write `UpdateIssueCols` fails, the call returns the error of that operation as it is
(not wrapped), the rows of the table are as before, the `ParentIssueID` of the receiver
is as before, and no audit comment has been added. -/
theorem UpdateParentIssue_persistence_error (fuel : Nat) (cfg : Setting) (w : World)
    (issue : Issue) (parent : Option Issue) (doer : Int) (r : UpdateResult)
    (hf : w.faults.txContext = true ∨ w.faults.updateIssueCols = true)
    (h : UpdateParentIssue fuel cfg w issue parent doer = some r)
    (htx : r.w.txs ≠ w.txs) :
    r.err = some (if w.faults.txContext then .store .txContext else .store .updateIssueCols) ∧
      r.w.rows = w.rows ∧ r.w.comments = w.comments ∧
      r.issue.ParentIssueID = issue.ParentIssueID := by
  rcases UpdateParentIssue_reaches fuel cfg w issue parent doer r h with h1 | h1
  · exact absurd h1.1.2.2.2.1 htx
  · obtain ⟨w1, p1, hro, -, -, hr⟩ := h1
    have hk := (LoadParentIssue_frame w issue).2
    obtain ⟨hrows, hcom, -, -, hfaults⟩ := hro
    by_cases ht : w.faults.txContext = true
    · rw [commitParent_txContext w1 _ _ _ _ (by rw [hfaults]; exact ht)] at hr
      subst hr
      exact ⟨by simp [ht], hrows, hcom, hk.2⟩
    · have hu : w.faults.updateIssueCols = true := hf.resolve_left ht
      have ht1 : w.faults.txContext = false := by simpa using ht
      rw [commitParent_updateIssueCols w1 _ _ _ _ (by rw [hfaults]; exact ht1)
        (by rw [hfaults]; exact hu)] at hr
      subst hr
      exact ⟨by simp [ht1], hrows, hcom, hk.2⟩

theorem UpdateParentIssue_persistence_error_witness :
    ∃ r, UpdateParentIssue 3 ⟨5, 5⟩
        ⟨[⟨23, none⟩, ⟨24, none⟩], [], 0, 0, 0, { Faults.none with updateIssueCols := true }⟩
        (Issue.ofRow ⟨24, none⟩) (some (Issue.ofRow ⟨23, none⟩)) 1 = some r ∧
      r.w.txs = 1 ∧ r.w.writes = 1 ∧
      r.err = some (.store .updateIssueCols) ∧
      r.w.rows = [⟨23, none⟩, ⟨24, none⟩] ∧ r.w.comments = [] ∧
      r.issue.ParentIssueID = none :=
  ⟨_, rfl, rfl, rfl,
    UpdateParentIssue_persistence_error 3 ⟨5, 5⟩
      ⟨[⟨23, none⟩, ⟨24, none⟩], [], 0, 0, 0, { Faults.none with updateIssueCols := true }⟩
      (Issue.ofRow ⟨24, none⟩) (some (Issue.ofRow ⟨23, none⟩)) 1 _ (Or.inr rfl) rfl
      (by decide)⟩

/-- C12 (counterexample). Issues 23 and 24 are roots and emitting the link comment
fails. Linking 24 under 23 performs the `parent_id` write and returns the wrapped
comment error; in the table `parent_id` of 24 is still absent. -/
theorem UpdateParentIssue_comment_failure_not_persisted :
    ∃ r, UpdateParentIssue 3 ⟨5, 5⟩
        ⟨[⟨23, none⟩, ⟨24, none⟩], [], 0, 0, 0, { Faults.none with linkComment := true }⟩
        (Issue.ofRow ⟨24, none⟩) (some (Issue.ofRow ⟨23, none⟩)) 1 = some r ∧
      r.w.writes = 1 ∧
      r.err = some (.wrap "createSubIssueComment, link new" (.store .createComment)) ∧
      parentOf r.w.rows 24 = none ∧ parentOf r.w.rows 24 ≠ some 23 :=
  ⟨_, rfl, rfl, rfl, rfl, by decide⟩

/-- C12 (amended). Audit failure after the write: when a call of `UpdateParentIssue`
has issued the `parent_id` write, the write itself does not fail, and emitting an audit
comment fails (the unlink comment, attempted when the receiver has a cached old parent
after `LoadParentIssue`, or the link comment, attempted when a new parent is given),
the call returns the error of `createSubIssueComment` wrapped with
"createSubIssueComment, unlink old" (when it is the unlink comment that fails) or
"createSubIssueComment, link new", and the relationship change is not persisted: the
rows and the comments of the table, hence the persisted parent of the receiver, are as
before the call. -/
theorem UpdateParentIssue_comment_failure_rolled_back (fuel : Nat) (cfg : Setting) (w : World)
    (issue : Issue) (parent : Option Issue) (doer : Int) (r : UpdateResult)
    (h : UpdateParentIssue fuel cfg w issue parent doer = some r)
    (hw : r.w.writes ≠ w.writes) (hf : w.faults.updateIssueCols = false)
    (hfail : ((LoadParentIssue w issue).2.1.ParentIssue.isSome = true ∧
          w.faults.unlinkComment = true) ∨
        (parent.isSome = true ∧ w.faults.linkComment = true)) :
    r.err = some (.wrap
        (if (LoadParentIssue w issue).2.1.ParentIssue.isSome && w.faults.unlinkComment
          then "createSubIssueComment, unlink old" else "createSubIssueComment, link new")
        (.store .createComment)) ∧
      r.w.writes = w.writes + 1 ∧ r.w.rows = w.rows ∧ r.w.comments = w.comments ∧
      parentOf r.w.rows issue.ID = parentOf w.rows issue.ID := by
  rcases UpdateParentIssue_reaches fuel cfg w issue parent doer r h with h1 | h2
  · exact absurd h1.1.2.2.1 hw
  · obtain ⟨w1, p1, hro, hp, _, hr⟩ := h2
    obtain ⟨hrows, hcom, hwr, _, hfa⟩ := hro
    have hps : p1.isSome = parent.isSome := by
      cases p1 <;> cases parent <;> simp_all
    subst hr
    revert hw
    unfold commitParent
    simp only [hfa, hf, hps]
    cases htx : w.faults.txContext
    · rcases hfail with ⟨ho, hu⟩ | ⟨hpp, hl⟩
      · simp [ho, hu, hrows, hcom, hwr]
      · cases hc : ((LoadParentIssue w issue).2.1.ParentIssue.isSome && w.faults.unlinkComment)
        · simp [hc, hpp, hl, hrows, hcom, hwr]
        · simp [hc, hrows, hcom, hwr]
    · intro hw
      exact absurd hwr hw

theorem UpdateParentIssue_comment_failure_rolled_back_witness :
    ∃ r, UpdateParentIssue 3 ⟨5, 5⟩
        ⟨[⟨23, none⟩, ⟨24, some 23⟩], [], 0, 0, 0, { Faults.none with unlinkComment := true }⟩
        (Issue.ofRow ⟨24, some 23⟩) none 1 = some r ∧
      r.err = some (.wrap "createSubIssueComment, unlink old" (.store .createComment)) ∧
      r.w.writes = 1 ∧ r.w.rows = [⟨23, none⟩, ⟨24, some 23⟩] ∧ r.w.comments = [] ∧
      parentOf r.w.rows 24 = some 23 :=
  ⟨_, rfl,
    UpdateParentIssue_comment_failure_rolled_back 3 ⟨5, 5⟩
      ⟨[⟨23, none⟩, ⟨24, some 23⟩], [], 0, 0, 0, { Faults.none with unlinkComment := true }⟩
      (Issue.ofRow ⟨24, some 23⟩) none 1 _ rfl (by decide) rfl (Or.inl ⟨rfl, rfl⟩)⟩

/-- C16 (counterexample). Issues 23 and 24 are roots; two objects of 24 are loaded. The
first is linked under 23. `UpdateParentIssue(nil)` on the second, whose `ParentIssueID`
is still absent, succeeds as a no-op: the persisted parent of 24 is 23, not absent, and
differs from the in-memory `ParentIssueID`. -/
theorem UpdateParentIssue_noop_on_stale_object :
    ∃ r1 r2,
      UpdateParentIssue 3 ⟨5, 5⟩ ⟨[⟨23, none⟩, ⟨24, none⟩], [], 0, 0, 0, Faults.none⟩
        (Issue.ofRow ⟨24, none⟩) (some (Issue.ofRow ⟨23, none⟩)) 1 = some r1 ∧ r1.err = none ∧
      UpdateParentIssue 3 ⟨5, 5⟩ r1.w (Issue.ofRow ⟨24, none⟩) none 1 = some r2 ∧
      r2.err = none ∧ parentOf r2.w.rows 24 = some 23 ∧ r2.issue.ParentIssueID = none :=
  ⟨_, _, rfl, rfl, rfl, rfl, rfl, rfl⟩

/-- C16 (amended). Single-edge write: for an issue of the table, given as an object whose
`ParentIssueID` is the persisted `parent_id`, after every successful
`UpdateParentIssue(parent)` the persisted parent of the issue is `parent.ID` (absent
when `parent` is nil), the in-memory `ParentIssueID` equals it, and the persisted parent
of every other issue is as before. -/
theorem UpdateParentIssue_single_edge (fuel : Nat) (cfg : Setting) (w : World)
    (issue : Issue) (parent : Option Issue) (doer : Int) (r : UpdateResult)
    (hrow : ∃ row ∈ w.rows, row.id = issue.ID)
    (hc : issue.ParentIssueID = parentOf w.rows issue.ID)
    (h : UpdateParentIssue fuel cfg w issue parent doer = some r) (he : r.err = none) :
    parentOf r.w.rows issue.ID = parent.map Issue.ID ∧
      r.issue.ParentIssueID = parent.map Issue.ID ∧
      r.issue.ID = issue.ID ∧
      ∀ y, y ≠ issue.ID → parentOf r.w.rows y = parentOf w.rows y := by
  rcases UpdateParentIssue_reaches fuel cfg w issue parent doer r h with h1 | h1
  · obtain ⟨hro, hk, hn⟩ := h1
    obtain ⟨hn1, hn2⟩ := hn he
    rw [hn2]
    exact ⟨by rw [← hc, hn1], by rw [hk.2, hn1], hk.1, fun _ _ => rfl⟩
  · obtain ⟨w1, p1, hro, hp, -, hr⟩ := h1
    have hk := (LoadParentIssue_frame w issue).2
    subst hr
    have hrows := commitParent_success _ _ _ _ _ he
    have hfind : (w.rows.find? (fun x => x.id == issue.ID)).isSome = true := by
      obtain ⟨row, hmem, hid⟩ := hrow
      rw [← hid]
      exact find_isSome_of_mem w.rows row hmem
    rw [hrows, hro.1, hk.1, hp]
    refine ⟨?_, ?_, ?_, ?_⟩
    · rw [parentOf_updateParentID]
      simp [hfind]
    · revert he
      unfold commitParent
      simp only
      repeat' split
      all_goals
        intro he
        first
        | (exfalso; simp at he; done)
        | (rw [← hp]; cases (LoadParentIssue w issue).2.1; rfl)
    · revert he
      unfold commitParent
      simp only
      repeat' split
      all_goals
        intro he
        first
        | (exfalso; simp at he; done)
        | (rw [← hk.1]; cases (LoadParentIssue w issue).2.1; rfl)
    · intro y hy
      rw [parentOf_updateParentID]
      simp [hy]

theorem UpdateParentIssue_single_edge_witness :
    ∃ r, UpdateParentIssue 3 ⟨5, 5⟩
        ⟨[⟨23, none⟩, ⟨24, some 23⟩, ⟨25, none⟩], [], 0, 0, 0, Faults.none⟩
        (Issue.ofRow ⟨24, some 23⟩) (some (Issue.ofRow ⟨25, none⟩)) 1 = some r ∧
      r.err = none ∧
      parentOf r.w.rows 24 = some 25 ∧ r.issue.ParentIssueID = some 25 ∧ r.issue.ID = 24 ∧
      ∀ y, y ≠ 24 →
        parentOf r.w.rows y = parentOf [⟨23, none⟩, ⟨24, some 23⟩, ⟨25, none⟩] y :=
  ⟨_, rfl, rfl,
    UpdateParentIssue_single_edge 3 ⟨5, 5⟩
      ⟨[⟨23, none⟩, ⟨24, some 23⟩, ⟨25, none⟩], [], 0, 0, 0, Faults.none⟩
      (Issue.ofRow ⟨24, some 23⟩) (some (Issue.ofRow ⟨25, none⟩)) 1 _
      ⟨⟨24, some 23⟩, by decide, rfl⟩ rfl rfl rfl⟩

/-! ## Caches on the validation path -/

theorem LoadParentIssue_caches (w : World) (i : Issue) :
    (LoadParentIssue w i).2.1.SubIssues = i.SubIssues ∧
      (LoadParentIssue w i).2.1.isSubIssuesLoaded = i.isSubIssuesLoaded ∧
      (i.isParentIssueLoaded = true → (LoadParentIssue w i).2.1 = i) := by
  cases i with
  | mk a b c d e f =>
    unfold LoadParentIssue
    cases b with
    | none => exact ⟨rfl, rfl, fun _ => rfl⟩
    | some pid =>
      simp only [Issue.ParentIssueID_mk, Issue.isParentIssueLoaded_mk]
      split
      · next hc =>
        have hd : d = false := by
          cases d
          · rfl
          · simp at hc
        split
        · exact ⟨rfl, rfl, fun h => by rw [hd] at h; cases h⟩
        · exact ⟨rfl, rfl, fun h => by rw [hd] at h; cases h⟩
      · exact ⟨rfl, rfl, fun _ => rfl⟩

theorem LoadSubIssues_caches (w : World) (i : Issue) :
    (LoadSubIssues w i).2.1.isParentIssueLoaded = i.isParentIssueLoaded ∧
      (i.isSubIssuesLoaded = true → (LoadSubIssues w i).2.1 = i) := by
  cases i with
  | mk a b c d e f =>
    unfold LoadSubIssues
    simp only [Issue.isSubIssuesLoaded_mk, Issue.isParentIssueLoaded_mk]
    split
    · next hc =>
      have hf : f = false := by
        cases f
        · rfl
        · simp at hc
      split
      · exact ⟨rfl, fun h => by rw [hf] at h; cases h⟩
      · exact ⟨rfl, fun h => by rw [hf] at h; cases h⟩
    · exact ⟨rfl, fun _ => rfl⟩

theorem LookupRootIssue_caches (fuel : Nat) (w : World) (i : Issue) (w' : World) (i' : Issue)
    (res : Except Err (Issue × Nat)) (h : LookupRootIssue fuel w i = some (w', i', res)) :
    i'.SubIssues = i.SubIssues ∧ i'.isSubIssuesLoaded = i.isSubIssuesLoaded ∧
      (i.isParentIssueLoaded = true → i'.isParentIssueLoaded = true) := by
  cases fuel with
  | zero => simp [LookupRootIssue] at h
  | succ n =>
    unfold LookupRootIssue at h
    split at h
    · simp only [Option.some.injEq, Prod.mk.injEq] at h
      obtain ⟨-, rfl, -⟩ := h
      exact ⟨rfl, rfl, fun hh => hh⟩
    · have hl := LoadParentIssue_caches w i
      have key : ∀ j : Issue, (j = (LoadParentIssue w i).2.1 ∨
          ∃ q, j = (LoadParentIssue w i).2.1.setParentIssue q) →
          j.SubIssues = i.SubIssues ∧ j.isSubIssuesLoaded = i.isSubIssuesLoaded ∧
            (i.isParentIssueLoaded = true → j.isParentIssueLoaded = true) := by
        intro j hj
        rcases hj with rfl | ⟨q, rfl⟩
        · exact ⟨hl.1, hl.2.1, fun hh => by rw [hl.2.2 hh]; exact hh⟩
        · refine ⟨?_, ?_, fun hh => ?_⟩
          · rw [← hl.1]; cases (LoadParentIssue w i).2.1; rfl
          · rw [← hl.2.1]; cases (LoadParentIssue w i).2.1; rfl
          · rw [hl.2.2 hh]; cases i; exact hh
      split at h
      · next w1 root1 e heq =>
        simp only [Option.some.injEq, Prod.mk.injEq] at h
        obtain ⟨-, rfl, -⟩ := h
        exact key _ (Or.inl (by rw [heq]))
      · next w1 root1 heq =>
        split at h
        · simp only [Option.some.injEq, Prod.mk.injEq] at h
          obtain ⟨-, rfl, -⟩ := h
          exact key _ (Or.inl (by rw [heq]))
        · split at h
          · simp at h
          · simp only [Option.some.injEq, Prod.mk.injEq] at h
            obtain ⟨-, rfl, -⟩ := h
            exact key _ (Or.inr ⟨_, by rw [heq]⟩)
          · simp only [Option.some.injEq, Prod.mk.injEq] at h
            obtain ⟨-, rfl, -⟩ := h
            exact key _ (Or.inr ⟨_, by rw [heq]⟩)

theorem CountSubIssues_caches (fuel : Nat) (w : World) (i : Issue) (w' : World) (i' : Issue)
    (res : Except Err Nat) (h : CountSubIssues fuel w i = some (w', i', res)) :
    i'.isParentIssueLoaded = i.isParentIssueLoaded ∧
      (i.isSubIssuesLoaded = true → i'.isSubIssuesLoaded = true) := by
  cases fuel with
  | zero => simp [CountSubIssues] at h
  | succ n =>
    unfold CountSubIssues at h
    have hl := LoadSubIssues_caches w i
    split at h
    · next w1 issue1 e heq =>
      rw [heq] at hl
      simp only at hl
      simp only [Option.some.injEq, Prod.mk.injEq] at h
      obtain ⟨-, rfl, -⟩ := h
      exact ⟨hl.1, fun hh => by rw [hl.2 hh]; exact hh⟩
    · next w1 issue1 heq =>
      rw [heq] at hl
      simp only at hl
      split at h
      · simp at h
      · simp only [Option.some.injEq, Prod.mk.injEq] at h
        obtain ⟨-, rfl, -⟩ := h
        refine ⟨?_, fun hh => ?_⟩
        · rw [← hl.1]; cases issue1; rfl
        · rw [hl.2 hh]; cases i; exact hh

theorem cachesPreserved_refl : ∀ (n : Nat) (i : Issue), CachesPreserved n i i := by
  intro n
  induction n with
  | zero => intro i; trivial
  | succ n ih =>
    intro i
    exact ⟨rfl, rfl, fun h => h, fun h => ⟨h, List.forall₂_same.mpr (fun x _ => ih x)⟩,
      fun _ q hq => ⟨q, hq, rfl, ih q⟩⟩

theorem forall₂_comp {R : Issue → Issue → Prop}
    (ht : ∀ a b c, R a b → R b c → R a c) :
    ∀ (l1 l2 l3 : List Issue), List.Forall₂ R l1 l2 → List.Forall₂ R l2 l3 →
      List.Forall₂ R l1 l3 := by
  intro l1 l2 l3 h12
  induction h12 generalizing l3 with
  | nil => intro h; cases h; exact List.Forall₂.nil
  | cons hab _ ih =>
    intro h
    cases h with
    | cons hbc htl => exact List.Forall₂.cons (ht _ _ _ hab hbc) (ih _ htl)

theorem keepsParent_of_preserved (a b : Issue) (h : CachesPreserved 1 a b)
    (hk : keepsParent a = true) (q : Issue) (hq : a.ParentIssue = some q) :
    keepsParent b = true := by
  obtain ⟨_, hpid, hpl, _, hp⟩ := h
  obtain ⟨q', hq', hid, _⟩ := hp hk q hq
  unfold keepsParent at hk ⊢
  rw [hpid]
  cases hpp : a.ParentIssueID with
  | none => rfl
  | some pid =>
    rw [hpp] at hk
    simp only [hq, Bool.or_eq_true, beq_iff_eq] at hk
    simp only [hq', Bool.or_eq_true, beq_iff_eq]
    rcases hk with hk | hk
    · exact Or.inl (hpl hk)
    · exact Or.inr (by rw [hid, hk])

theorem cachesPreserved_mono : ∀ (n : Nat) (a b : Issue),
    CachesPreserved (n + 1) a b → CachesPreserved n a b := by
  intro n
  induction n with
  | zero => intro a b _; trivial
  | succ n ih =>
    intro a b h
    obtain ⟨h1, h2, h3, h4, h5⟩ := h
    refine ⟨h1, h2, h3, fun hs => ⟨(h4 hs).1, ?_⟩, fun hk q hq => ?_⟩
    · exact List.Forall₂.imp (fun x y hxy => ih x y hxy) (h4 hs).2
    · obtain ⟨q', hq', hid, hc⟩ := h5 hk q hq
      exact ⟨q', hq', hid, ih _ _ hc⟩

theorem cachesPreserved_trans : ∀ (n : Nat) (a b c : Issue),
    CachesPreserved n a b → CachesPreserved n b c → CachesPreserved n a c := by
  intro n
  induction n with
  | zero => intro a b c _ _; trivial
  | succ n ih =>
    intro a b c hab hbc
    have hab1 : CachesPreserved 1 a b := by
      clear ih hbc
      induction n with
      | zero => exact hab
      | succ m ihm => exact ihm (cachesPreserved_mono _ _ _ hab)
    obtain ⟨h1, h2, h3, h4, h5⟩ := hab
    obtain ⟨k1, k2, k3, k4, k5⟩ := hbc
    refine ⟨k1.trans h1, k2.trans h2, fun h => k3 (h3 h), fun hs => ?_, fun hk q hq => ?_⟩
    · obtain ⟨hs1, hf1⟩ := h4 hs
      obtain ⟨hs2, hf2⟩ := k4 hs1
      exact ⟨hs2, forall₂_comp (ih) _ _ _ hf1 hf2⟩
    · obtain ⟨q', hq', hid, hc⟩ := h5 hk q hq
      have hkb := keepsParent_of_preserved a b hab1 hk q hq
      obtain ⟨q'', hq'', hid2, hc2⟩ := k5 hkb q' hq'
      exact ⟨q'', hq'', hid2.trans hid, ih _ _ _ hc hc2⟩

theorem LoadParentIssue_preserves (w : World) (i : Issue) (n : Nat) :
    CachesPreserved n i (LoadParentIssue w i).2.1 := by
  cases n with
  | zero => trivial
  | succ n =>
    have hf := (LoadParentIssue_frame w i).2
    have hc := LoadParentIssue_caches w i
    refine ⟨hf.1, hf.2, fun h => by rw [hc.2.2 h]; exact h, fun h => ?_, fun hk q hq => ?_⟩
    · refine ⟨by rw [hc.2.1]; exact h, ?_⟩
      rw [hc.1]
      exact List.forall₂_same.mpr (fun x _ => cachesPreserved_refl n x)
    · have : (LoadParentIssue w i).2.1 = i := by
        cases i with
        | mk a b c d e f =>
          simp only [Issue.ParentIssue_mk] at hq
          subst hq
          unfold keepsParent at hk
          unfold LoadParentIssue
          cases b with
          | none => rfl
          | some pid =>
            simp only [Issue.ParentIssueID_mk, Issue.isParentIssueLoaded_mk,
              Issue.ParentIssue_mk, Bool.or_eq_true, beq_iff_eq] at hk
            simp only [Issue.ParentIssueID_mk, Issue.isParentIssueLoaded_mk,
              Issue.ParentIssue_mk]
            rw [if_neg]
            simp only [Bool.and_eq_true, Bool.not_eq_true', bne_iff_ne, ne_eq, not_and]
            intro hd
            rcases hk with hk | hk
            · rw [hk] at hd; cases hd
            · exact fun hne => hne hk
      rw [this]
      exact ⟨q, hq, rfl, cachesPreserved_refl n q⟩

theorem cachesPreserved_setParentIssue (n : Nat) (i p p2 : Issue) (hp : i.ParentIssue = some p)
    (hid : p2.ID = p.ID) (h : CachesPreserved n p p2) :
    CachesPreserved (n + 1) i (i.setParentIssue (some p2)) := by
  cases i with
  | mk a b c d e f =>
    simp only [Issue.ParentIssue_mk] at hp
    subst hp
    exact ⟨rfl, rfl, fun hh => hh,
      fun hh => ⟨hh, List.forall₂_same.mpr (fun x _ => cachesPreserved_refl n x)⟩,
      fun _ q hq => ⟨p2, rfl, by
        simp only [Issue.ParentIssue_mk, Option.some.injEq] at hq
        subst hq
        exact ⟨hid, h⟩⟩⟩

theorem LookupRootIssue_preserves : ∀ (fuel : Nat) (w : World) (i : Issue) (w' : World)
    (i' : Issue) (res : Except Err (Issue × Nat)),
    LookupRootIssue fuel w i = some (w', i', res) → ∀ n, CachesPreserved n i i' := by
  intro fuel
  induction fuel with
  | zero => intro w i w' i' res h; simp [LookupRootIssue] at h
  | succ k ih =>
    intro w i w' i' res h n
    unfold LookupRootIssue at h
    split at h
    · simp only [Option.some.injEq, Prod.mk.injEq] at h
      obtain ⟨-, rfl, -⟩ := h
      exact cachesPreserved_refl n i
    · have hl := LoadParentIssue_preserves w i n
      split at h
      · next w1 root1 e heq =>
        simp only [Option.some.injEq, Prod.mk.injEq] at h
        obtain ⟨-, rfl, -⟩ := h
        rw [heq] at hl
        exact hl
      · next w1 root1 heq =>
        rw [heq] at hl
        simp only at hl
        split at h
        · simp only [Option.some.injEq, Prod.mk.injEq] at h
          obtain ⟨-, rfl, -⟩ := h
          exact hl
        · next p hp =>
          have key : ∀ w2 p2 r2, LookupRootIssue k w1 p = some (w2, p2, r2) →
              CachesPreserved n i (root1.setParentIssue (some p2)) := by
            intro w2 p2 r2 hrec
            refine cachesPreserved_trans n _ _ _ hl ?_
            cases n with
            | zero => trivial
            | succ m =>
              exact cachesPreserved_setParentIssue m root1 p p2 hp
                (LookupRootIssue_frame _ _ _ _ _ _ hrec).2.1 (ih _ _ _ _ _ hrec m)
          split at h
          · simp at h
          · next w2 p2 e hrec =>
            simp only [Option.some.injEq, Prod.mk.injEq] at h
            obtain ⟨-, rfl, -⟩ := h
            exact key _ _ _ hrec
          · next w2 p2 r depth hrec =>
            simp only [Option.some.injEq, Prod.mk.injEq] at h
            obtain ⟨-, rfl, -⟩ := h
            exact key _ _ _ hrec

theorem countLoop_preserves (count : World → Issue → Option (World × Issue × Except Err Nat))
    (m : Nat)
    (hc : ∀ w i w' i' res, count w i = some (w', i', res) → CachesPreserved m i i') :
    ∀ (l : List Issue) (w : World) (n : Nat) (w' : World) (l' : List Issue) (res : Except Err Nat),
      countLoop count w l n = some (w', l', res) → List.Forall₂ (CachesPreserved m) l l' := by
  intro l
  induction l with
  | nil =>
    intro w n w' l' res h
    simp only [countLoop, Option.some.injEq, Prod.mk.injEq] at h
    obtain ⟨-, rfl, -⟩ := h
    exact List.Forall₂.nil
  | cons s rest ih =>
    intro w n w' l' res h
    unfold countLoop at h
    split at h
    · simp at h
    · next w1 s1 e hs =>
      simp only [Option.some.injEq, Prod.mk.injEq] at h
      obtain ⟨-, rfl, -⟩ := h
      exact List.Forall₂.cons (hc _ _ _ _ _ hs)
        (List.forall₂_same.mpr (fun x _ => cachesPreserved_refl m x))
    · next w1 s1 subcount hs =>
      split at h
      · simp at h
      · next w2 rest2 res2 hrest =>
        simp only [Option.some.injEq, Prod.mk.injEq] at h
        obtain ⟨-, rfl, -⟩ := h
        exact List.Forall₂.cons (hc _ _ _ _ _ hs) (ih _ _ _ _ _ hrest)

theorem CountSubIssues_preserves : ∀ (fuel : Nat) (w : World) (i : Issue) (w' : World)
    (i' : Issue) (res : Except Err Nat),
    CountSubIssues fuel w i = some (w', i', res) → ∀ n, CachesPreserved n i i' := by
  intro fuel
  induction fuel with
  | zero => intro w i w' i' res h; simp [CountSubIssues] at h
  | succ k ih =>
    intro w i w' i' res h n
    cases n with
    | zero => trivial
    | succ m =>
      unfold CountSubIssues at h
      have hf := LoadSubIssues_frame w i
      have hc := LoadSubIssues_caches w i
      split at h
      · next w1 issue1 e heq =>
        rw [heq] at hf hc
        simp only at hf hc
        simp only [Option.some.injEq, Prod.mk.injEq] at h
        obtain ⟨-, rfl, -⟩ := h
        refine ⟨hf.2.1.1, hf.2.1.2, fun hh => by rw [hc.1]; exact hh, fun hh => ?_,
          fun _ q hq => ⟨q, by rw [hf.2.2]; exact hq, rfl, cachesPreserved_refl m q⟩⟩
        rw [hc.2 hh]
        exact ⟨hh, List.forall₂_same.mpr (fun x _ => cachesPreserved_refl m x)⟩
      · next w1 issue1 heq =>
        rw [heq] at hf hc
        simp only at hf hc
        split at h
        · simp at h
        · next w2 subs res2 hloop =>
          simp only [Option.some.injEq, Prod.mk.injEq] at h
          obtain ⟨-, rfl, -⟩ := h
          have hall := countLoop_preserves (CountSubIssues k) m
            (fun w i w' i' res hh => ih w i w' i' res hh m) _ _ _ _ _ _ hloop
          cases issue1 with
          | mk a b c d e f =>
            refine ⟨hf.2.1.1, hf.2.1.2, fun hh => ?_, fun hh => ?_,
              fun _ q hq => ⟨q, by rw [← hf.2.2] at hq; exact hq, rfl,
                cachesPreserved_refl m q⟩⟩
            · show (Issue.mk a b c d e f).isParentIssueLoaded = true
              rw [hc.1]
              exact hh
            · have := hc.2 hh
              rw [this] at hall
              refine ⟨?_, hall⟩
              show (Issue.mk a b c d e f).isSubIssuesLoaded = true
              rw [this]
              exact hh

theorem cachesPreserved_setNthParent : ∀ (d : Nat) (i root r2 : Issue),
    i.nthParent d = some root → r2.ID = root.ID → (∀ n, CachesPreserved n root r2) →
    ∀ n, CachesPreserved n i (i.setNthParent d r2) := by
  intro d
  induction d with
  | zero =>
    intro i root r2 h _ hk n
    simp only [Issue.nthParent, Option.some.injEq] at h
    subst h
    exact hk n
  | succ d ih =>
    intro i root r2 h hid hk n
    cases hp : i.ParentIssue with
    | none => simp [Issue.nthParent, hp] at h
    | some p =>
      simp only [Issue.nthParent, hp] at h
      simp only [Issue.setNthParent, hp]
      cases n with
      | zero => trivial
      | succ m =>
        exact cachesPreserved_setParentIssue m i p _ hp
          (ID_setNthParent d p root r2 h hid) (ih p root r2 h hid hk m)

theorem validateParent_preserves (fuel : Nat) (cfg : Setting) (w : World) (issue parent : Issue)
    (w' : World) (p' : Issue) (e : Option Err)
    (h : validateParent fuel cfg w issue parent = some (w', p', e)) :
    ∀ n, CachesPreserved n parent p' := by
  intro n
  unfold validateParent at h
  split at h
  · simp at h
  · next w1 parent1 e1 hl =>
    simp only [Option.some.injEq, Prod.mk.injEq] at h
    obtain ⟨-, rfl, -⟩ := h
    exact LookupRootIssue_preserves _ _ _ _ _ _ hl n
  · next w1 parent1 root depth hl =>
    have h1 := LookupRootIssue_preserves _ _ _ _ _ _ hl n
    have h2 := (LookupRootIssue_root _ _ _ _ _ _ _ hl).1
    split at h
    · simp only [Option.some.injEq, Prod.mk.injEq] at h
      obtain ⟨-, rfl, -⟩ := h
      exact h1
    · have hset : ∀ w2 root2 res, CountSubIssues fuel w1 root = some (w2, root2, res) →
          CachesPreserved n parent (parent1.setNthParent depth root2) := by
        intro w2 root2 res hc
        exact cachesPreserved_trans n _ _ _ h1
          (cachesPreserved_setNthParent depth parent1 root root2 h2
            (CountSubIssues_frame _ _ _ _ _ _ hc).2.1.1
            (CountSubIssues_preserves _ _ _ _ _ _ hc) n)
      split at h
      · simp at h
      · next w2 root2 e2 hc =>
        simp only [Option.some.injEq, Prod.mk.injEq] at h
        obtain ⟨-, rfl, -⟩ := h
        exact hset _ _ _ hc
      · next w2 root2 rootCount hc =>
        have h4 := hset _ _ _ hc
        simp only at h
        repeat' split at h
        all_goals
          simp only [Option.some.injEq, Prod.mk.injEq] at h
          obtain ⟨-, rfl, -⟩ := h
          exact h4

/-- The relation sees a nested reset: resetting `isSubIssuesLoaded` of the cached
parent object is not allowed at two levels. -/
theorem cachesPreserved_detects_reset :
    ¬ CachesPreserved 2
        (.mk 2 (some 1) (some (.mk 1 none none false [Issue.ofRow ⟨2, some 1⟩] true)) true [] false)
        (.mk 2 (some 1) (some (.mk 1 none none false [] false)) true [] false) := by
  intro h
  obtain ⟨q', hq', -, hc⟩ := h.2.2.2.2 rfl _ rfl
  simp only [Issue.ParentIssue_mk, Option.some.injEq] at hq'
  subst hq'
  exact absurd (hc.2.2.2.1 rfl).1 (by simp)

/-- C15 (counterexample). Issue 2 is a sub-issue of 1 and issue 3 a sub-issue of 2, all
three objects freshly loaded. Linking 2 under 3 is rejected as circular without opening
a transaction, and the rejected call has filled caches: the parent cache of the
receiver, and the parent cache of `parent`, which was empty and not loaded. -/
theorem UpdateParentIssue_rejection_fills_caches :
    ∃ r p,
      UpdateParentIssue 4 ⟨5, 5⟩
        ⟨[⟨1, none⟩, ⟨2, some 1⟩, ⟨3, some 2⟩], [], 0, 0, 0, Faults.none⟩
        (Issue.ofRow ⟨2, some 1⟩) (some (Issue.ofRow ⟨3, some 2⟩)) 1 = some r ∧
      r.err = some (.ErrCircularParentIssue 2 3) ∧ r.w.txs = 0 ∧
      (Issue.ofRow ⟨2, some 1⟩).ParentIssue = none ∧
      (Issue.ofRow ⟨2, some 1⟩).isParentIssueLoaded = false ∧
      r.issue.ParentIssue = some (Issue.ofRow ⟨1, none⟩) ∧
      r.issue.isParentIssueLoaded = true ∧
      r.parent = some p ∧ p.isParentIssueLoaded = true ∧
      p.ParentIssue.map Issue.ID = some 2 ∧
      (Issue.ofRow ⟨3, some 2⟩).ParentIssue = none ∧
      (Issue.ofRow ⟨3, some 2⟩).isParentIssueLoaded = false :=
  ⟨_, _, rfl, rfl, rfl, rfl, rfl, rfl, rfl, rfl, rfl, rfl, rfl, rfl⟩

/-- C15 (amended). Whenever `UpdateParentIssue` is rejected with `ErrSubIssuesTooDeep`,
`ErrSubIssuesTooMany` or `ErrCircularParentIssue`, no transaction is opened, nothing is
written, and no loaded cache is invalidated or replaced, at any depth. The receiver is
as `LoadParentIssue` left it: its `SubIssues` and `isSubIssuesLoaded` are as before, and
the whole object is as before when `isParentIssueLoaded` was set. On the receiver and on
the `parent` object, every object reachable through loaded caches keeps its ID and
`ParentIssueID`, every loaded flag that was set is still set, a loaded `SubIssues` list
holds the same issues in the same order, and a cached parent object that
`LoadParentIssue` keeps is still the cached parent (`CachesPreserved` at every depth);
only caches that were not loaded may have been filled. -/
theorem UpdateParentIssue_rejection_caches (fuel : Nat) (cfg : Setting) (w : World)
    (issue : Issue) (parent : Option Issue) (doer : Int) (r : UpdateResult) (e : Err)
    (h : UpdateParentIssue fuel cfg w issue parent doer = some r) (he : r.err = some e)
    (hr : e.isRejection = true) :
    r.w.txs = w.txs ∧ r.w.writes = w.writes ∧
      r.issue = (LoadParentIssue w issue).2.1 ∧
      r.issue.SubIssues = issue.SubIssues ∧
      r.issue.isSubIssuesLoaded = issue.isSubIssuesLoaded ∧
      (issue.isParentIssueLoaded = true → r.issue = issue) ∧
      (∀ n, CachesPreserved n issue r.issue) ∧
      ∃ p p', parent = some p ∧ r.parent = some p' ∧ ∀ n, CachesPreserved n p p' := by
  have hc := LoadParentIssue_caches w issue
  have hpres := LoadParentIssue_preserves w issue
  unfold UpdateParentIssue at h
  split at h
  · simp only [Option.some.injEq] at h; subst h; simp at he
  · split at h
    · simp only [Option.some.injEq] at h; subst h; simp at he
    · have hl := LoadParentIssue_frame w issue
      split at h
      · next w1 issue1 e1 heq =>
        simp only [Option.some.injEq] at h
        subst h
        simp only [Option.some.injEq] at he
        subst he
        have := LoadParentIssue_err_not_rejection w issue e1 (by rw [heq])
        rw [this] at hr
        cases hr
      · next w1 issue1 heq =>
        rw [heq] at hl hc hpres
        simp only at hl hc hpres
        split at h
        · simp only [Option.some.injEq] at h
          subst h
          have := commitParent_err_not_rejection _ _ _ _ _ _ he
          rw [this] at hr
          cases hr
        · next p =>
          split at h
          · simp at h
          · next w2 p2 e2 hv =>
            simp only [Option.some.injEq] at h
            subst h
            have hv1 := validateParent_frame _ _ _ _ _ _ _ _ hv
            have hv2 := validateParent_preserves _ _ _ _ _ _ _ _ hv
            exact ⟨by rw [hv1.2.2.2.1, hl.1.2.2.2.1], by rw [hv1.2.2.1, hl.1.2.2.1],
              by rw [heq], hc.1, hc.2.1, hc.2.2, hpres, _, p2, rfl, rfl, hv2⟩
          · next w2 p2 hv =>
            simp only [Option.some.injEq] at h
            subst h
            have := commitParent_err_not_rejection _ _ _ _ _ _ he
            rw [this] at hr
            cases hr

theorem UpdateParentIssue_rejection_caches_witness :
    ∃ r, UpdateParentIssue 4 ⟨5, 1⟩
        ⟨[⟨1, none⟩, ⟨2, some 1⟩, ⟨3, none⟩], [], 0, 0, 0, Faults.none⟩
        (Issue.ofRow ⟨3, none⟩)
        (some (.mk 2 (some 1)
          (some (.mk 1 none none false [Issue.ofRow ⟨2, some 1⟩] true)) true [] false))
        1 = some r ∧
      r.err = some (.ErrSubIssuesTooMany 3 2 1) ∧
      r.w.txs = 0 ∧ r.w.writes = 0 ∧
      r.issue = (LoadParentIssue ⟨[⟨1, none⟩, ⟨2, some 1⟩, ⟨3, none⟩], [], 0, 0, 0, Faults.none⟩
        (Issue.ofRow ⟨3, none⟩)).2.1 ∧
      r.issue.SubIssues = [] ∧ r.issue.isSubIssuesLoaded = false ∧
      ((Issue.ofRow ⟨3, none⟩).isParentIssueLoaded = true → r.issue = Issue.ofRow ⟨3, none⟩) ∧
      (∀ n, CachesPreserved n (Issue.ofRow ⟨3, none⟩) r.issue) ∧
      ∃ p p', some (Issue.mk 2 (some 1)
          (some (.mk 1 none none false [Issue.ofRow ⟨2, some 1⟩] true)) true [] false) = some p ∧
        r.parent = some p' ∧ ∀ n, CachesPreserved n p p' :=
  ⟨_, rfl, rfl,
    UpdateParentIssue_rejection_caches 4 ⟨5, 1⟩
      ⟨[⟨1, none⟩, ⟨2, some 1⟩, ⟨3, none⟩], [], 0, 0, 0, Faults.none⟩
      (Issue.ofRow ⟨3, none⟩)
      (some (.mk 2 (some 1)
        (some (.mk 1 none none false [Issue.ofRow ⟨2, some 1⟩] true)) true [] false)) 1 _
      (.ErrSubIssuesTooMany 3 2 1) rfl rfl rfl⟩

/-! ## `CountSubIssues` as the size of the sub-tree -/

theorem mem_descendants (rows : List Row) (hn : NoCycle rows) (x : Int) (y : Row) :
    y ∈ descendants rows x ↔
      y ∈ rows ∧ y.id ≠ x ∧ ∃ n, nthAncestor rows n y.id = some x := by
  unfold descendants
  rw [List.mem_filter, isDescendant_iff rows hn]
  constructor
  · rintro ⟨hy, n, h⟩
    refine ⟨hy, ?_, n + 1, h⟩
    intro heq
    rw [heq] at h
    exact hn x (n + 1) (Nat.succ_pos n) h
  · rintro ⟨hy, hne, n, h⟩
    refine ⟨hy, ?_⟩
    cases n with
    | zero =>
      simp only [nthAncestor, Option.some.injEq] at h
      exact absurd h hne
    | succ m => exact ⟨m, h⟩

/-- C18. `CountSubIssues` is the full sub-tree size: on a table without cycle (and with
`id` as key), for an issue object whose sub-issues are not loaded and with reads that
do not fail, `CountSubIssues` returns the number of transitive descendants of the issue:
the rows other than the issue itself from which following `parent_id` reaches the issue.
That number is the number of direct sub-issues plus the sum of the numbers of
descendants of each of them, and it is 0 exactly when there is no direct sub-issue. -/
theorem CountSubIssues_subtree_size (fuel : Nat) (w : World) (i : Issue)
    (hu : UniqueIDs w.rows) (hn : NoCycle w.rows) (hf : w.faults.find = [])
    (hl : i.isSubIssuesLoaded = false) (hfuel : w.rows.length < fuel) :
    (∃ w' i', CountSubIssues fuel w i = some (w', i', .ok (descendants w.rows i.ID).length)) ∧
      (∀ y, y ∈ descendants w.rows i.ID ↔
        y ∈ w.rows ∧ y.id ≠ i.ID ∧ ∃ n, nthAncestor w.rows n y.id = some i.ID) ∧
      (descendants w.rows i.ID).length = (children w.rows i.ID).length +
        ((children w.rows i.ID).map (fun c => (descendants w.rows c.id).length)).sum ∧
      ((descendants w.rows i.ID).length = 0 ↔ children w.rows i.ID = []) := by
  have hsum : (descendants w.rows i.ID).length = (children w.rows i.ID).length +
      ((children w.rows i.ID).map (fun c => (descendants w.rows c.id).length)).sum := by
    rw [descendants_length w.rows hu hn, sum_map_one_add]
  refine ⟨?_, mem_descendants w.rows hn i.ID, hsum, ?_⟩
  · obtain ⟨w', i', h, -⟩ := CountSubIssues_descendants w.rows w.faults hu hn hf fuel i.ID 0 i.ID
      rfl (by omega) w i rfl rfl rfl hl
    exact ⟨w', i', h⟩
  · rw [hsum]
    constructor
    · intro h0
      have : (children w.rows i.ID).length = 0 := by omega
      exact List.length_eq_zero.mp this
    · intro h0
      rw [h0]
      rfl

theorem CountSubIssues_subtree_size_witness :
    (∃ w' i', CountSubIssues 5 ⟨[⟨1, none⟩, ⟨2, some 1⟩, ⟨3, some 2⟩, ⟨4, some 1⟩], [], 0, 0, 0,
          Faults.none⟩ (Issue.ofRow ⟨1, none⟩) = some (w', i', .ok 3)) ∧
      (descendants [⟨1, none⟩, ⟨2, some 1⟩, ⟨3, some 2⟩, ⟨4, some 1⟩] 1).length = 3 ∧
      (children [⟨1, none⟩, ⟨2, some 1⟩, ⟨3, some 2⟩, ⟨4, some 1⟩] 1).length = 2 :=
  ⟨(CountSubIssues_subtree_size 5
      ⟨[⟨1, none⟩, ⟨2, some 1⟩, ⟨3, some 2⟩, ⟨4, some 1⟩], [], 0, 0, 0, Faults.none⟩
      (Issue.ofRow ⟨1, none⟩) (by decide) (noCycle_of_bounded _ (by decide)) rfl rfl
      (by decide)).1, by decide, by decide⟩

/-! ## `LookupRootIssue` on objects that agree with the table -/

theorem parentCacheAgrees_key (rows : List Row) (i : Issue) (h : ParentCacheAgrees rows i) :
    i.ParentIssueID = parentOf rows i.ID := by
  cases i with
  | mk a b c d e f =>
    cases c with
    | none => exact h.1
    | some q => exact h.1

theorem GetIssueByID_agrees (w : World) (id : Int) (w1 : World) (p : Issue)
    (h : GetIssueByID w id = (w1, .ok p)) : p.ID = id ∧ ParentCacheAgrees w.rows p := by
  unfold GetIssueByID at h
  simp only at h
  split at h
  · simp at h
  · split at h
    · simp at h
    · next r hfind =>
      simp only [Prod.mk.injEq, Except.ok.injEq] at h
      obtain ⟨-, rfl⟩ := h
      obtain ⟨hid, hpar⟩ := parentOf_of_find w.rows id r hfind
      refine ⟨hid, ?_⟩
      simp only [Issue.ofRow, ParentCacheAgrees]
      exact ⟨by rw [hid, hpar], fun _ => trivial⟩

theorem LoadParentIssue_agrees (w : World) (i : Issue) (pid : Int)
    (hc : ParentCacheAgrees w.rows i) (hp : i.ParentIssueID = some pid)
    (hf : pid ∉ w.faults.getIssueByID) (hr : ∃ row ∈ w.rows, row.id = pid) :
    ∃ w1 i1 q, LoadParentIssue w i = (w1, i1, none) ∧ i1.ParentIssue = some q ∧ q.ID = pid ∧
      ParentCacheAgrees w.rows q ∧ ReadOnly w w1 := by
  have hro := (LoadParentIssue_frame w i).1
  cases i with
  | mk a b c d e f =>
    simp only [Issue.ParentIssueID_mk] at hp
    subst hp
    obtain ⟨row, -, -, hget⟩ := GetIssueByID_ok w pid hf hr
    have hag := GetIssueByID_agrees w pid _ _ hget
    unfold LoadParentIssue at hro ⊢
    simp only [Issue.ParentIssueID_mk, Issue.isParentIssueLoaded_mk, Issue.ParentIssue_mk]
      at hro ⊢
    cases c with
    | none =>
      have hd : d = false := hc.2 (by simp)
      subst hd
      simp only [Bool.not_false, Bool.and_self, if_true, hget] at hro ⊢
      exact ⟨_, _, _, rfl, rfl, hag.1, hag.2, hro⟩
    | some q =>
      by_cases hkeep : d = true ∨ q.ID = pid
      · obtain ⟨hq1, hq2⟩ := hc.2 pid rfl hkeep
        have hcond : (!d && (q.ID != pid)) = false := by
          rcases hkeep with h1 | h1
          · simp [h1]
          · simp [h1]
        simp only [hcond, Bool.false_eq_true, if_false] at hro ⊢
        exact ⟨_, _, _, rfl, rfl, hq1, hq2, hro⟩
      · have hcond : (!d && (q.ID != pid)) = true := by
          simp only [not_or] at hkeep
          simp [hkeep.1, hkeep.2]
        simp only [hcond, if_true, hget] at hro ⊢
        exact ⟨_, _, _, rfl, rfl, hag.1, hag.2, hro⟩

theorem LookupRootIssue_agrees : ∀ (d : Nat) (w : World) (i : Issue) (r : Int) (fuel : Nat),
    w.faults.getIssueByID = [] → ParentCacheAgrees w.rows i →
    nthAncestor w.rows d i.ID = some r → parentOf w.rows r = none →
    (∀ k a, nthAncestor w.rows (k + 1) i.ID = some a → ∃ row ∈ w.rows, row.id = a) →
    d < fuel →
    ∃ w' i' root, LookupRootIssue fuel w i = some (w', i', .ok (root, d)) ∧
      root.ID = r ∧ root.ParentIssueID = none ∧ (d = 0 → root = i) ∧ ReadOnly w w' := by
  intro d
  induction d with
  | zero =>
    intro w i r fuel _ hc hchain hroot _ hfuel
    simp only [nthAncestor, Option.some.injEq] at hchain
    subst hchain
    obtain ⟨n, rfl⟩ := Nat.exists_eq_succ_of_ne_zero (Nat.pos_iff_ne_zero.mp hfuel)
    have hpid : i.ParentIssueID = none := by rw [parentCacheAgrees_key _ _ hc, hroot]
    refine ⟨w, i, i, ?_, rfl, hpid, fun _ => rfl, ReadOnly.readOnly_refl _⟩
    unfold LookupRootIssue
    rw [hpid]
  | succ d ih =>
    intro w i r fuel hf hc hchain hroot hrows hfuel
    obtain ⟨n, rfl⟩ := Nat.exists_eq_succ_of_ne_zero (Nat.pos_iff_ne_zero.mp (Nat.zero_lt_of_lt hfuel))
    rw [nthAncestor_succ] at hchain
    cases hpar : parentOf w.rows i.ID with
    | none => rw [hpar] at hchain; cases hchain
    | some p =>
      rw [hpar, Option.some_bind] at hchain
      have hpid : i.ParentIssueID = some p := by rw [parentCacheAgrees_key _ _ hc, hpar]
      have hprow : ∃ row ∈ w.rows, row.id = p :=
        hrows 0 p (by rw [nthAncestor_one]; exact hpar)
      obtain ⟨w1, i1, q, hload, hq, hqid, hqag, hro⟩ :=
        LoadParentIssue_agrees w i p hc hpid (by rw [hf]; simp) hprow
      have hrows1 : w1.rows = w.rows := hro.1
      have hrec := ih w1 q r n (by rw [hro.2.2.2.2]; exact hf) (by rw [hrows1]; exact hqag)
        (by rw [hrows1, hqid]; exact hchain) (by rw [hrows1]; exact hroot)
        (by
          intro k a hk
          rw [hrows1, hqid] at hk
          rw [hrows1]
          refine hrows (k + 1) a ?_
          rw [nthAncestor_succ, hpar, Option.some_bind]
          exact hk)
        (by omega)
      obtain ⟨w2, q2, root, hlook, hrid, hrpid, -, hro2⟩ := hrec
      refine ⟨w2, i1.setParentIssue (some q2), root, ?_, hrid, hrpid,
        fun h0 => by omega, hro.readOnly_trans hro2⟩
      unfold LookupRootIssue
      rw [hpid]
      simp only [hload, hq, hlook]

theorem exists_root (rows : List Row) (hn : NoCycle rows) (x : Int) :
    ∃ d r, nthAncestor rows d x = some r ∧ parentOf rows r = none := by
  have hex : ∃ n, nthAncestor rows n x = none := by
    refine ⟨rows.length + 1, ?_⟩
    cases h : nthAncestor rows (rows.length + 1) x with
    | none => rfl
    | some a =>
      have := chain_le_length rows hn _ x a h
      omega
  classical
  have hn0 : nthAncestor rows (Nat.find hex) x = none := Nat.find_spec hex
  cases hd : Nat.find hex with
  | zero => rw [hd] at hn0; simp [nthAncestor] at hn0
  | succ d =>
    have hmin : ¬ nthAncestor rows d x = none := Nat.find_min hex (by omega)
    cases hv : nthAncestor rows d x with
    | none => exact absurd hv hmin
    | some r =>
      refine ⟨d, r, hv, ?_⟩
      rw [hd, nthAncestor_add, hv, Option.some_bind, nthAncestor_one] at hn0
      exact hn0

theorem ancestor_row (rows : List Row) (hp : ParentsExist rows) (x : Int) (k : Nat) (a : Int)
    (h : nthAncestor rows (k + 1) x = some a) : ∃ row ∈ rows, row.id = a := by
  rw [nthAncestor_add] at h
  cases hv : nthAncestor rows k x with
  | none => rw [hv] at h; cases h
  | some v =>
    rw [hv, Option.some_bind, nthAncestor_one] at h
    obtain ⟨r, hr, -, hpar⟩ := mem_of_parentOf rows v a h
    exact hp r hr a hpar

/-- C17 (counterexample). Issues 1 and 2 are roots and 3 is a sub-issue of 2.
`LookupRootIssue` on a fresh object of 3 caches the object of 2. Issue 2 is then linked
under 1 through other objects; the table has no cycle and the root of 3 is now 1, two
parent links up. `LookupRootIssue` on the first object of 3 still returns the cached
object of 2 with depth 1, although 2 has a parent in the table. -/
theorem LookupRootIssue_stale_cached_parent :
    ∃ w1 p1 res r w2 p2 root,
      LookupRootIssue 3 ⟨[⟨1, none⟩, ⟨2, none⟩, ⟨3, some 2⟩], [], 0, 0, 0, Faults.none⟩
        (Issue.ofRow ⟨3, some 2⟩) = some (w1, p1, res) ∧
      UpdateParentIssue 3 ⟨5, 5⟩ w1 (Issue.ofRow ⟨2, none⟩) (some (Issue.ofRow ⟨1, none⟩)) 1 =
        some r ∧ r.err = none ∧
      r.w.rows = [⟨1, none⟩, ⟨2, some 1⟩, ⟨3, some 2⟩] ∧
      NoCycle [⟨1, none⟩, ⟨2, some 1⟩, ⟨3, some 2⟩] ∧
      LookupRootIssue 3 r.w p1 = some (w2, p2, .ok (root, 1)) ∧ root.ID = 2 ∧
      parentOf [⟨1, none⟩, ⟨2, some 1⟩, ⟨3, some 2⟩] 2 = some 1 ∧
      nthAncestor [⟨1, none⟩, ⟨2, some 1⟩, ⟨3, some 2⟩] 2 3 = some 1 :=
  ⟨_, _, _, _, _, _, _, rfl, rfl, rfl, rfl, noCycle_of_bounded _ (by decide), rfl, rfl, rfl, rfl⟩

/-- C17 (amended). `LookupRootIssue` correctness: on a table without cycle in which
every `parent_id` is the `id` of a row, for every issue given as an object whose parent
cache agrees with the table (a freshly loaded object, for one), and with reads that do
not fail, `LookupRootIssue` returns `(root, depth, nil)` once the fuel exceeds the
number of rows: `root` has no parent, in the object and in the table, it is the issue
reached by following `parent_id` exactly `depth` times, and `depth` is 0 exactly when
the issue has no parent, in which case `root` is the object itself. -/
theorem LookupRootIssue_correct (fuel : Nat) (w : World) (i : Issue)
    (hn : NoCycle w.rows) (hp : ParentsExist w.rows) (hf : w.faults.getIssueByID = [])
    (hc : ParentCacheAgrees w.rows i) (hfuel : w.rows.length < fuel) :
    ∃ w' i' root d, LookupRootIssue fuel w i = some (w', i', .ok (root, d)) ∧
      root.ParentIssueID = none ∧ parentOf w.rows root.ID = none ∧
      nthAncestor w.rows d i.ID = some root.ID ∧
      (d = 0 ↔ parentOf w.rows i.ID = none) ∧ (d = 0 → root = i) := by
  obtain ⟨d, r, hd, hr⟩ := exists_root w.rows hn i.ID
  have hdl := chain_le_length w.rows hn d i.ID r hd
  obtain ⟨w', i', root, hlook, hrid, hrpid, h0, -⟩ :=
    LookupRootIssue_agrees d w i r fuel hf hc hd hr
      (fun k a hk => ancestor_row w.rows hp i.ID k a hk) (by omega)
  refine ⟨w', i', root, d, hlook, hrpid, by rw [hrid]; exact hr, by rw [hrid]; exact hd, ?_, h0⟩
  constructor
  · intro hd0
    subst hd0
    simp only [nthAncestor, Option.some.injEq] at hd
    rw [hd]
    exact hr
  · intro hnone
    cases d with
    | zero => rfl
    | succ m =>
      rw [nthAncestor_succ, hnone] at hd
      cases hd

theorem LookupRootIssue_correct_witness :
    ∃ w' i' root d,
      LookupRootIssue 4 ⟨[⟨1, none⟩, ⟨2, some 1⟩, ⟨3, some 2⟩], [], 0, 0, 0, Faults.none⟩
        (Issue.ofRow ⟨3, some 2⟩) = some (w', i', .ok (root, d)) ∧
      root.ParentIssueID = none ∧
      parentOf [⟨1, none⟩, ⟨2, some 1⟩, ⟨3, some 2⟩] root.ID = none ∧
      nthAncestor [⟨1, none⟩, ⟨2, some 1⟩, ⟨3, some 2⟩] d 3 = some root.ID ∧
      (d = 0 ↔ parentOf [⟨1, none⟩, ⟨2, some 1⟩, ⟨3, some 2⟩] 3 = none) ∧
      (d = 0 → root = Issue.ofRow ⟨3, some 2⟩) :=
  LookupRootIssue_correct 4 ⟨[⟨1, none⟩, ⟨2, some 1⟩, ⟨3, some 2⟩], [], 0, 0, 0, Faults.none⟩
    (Issue.ofRow ⟨3, some 2⟩) (noCycle_of_bounded _ (by decide))
    (by
      intro r hr p hpar
      simp only [List.mem_cons, List.mem_singleton, List.not_mem_nil, or_false] at hr
      rcases hr with rfl | rfl | rfl
      · cases hpar
      · cases hpar; exact ⟨⟨1, none⟩, by decide, rfl⟩
      · cases hpar; exact ⟨⟨2, some 1⟩, by decide, rfl⟩)
    rfl ⟨rfl, fun _ => rfl⟩ (by decide)

/-! ## Termination of `LookupRootIssue` -/

theorem coherent_key (rows : List Row) (i : Issue) (h : Coherent rows i) :
    i.ParentIssueID = parentOf rows i.ID := by
  cases i with
  | mk a b c d e f =>
    cases c with
    | none => exact h
    | some q => exact h.1

/-- On an object coherent with the table the loop ends when the parent chain of the
issue in the table ends, whichever read fails. -/
theorem LookupRootIssue_isSome_of_chain : ∀ (k : Nat) (w : World) (i : Issue) (fuel : Nat),
    Coherent w.rows i → nthAncestor w.rows k i.ID = none → k ≤ fuel →
    (LookupRootIssue fuel w i).isSome = true := by
  intro k
  induction k with
  | zero => intro w i fuel _ h _; simp [nthAncestor] at h
  | succ k ih =>
    intro w i fuel hc hchain hfuel
    obtain ⟨n, rfl⟩ := Nat.exists_eq_succ_of_ne_zero (Nat.pos_iff_ne_zero.mp (Nat.zero_lt_of_lt hfuel))
    unfold LookupRootIssue
    split
    · rfl
    · next pid hpid =>
      have hl := LoadParentIssue_frame w i
      split
      · rfl
      · next w1 root1 heq =>
        rw [heq] at hl
        simp only at hl
        split
        · rfl
        · next q hq =>
          obtain ⟨hqid, hqc⟩ := LoadParentIssue_coherent w i pid w1 root1 hc hpid heq q hq
          have hpar : parentOf w.rows i.ID = some pid := by rw [← coherent_key _ _ hc, hpid]
          rw [nthAncestor_succ, hpar, Option.some_bind] at hchain
          have hrec := ih w1 q n (by rw [hl.1.1]; exact hqc) (by rw [hl.1.1, hqid]; exact hchain)
            (by omega)
          cases hres : LookupRootIssue n w1 q with
          | none => rw [hres] at hrec; cases hrec
          | some res =>
            obtain ⟨w2, p2, x⟩ := res
            cases x with
            | error e => rfl
            | ok v => obtain ⟨r, depth⟩ := v; rfl

theorem LoadParentIssue_parent (w : World) (i : Issue) (w1 : World) (i1 : Issue) (q : Issue)
    (h : LoadParentIssue w i = (w1, i1, none)) (hq : i1.ParentIssue = some q) :
    (i.ParentIssue = some q ∧ w1 = w) ∨ ∃ pid, GetIssueByID w pid = (w1, .ok q) := by
  cases i with
  | mk a b c d e f =>
    unfold LoadParentIssue at h
    cases b with
    | none =>
      simp only [Issue.ParentIssueID_mk, Prod.mk.injEq] at h
      obtain ⟨rfl, rfl, -⟩ := h
      exact Or.inl ⟨hq, rfl⟩
    | some pid =>
      simp only [Issue.ParentIssueID_mk] at h
      split at h
      · split at h
        · simp at h
        · next w2 p heq =>
          simp only [Prod.mk.injEq, and_true] at h
          obtain ⟨rfl, rfl⟩ := h
          simp only [Issue.setParentIssue_mk, Issue.setIsParentIssueLoaded_mk,
            Issue.ParentIssue_mk, Option.some.injEq] at hq
          subst hq
          exact Or.inr ⟨pid, heq⟩
      · simp only [Prod.mk.injEq, and_true] at h
        obtain ⟨rfl, rfl⟩ := h
        exact Or.inl ⟨hq, rfl⟩

theorem chainIDs_length_pos (i : Issue) : 0 < i.chainIDs.length := by
  cases i with
  | mk a b c d e f =>
    cases c with
    | none => simp [Issue.chainIDs]
    | some q => simp [Issue.chainIDs]

/-- On a table without cycle the loop ends for every object, whatever its caches and
whichever read fails. -/
theorem LookupRootIssue_isSome_of_noCycle : ∀ (m : Nat) (w : World) (i : Issue) (fuel : Nat),
    NoCycle w.rows → i.chainIDs.length ≤ m → m + w.rows.length < fuel →
    (LookupRootIssue fuel w i).isSome = true := by
  intro m
  induction m with
  | zero =>
    intro w i fuel _ hlen _
    have := chainIDs_length_pos i
    omega
  | succ m ih =>
    intro w i fuel hn hlen hfuel
    obtain ⟨n, rfl⟩ := Nat.exists_eq_succ_of_ne_zero (Nat.pos_iff_ne_zero.mp (Nat.zero_lt_of_lt hfuel))
    unfold LookupRootIssue
    split
    · rfl
    · next pid hpid =>
      have hl := LoadParentIssue_frame w i
      split
      · rfl
      · next w1 root1 heq =>
        rw [heq] at hl
        simp only at hl
        split
        · rfl
        · next q hq =>
          have hrec : (LookupRootIssue n w1 q).isSome = true := by
            rcases LoadParentIssue_parent w i w1 root1 q heq hq with ⟨hcached, rfl⟩ | ⟨p, hget⟩
            · refine ih w1 q n hn ?_ (by omega)
              cases i with
              | mk a b c d e f =>
                simp only [Issue.ParentIssue_mk] at hcached
                subst hcached
                simp only [Issue.chainIDs, List.length_cons] at hlen
                omega
            · have hqc := (GetIssueByID_coherent w p w1 q hget).2
              refine LookupRootIssue_isSome_of_chain (w.rows.length + 1) w1 q n
                (by rw [hl.1.1]; exact hqc) ?_ (by omega)
              rw [hl.1.1]
              cases hv : nthAncestor w.rows (w.rows.length + 1) q.ID with
              | none => rfl
              | some a =>
                have := chain_le_length w.rows hn _ _ a hv
                omega
          cases hres : LookupRootIssue n w1 q with
          | none => rw [hres] at hrec; cases hrec
          | some res =>
            obtain ⟨w2, p2, x⟩ := res
            cases x with
            | error e => rfl
            | ok v => obtain ⟨r, depth⟩ := v; rfl

/-- On a freshly loaded object whose parent chain in the table never ends the loop does
not end: there is no result, whatever the fuel. -/
theorem LookupRootIssue_diverges : ∀ (fuel : Nat) (w : World) (i : Issue),
    w.faults.getIssueByID = [] → i.ParentIssue = none → i.isParentIssueLoaded = false →
    i.ParentIssueID = parentOf w.rows i.ID → (∀ k, nthAncestor w.rows k i.ID ≠ none) →
    LookupRootIssue fuel w i = none := by
  intro fuel
  induction fuel with
  | zero => intro w i _ _ _ _ _; rfl
  | succ n ih =>
    intro w i hf h1 h2 h3 hchain
    cases hpar : parentOf w.rows i.ID with
    | none => exact absurd (by rw [nthAncestor_one]; exact hpar) (hchain 1)
    | some p =>
      have hpp : parentOf w.rows p ≠ none := by
        have := hchain 2
        rw [show (2 : Nat) = 1 + 1 from rfl, nthAncestor_succ, hpar, Option.some_bind,
          nthAncestor_one] at this
        exact this
      cases hfind : w.rows.find? (fun r => r.id == p) with
      | none =>
        exfalso
        apply hpp
        unfold parentOf
        rw [hfind]
      | some r =>
        obtain ⟨hrid, hrpar⟩ := parentOf_of_find w.rows p r hfind
        have hget : GetIssueByID w p = ({ w with reads := w.reads + 1 }, .ok (Issue.ofRow r)) := by
          unfold GetIssueByID
          simp only [hf, List.not_mem_nil, if_false, hfind]
        have hrec := ih { w with reads := w.reads + 1 } (Issue.ofRow r) hf rfl rfl
          (by
            show r.parent_id = parentOf w.rows r.id
            rw [hrid, hrpar])
          (by
            intro k
            show nthAncestor w.rows k r.id ≠ none
            have := hchain (k + 1)
            rw [nthAncestor_succ, hpar, Option.some_bind] at this
            rw [hrid]
            exact this)
        cases i with
        | mk a b c d e f =>
          simp only [Issue.ParentIssue_mk] at h1
          simp only [Issue.isParentIssueLoaded_mk] at h2
          simp only [Issue.ParentIssueID_mk, Issue.ID_mk] at h3
          subst h1 h2
          simp only [Issue.ID_mk] at hpar
          rw [hpar] at h3
          subst h3
          unfold LookupRootIssue
          simp only [Issue.ParentIssueID_mk, LoadParentIssue, Issue.isParentIssueLoaded_mk,
            Issue.ParentIssue_mk, Bool.not_false, Bool.and_self, if_true, hget,
            Issue.setParentIssue_mk, Issue.setIsParentIssueLoaded_mk, hrec]

theorem chain_endless_of_cycle (rows : List Row) (i x : Int) (a j : Nat)
    (ha : nthAncestor rows a i = some x) (hj : 0 < j) (hcyc : nthAncestor rows j x = some x) :
    ∀ k, nthAncestor rows k i ≠ none := by
  have hmul : ∀ m, nthAncestor rows (m * j) x = some x := by
    intro m
    induction m with
    | zero => simp [nthAncestor]
    | succ m ih => rw [Nat.succ_mul, nthAncestor_add, ih, Option.some_bind]; exact hcyc
  intro k hk
  have hlong : nthAncestor rows (a + k * j) i = some x := by
    rw [nthAncestor_add, ha, Option.some_bind]
    exact hmul k
  have hle : k ≤ a + k * j := by
    have : k ≤ k * j := Nat.le_mul_of_pos_right k hj
    omega
  obtain ⟨v, hv⟩ := nthAncestor_isSome_of_le rows _ i x hlong k hle
  rw [hk] at hv
  cases hv

/-- C19 (counterexample). In the table issue 1 has parent 2 and issue 2 has parent 1.
`LookupRootIssue` on a freshly loaded object of 1 returns nothing, whatever the fuel:
the loop does not end and no error is returned. -/
theorem LookupRootIssue_loops_on_cycle :
    ¬ ∃ fuel, (LookupRootIssue fuel ⟨[⟨1, some 2⟩, ⟨2, some 1⟩], [], 0, 0, 0, Faults.none⟩
        (Issue.ofRow ⟨1, some 2⟩)).isSome = true := by
  rintro ⟨fuel, h⟩
  rw [LookupRootIssue_diverges fuel ⟨[⟨1, some 2⟩, ⟨2, some 1⟩], [], 0, 0, 0, Faults.none⟩
    (Issue.ofRow ⟨1, some 2⟩) rfl rfl rfl rfl
    (chain_endless_of_cycle _ 1 1 0 2 rfl (by decide) rfl)] at h
  cases h

/-- C19 (amended). Termination of `LookupRootIssue`: on a table without cycle the loop
ends for every issue object, whatever its caches and whichever read fails, once the
fuel exceeds the number of rows plus the length of the cached parent chain. There is no
visited-set and no corrupt-hierarchy error: on a freshly loaded object of an issue whose
parent chain in the table runs into a cycle, with reads that do not fail, the loop does
not end, whatever the fuel. -/
theorem LookupRootIssue_termination (w : World) (i : Issue) :
    (NoCycle w.rows → ∀ fuel, i.chainIDs.length + w.rows.length < fuel →
        (LookupRootIssue fuel w i).isSome = true) ∧
      (w.faults.getIssueByID = [] → i.ParentIssue = none → i.isParentIssueLoaded = false →
        i.ParentIssueID = parentOf w.rows i.ID →
        ∀ a x j, nthAncestor w.rows a i.ID = some x → 0 < j →
          nthAncestor w.rows j x = some x → ∀ fuel, LookupRootIssue fuel w i = none) := by
  constructor
  · intro hn fuel hfuel
    exact LookupRootIssue_isSome_of_noCycle i.chainIDs.length w i fuel hn (Nat.le_refl _) hfuel
  · intro hf h1 h2 h3 a x j ha hj hcyc fuel
    exact LookupRootIssue_diverges fuel w i hf h1 h2 h3
      (chain_endless_of_cycle w.rows i.ID x a j ha hj hcyc)

theorem LookupRootIssue_termination_witness :
    (LookupRootIssue 5 ⟨[⟨1, none⟩, ⟨2, some 1⟩, ⟨3, some 2⟩], [], 0, 0, 0, Faults.none⟩
        (Issue.ofRow ⟨3, some 2⟩)).isSome = true ∧
      ∀ fuel, LookupRootIssue fuel
        ⟨[⟨1, some 2⟩, ⟨2, some 1⟩, ⟨3, some 2⟩], [], 0, 0, 0, Faults.none⟩
        (Issue.ofRow ⟨3, some 2⟩) = none :=
  ⟨(LookupRootIssue_termination
      ⟨[⟨1, none⟩, ⟨2, some 1⟩, ⟨3, some 2⟩], [], 0, 0, 0, Faults.none⟩
      (Issue.ofRow ⟨3, some 2⟩)).1 (noCycle_of_bounded _ (by decide)) 5 (by decide),
    (LookupRootIssue_termination
      ⟨[⟨1, some 2⟩, ⟨2, some 1⟩, ⟨3, some 2⟩], [], 0, 0, 0, Faults.none⟩
      (Issue.ofRow ⟨3, some 2⟩)).2 rfl rfl rfl rfl 1 2 2 rfl (by decide) rfl⟩

/-! ## Error predicates, memoized loaders -/

/-- C21. Rejection reasons are distinguishable: each of `IsErrSubIssuesTooMany`,
`IsErrSubIssuesTooDeep` and `IsErrCircularParentIssue` is true exactly on the values of
its error type (a wrapped value is not one), at most one of the three is true of an
error, and every error that `UpdateParentIssue` returns before `db.TxContext` is either
a failed read of `LoadParentIssue`, `LookupRootIssue` or `CountSubIssues`, or a
validation rejection, of which exactly one of the three is true. -/
theorem IsErr_distinguishable :
    (∀ e : Err,
      (IsErrSubIssuesTooMany e = true ↔ ∃ a b c, e = .ErrSubIssuesTooMany a b c) ∧
      (IsErrSubIssuesTooDeep e = true ↔ ∃ a b c, e = .ErrSubIssuesTooDeep a b c) ∧
      (IsErrCircularParentIssue e = true ↔ ∃ a b, e = .ErrCircularParentIssue a b) ∧
      ¬ (IsErrSubIssuesTooMany e = true ∧ IsErrSubIssuesTooDeep e = true) ∧
      ¬ (IsErrSubIssuesTooMany e = true ∧ IsErrCircularParentIssue e = true) ∧
      ¬ (IsErrSubIssuesTooDeep e = true ∧ IsErrCircularParentIssue e = true)) ∧
    (∀ (fuel : Nat) (cfg : Setting) (w : World) (issue : Issue) (parent : Option Issue)
        (doer : Int) (r : UpdateResult) (e : Err),
      UpdateParentIssue fuel cfg w issue parent doer = some r → r.err = some e →
      r.w.txs = w.txs →
      (e = .store .getIssueByID ∨ e = .store .find ∨ e = .nilDereference ∨
          ∃ id, e = .ErrIssueNotExist id) ∨
        (IsErrSubIssuesTooMany e = true ∧ IsErrSubIssuesTooDeep e = false ∧
            IsErrCircularParentIssue e = false) ∨
        (IsErrSubIssuesTooMany e = false ∧ IsErrSubIssuesTooDeep e = true ∧
            IsErrCircularParentIssue e = false) ∨
        (IsErrSubIssuesTooMany e = false ∧ IsErrSubIssuesTooDeep e = false ∧
            IsErrCircularParentIssue e = true)) := by
  constructor
  · intro e
    cases e <;>
      simp [IsErrSubIssuesTooMany, IsErrSubIssuesTooDeep, IsErrCircularParentIssue]
  · intro fuel cfg w issue parent doer r e h he htx
    unfold UpdateParentIssue at h
    split at h
    · simp only [Option.some.injEq] at h; subst h; simp at he
    · split at h
      · simp only [Option.some.injEq] at h; subst h; simp at he
      · have hl := (LoadParentIssue_frame w issue).1.2.2.2.1
        split at h
        · next w1 issue1 e1 heq =>
          simp only [Option.some.injEq] at h
          subst h
          simp only [Option.some.injEq] at he
          subst he
          obtain ⟨pid, -, h1 | h1⟩ := LoadParentIssue_err w issue e1 (by rw [heq])
          · exact Or.inl (Or.inl h1)
          · exact Or.inl (Or.inr (Or.inr (Or.inr ⟨pid, h1⟩)))
        · next w1 issue1 heq =>
          rw [heq] at hl
          simp only at hl
          split at h
          · simp only [Option.some.injEq] at h
            subst h
            rw [commitParent_txs] at htx
            omega
          · split at h
            · simp at h
            · next w2 p2 e2 hv =>
              simp only [Option.some.injEq] at h
              subst h
              simp only [Option.some.injEq] at he
              subst he
              rcases validateParent_err _ _ _ _ _ _ _ _ hv with h2 | h2 | h2 | h2 | h2
              · refine Or.inr ?_
                cases e2 <;>
                  simp [Err.isRejection, IsErrSubIssuesTooMany, IsErrSubIssuesTooDeep,
                    IsErrCircularParentIssue] at h2 ⊢
              · exact Or.inl (Or.inl h2)
              · exact Or.inl (Or.inr (Or.inr (Or.inl h2)))
              · exact Or.inl (Or.inr (Or.inl h2))
              · exact Or.inl (Or.inr (Or.inr (Or.inr h2)))
            · next w2 p2 hv =>
              simp only [Option.some.injEq] at h
              subst h
              rw [commitParent_txs] at htx
              have hv1 := (validateParent_frame _ _ _ _ _ _ _ _ hv).2.2.2.1
              omega

theorem IsErr_distinguishable_witness :
    (IsErrSubIssuesTooDeep (.ErrSubIssuesTooDeep 3 2 1) = true ↔
        ∃ a b c, Err.ErrSubIssuesTooDeep 3 2 1 = .ErrSubIssuesTooDeep a b c) ∧
      (IsErrSubIssuesTooMany (.wrap "x" (.ErrSubIssuesTooMany 3 2 1)) = true ↔
        ∃ a b c, Err.wrap "x" (.ErrSubIssuesTooMany 3 2 1) = .ErrSubIssuesTooMany a b c) ∧
      ∃ r, UpdateParentIssue 4 ⟨1, 5⟩
          ⟨[⟨1, none⟩, ⟨2, some 1⟩, ⟨3, none⟩], [], 0, 0, 0, Faults.none⟩
          (Issue.ofRow ⟨3, none⟩) (some (Issue.ofRow ⟨2, some 1⟩)) 1 = some r ∧
        r.err = some (.ErrSubIssuesTooDeep 3 2 1) ∧
        IsErrSubIssuesTooMany (.ErrSubIssuesTooDeep 3 2 1) = false ∧
        IsErrSubIssuesTooDeep (.ErrSubIssuesTooDeep 3 2 1) = true ∧
        IsErrCircularParentIssue (.ErrSubIssuesTooDeep 3 2 1) = false :=
  ⟨(IsErr_distinguishable.1 (.ErrSubIssuesTooDeep 3 2 1)).2.1,
    (IsErr_distinguishable.1 (.wrap "x" (.ErrSubIssuesTooMany 3 2 1))).1,
    _, rfl, rfl, rfl, rfl, rfl⟩

/-- C22. Memoized loading is idempotent: when `LoadSubIssues` returns without error, a
second call right after it reads nothing and leaves the store and every field of the
object as the first call left them, so the two calls read the store at most once; the
same holds of `LoadParentIssue`. -/
theorem Load_idempotent (w : World) (i : Issue) :
    (∀ w1 i1, LoadSubIssues w i = (w1, i1, none) →
        LoadSubIssues w1 i1 = (w1, i1, none) ∧ w1.reads ≤ w.reads + 1) ∧
      (∀ w1 i1, LoadParentIssue w i = (w1, i1, none) →
        LoadParentIssue w1 i1 = (w1, i1, none) ∧ w1.reads ≤ w.reads + 1) := by
  cases i with
  | mk a b c d e f =>
    constructor
    · intro w1 i1 h
      unfold LoadSubIssues GetSubIssuesByIssueID at h
      simp only [Issue.isSubIssuesLoaded_mk, Issue.ID_mk] at h
      cases f with
      | true =>
        simp only [Bool.not_true, Bool.false_eq_true, if_false, Prod.mk.injEq, and_true] at h
        obtain ⟨rfl, rfl⟩ := h
        exact ⟨rfl, Nat.le_succ _⟩
      | false =>
        simp only [Bool.not_false, if_true] at h
        split at h
        · simp at h
        · next w2 subs heq =>
          simp only [Prod.mk.injEq, and_true] at h
          obtain ⟨rfl, rfl⟩ := h
          refine ⟨rfl, ?_⟩
          split at heq
          · simp at heq
          · simp only [Prod.mk.injEq] at heq
            rw [← heq.1]
    · intro w1 i1 h
      unfold LoadParentIssue at h
      cases b with
      | none =>
        simp only [Issue.ParentIssueID_mk, Prod.mk.injEq, and_true] at h
        obtain ⟨rfl, rfl⟩ := h
        exact ⟨rfl, Nat.le_succ _⟩
      | some pid =>
        simp only [Issue.ParentIssueID_mk] at h
        split at h
        · split at h
          · simp at h
          · next w2 p heq =>
            simp only [Prod.mk.injEq, and_true] at h
            obtain ⟨rfl, rfl⟩ := h
            refine ⟨rfl, ?_⟩
            have := GetIssueByID_readOnly w pid
            unfold GetIssueByID at heq
            simp only at heq
            repeat' split at heq
            all_goals first
              | (simp at heq; done)
              | (simp only [Prod.mk.injEq] at heq; rw [← heq.1])
        · next hcond =>
          simp only [Prod.mk.injEq, and_true] at h
          obtain ⟨rfl, rfl⟩ := h
          refine ⟨?_, Nat.le_succ _⟩
          unfold LoadParentIssue
          simp only [Issue.ParentIssueID_mk]
          rw [if_neg hcond]

theorem Load_idempotent_witness :
    (LoadSubIssues ⟨[⟨1, none⟩, ⟨2, some 1⟩], [], 1, 0, 0, Faults.none⟩
        (Issue.mk 1 none none false [Issue.ofRow ⟨2, some 1⟩] true) =
        (⟨[⟨1, none⟩, ⟨2, some 1⟩], [], 1, 0, 0, Faults.none⟩,
          Issue.mk 1 none none false [Issue.ofRow ⟨2, some 1⟩] true, none) ∧
      (1 : Nat) ≤ 0 + 1) ∧
      (LoadParentIssue ⟨[⟨1, none⟩, ⟨2, some 1⟩], [], 1, 0, 0, Faults.none⟩
        (Issue.mk 2 (some 1) (some (Issue.ofRow ⟨1, none⟩)) true [] false) =
        (⟨[⟨1, none⟩, ⟨2, some 1⟩], [], 1, 0, 0, Faults.none⟩,
          Issue.mk 2 (some 1) (some (Issue.ofRow ⟨1, none⟩)) true [] false, none) ∧
      (1 : Nat) ≤ 0 + 1) :=
  ⟨(Load_idempotent ⟨[⟨1, none⟩, ⟨2, some 1⟩], [], 0, 0, 0, Faults.none⟩
      (Issue.ofRow ⟨1, none⟩)).1 _ _ rfl,
    (Load_idempotent ⟨[⟨1, none⟩, ⟨2, some 1⟩], [], 0, 0, 0, Faults.none⟩
      (Issue.ofRow ⟨2, some 1⟩)).2 _ _ rfl⟩

/-! ## Counts across calls, errors after the write, order of the checks -/

/-- C27 (failing input). Issue 2 is a sub-issue of root 1; issues 3, 4 and 5 are roots;
`MaxSubIssues = 2`. The three are attached one after another under the same object of
2. All three calls succeed, none is rejected with `ErrSubIssuesTooMany`, and root 1 ends
with 4 descendants. On the root object that `LookupRootIssue` returns for that object
of 2, `CountSubIssues` still answers 1. -/
theorem CountSubIssues_stale_under_nonroot_parent :
    ∃ w P errs w1 P1 root w2 root2,
      attachEach 5 ⟨5, 2⟩ 1
        ⟨[⟨1, none⟩, ⟨2, some 1⟩, ⟨3, none⟩, ⟨4, none⟩, ⟨5, none⟩], [], 0, 0, 0, Faults.none⟩
        (Issue.ofRow ⟨2, some 1⟩)
        [Issue.ofRow ⟨3, none⟩, Issue.ofRow ⟨4, none⟩, Issue.ofRow ⟨5, none⟩] =
        some (w, P, errs) ∧
      errs = [none, none, none] ∧
      w.rows = [⟨1, none⟩, ⟨2, some 1⟩, ⟨3, some 2⟩, ⟨4, some 2⟩, ⟨5, some 2⟩] ∧
      (descendants w.rows 1).length = 4 ∧
      LookupRootIssue 5 w P = some (w1, P1, .ok (root, 1)) ∧ root.ID = 1 ∧
      CountSubIssues 5 w1 root = some (w2, root2, .ok 1) :=
  ⟨_, _, _, _, _, _, _, _, rfl, rfl, rfl, by decide, rfl, rfl, rfl⟩

/-- C28 (failing input). Issues 23 and 24 are roots and `committer.Commit()` fails.
Linking 24 under 23 returns the commit error; the in-memory `ParentIssueID` of the
receiver is now 23 although it was absent before the call, and the persisted
`parent_id` of 24 is still absent. -/
theorem UpdateParentIssue_error_keeps_assignment :
    ∃ r, UpdateParentIssue 3 ⟨5, 5⟩
        ⟨[⟨23, none⟩, ⟨24, none⟩], [], 0, 0, 0, { Faults.none with commit := true }⟩
        (Issue.ofRow ⟨24, none⟩) (some (Issue.ofRow ⟨23, none⟩)) 1 = some r ∧
      r.err = some (.store .commit) ∧
      (Issue.ofRow ⟨24, none⟩).ParentIssueID = none ∧
      r.issue.ParentIssueID = some 23 ∧ parentOf r.w.rows 24 = none :=
  ⟨_, rfl, rfl, rfl, rfl, rfl⟩

/-- C29. Rejection precedence: in a call with a `parent` that is not a no-op and whose
`LoadParentIssue` succeeds, let `(root, depth)` be what `parent.LookupRootIssue`
returns. If `depth + 1 > MaxSubIssuesDepth` the call returns `ErrSubIssuesTooDeep`,
whatever the count and the parent chain. Otherwise, with `n` what
`root.CountSubIssues` returns, if `n + 1 > MaxSubIssues` the call returns
`ErrSubIssuesTooMany`, whatever the parent chain; and only when neither check fails is
the cycle walk run: the call then returns `ErrCircularParentIssue` exactly when the walk
finds the ID of the receiver. -/
theorem UpdateParentIssue_rejection_precedence (fuel : Nat) (cfg : Setting) (w : World)
    (issue p : Issue) (doer : Int) (w1 : World) (issue1 : Issue) (w2 : World) (p1 root : Issue)
    (depth : Nat)
    (hnoop : issue.ParentIssueID ≠ some p.ID)
    (hload : LoadParentIssue w issue = (w1, issue1, none))
    (hlook : LookupRootIssue fuel w1 p = some (w2, p1, .ok (root, depth))) :
    ((depth : Int) + 1 > cfg.MaxSubIssuesDepth →
        ∃ r, UpdateParentIssue fuel cfg w issue (some p) doer = some r ∧
          r.err = some (.ErrSubIssuesTooDeep issue.ID p.ID root.ID)) ∧
      ((depth : Int) + 1 ≤ cfg.MaxSubIssuesDepth →
        ∀ w3 root2 n, CountSubIssues fuel w2 root = some (w3, root2, .ok n) →
          ((n : Int) + 1 > cfg.MaxSubIssues →
            ∃ r, UpdateParentIssue fuel cfg w issue (some p) doer = some r ∧
              r.err = some (.ErrSubIssuesTooMany issue.ID p.ID root.ID)) ∧
          ((n : Int) + 1 ≤ cfg.MaxSubIssues →
            ∃ r, UpdateParentIssue fuel cfg w issue (some p) doer = some r ∧
              (r.err = some (.ErrCircularParentIssue issue.ID p.ID) ↔
                circularWalk issue.ID (p1.setNthParent depth root2) = true) ∧
              ∀ e, r.err = some e → IsErrSubIssuesTooDeep e = false ∧
                IsErrSubIssuesTooMany e = false)) := by
  have hk := (LoadParentIssue_frame w issue).2
  rw [hload] at hk
  simp only at hk
  have hcond1 : (issue.ParentIssueID.isSome && (some p).isSome &&
      issue.ParentIssueID == (some p).map Issue.ID) = false := by
    simp only [Option.isSome_some, Bool.and_true, Option.map_some', Bool.and_eq_false_imp,
      beq_eq_false_iff_ne]
    intro _
    exact hnoop
  have hcond2 : (issue.ParentIssueID.isNone && (some p).isNone) = false := by simp
  have hupd : ∀ x, validateParent fuel cfg w1 issue1 p = some x →
      UpdateParentIssue fuel cfg w issue (some p) doer =
        (match x with
          | (w4, p2, some e) => some { w := w4, issue := issue1, parent := some p2, err := some e }
          | (w4, p2, none) => some (commitParent w4 issue1 issue1.ParentIssue (some p2) doer)) := by
    intro x hx
    unfold UpdateParentIssue
    rw [hcond1, hcond2]
    simp only [Bool.false_eq_true, if_false, hload, hx]
    obtain ⟨w4, p2, e⟩ := x
    cases e <;> rfl
  refine ⟨fun hdeep => ?_, fun hdeep w3 root2 n hcount => ⟨fun hmany => ?_, fun hmany => ?_⟩⟩
  · have hv : validateParent fuel cfg w1 issue1 p =
        some (w2, p1, some (.ErrSubIssuesTooDeep issue1.ID p.ID root.ID)) := by
      unfold validateParent
      simp only [hlook, hdeep, if_true]
    rw [hupd _ hv, hk.1]
    exact ⟨_, rfl, rfl⟩
  · have hv : validateParent fuel cfg w1 issue1 p =
        some (w3, p1.setNthParent depth root2,
          some (.ErrSubIssuesTooMany issue1.ID p.ID root.ID)) := by
      unfold validateParent
      simp only [hlook, not_lt.mpr hdeep, if_false, hcount, hmany, if_true]
    rw [hupd _ hv, hk.1]
    exact ⟨_, rfl, rfl⟩
  · by_cases hwalk : circularWalk issue1.ID (p1.setNthParent depth root2) = true
    · have hv : validateParent fuel cfg w1 issue1 p =
          some (w3, p1.setNthParent depth root2,
            some (.ErrCircularParentIssue issue1.ID p.ID)) := by
        unfold validateParent
        simp only [hlook, not_lt.mpr hdeep, if_false, hcount, not_lt.mpr hmany, hwalk, if_true]
      rw [hupd _ hv, hk.1] at *
      refine ⟨_, rfl, ⟨fun _ => hwalk, fun _ => rfl⟩, ?_⟩
      intro e he
      simp only [Option.some.injEq] at he
      subst he
      exact ⟨rfl, rfl⟩
    · have hv : validateParent fuel cfg w1 issue1 p =
          some (w3, p1.setNthParent depth root2, none) := by
        unfold validateParent
        simp only [hlook, not_lt.mpr hdeep, if_false, hcount, not_lt.mpr hmany, hwalk,
          Bool.false_eq_true]
      rw [hupd _ hv]
      rw [hk.1] at hwalk
      refine ⟨_, rfl, ⟨fun he => ?_, fun hw => absurd hw hwalk⟩, ?_⟩
      · have := commitParent_err_not_rejection _ _ _ _ _ _ he
        simp [Err.isRejection, IsErrSubIssuesTooDeep, IsErrSubIssuesTooMany,
          IsErrCircularParentIssue] at this
      · intro e he
        have := commitParent_err_not_rejection _ _ _ _ _ _ he
        simp only [Err.isRejection, Bool.or_eq_false_iff] at this
        exact ⟨this.1.1, this.1.2⟩

theorem UpdateParentIssue_rejection_precedence_witness :
    ∃ r, UpdateParentIssue 5 ⟨1, 0⟩
        ⟨[⟨1, none⟩, ⟨2, some 1⟩, ⟨3, some 2⟩], [], 0, 0, 0, Faults.none⟩
        (Issue.ofRow ⟨1, none⟩) (some (Issue.ofRow ⟨3, some 2⟩)) 1 = some r ∧
      r.err = some (.ErrSubIssuesTooDeep 1 3 1) :=
  (UpdateParentIssue_rejection_precedence 5 ⟨1, 0⟩
    ⟨[⟨1, none⟩, ⟨2, some 1⟩, ⟨3, some 2⟩], [], 0, 0, 0, Faults.none⟩
    (Issue.ofRow ⟨1, none⟩) (Issue.ofRow ⟨3, some 2⟩) 1 _ _ _ _ (Issue.ofRow ⟨1, none⟩) 2
    (by decide) rfl rfl).1 (by decide)

/-! ## Validation on objects without stale caches -/

theorem LoadSubIssues_agrees (rows : List Row) (w : World) (i : Issue) (w1 : World)
    (i1 : Issue) (hw : w.rows = rows) (hc : SubCacheAgrees rows i)
    (h : LoadSubIssues w i = (w1, i1, none)) :
    i1.SubIssues.map Issue.ID = (children rows i.ID).map Row.id ∧
      (∀ s ∈ i1.SubIssues, SubCacheAgrees rows s) ∧ w1.rows = rows := by
  have hro := (LoadSubIssues_frame w i).1
  rw [h] at hro
  refine ⟨?_, ?_, by rw [hro.1, hw]⟩
  all_goals
    cases i with
    | mk a b c d e f =>
      unfold LoadSubIssues GetSubIssuesByIssueID at h
      simp only [Issue.isSubIssuesLoaded_mk, Issue.ID_mk] at h
      cases f with
      | true =>
        simp only [Bool.not_true, Bool.false_eq_true, if_false, Prod.mk.injEq, and_true] at h
        obtain ⟨-, rfl⟩ := h
        cases hc with
        | unloaded _ hf => simp at hf
        | loaded _ _ h1 h2 => first | exact h1 | exact h2
      | false =>
        simp only [Bool.not_false, if_true] at h
        split at h
        · simp at h
        · next w2 subs heq =>
          simp only [Prod.mk.injEq, and_true] at h
          obtain ⟨-, rfl⟩ := h
          split at heq
          · simp at heq
          · simp only [Prod.mk.injEq, Except.ok.injEq] at heq
            obtain ⟨-, rfl⟩ := heq
            simp only [Issue.setSubIssues_mk, Issue.setIsSubIssuesLoaded_mk, Issue.SubIssues_mk,
              Issue.ID_mk, hw]
            first
              | (rw [List.map_map]; rfl)
              | (intro s hs
                 rw [List.mem_map] at hs
                 obtain ⟨r, -, rfl⟩ := hs
                 exact SubCacheAgrees.unloaded _ rfl)

theorem countLoop_sum (rows : List Row)
    (count : World → Issue → Option (World × Issue × Except Err Nat)) (f : Int → Nat)
    (P : Issue → Prop)
    (hc : ∀ w i w' i' n, w.rows = rows → P i → count w i = some (w', i', .ok n) →
      n = f i.ID ∧ w'.rows = rows) :
    ∀ (l : List Issue) (w : World) (n : Nat) (w' : World) (l' : List Issue) (m : Nat),
      w.rows = rows → (∀ s ∈ l, P s) → countLoop count w l n = some (w', l', .ok m) →
      m = n + (l.map (fun s => f s.ID)).sum := by
  intro l
  induction l with
  | nil =>
    intro w n w' l' m _ _ h
    simp only [countLoop, Option.some.injEq, Prod.mk.injEq, Except.ok.injEq] at h
    simp [h.2.2]
  | cons s rest ih =>
    intro w n w' l' m hw hP h
    unfold countLoop at h
    split at h
    · simp at h
    · simp at h
    · next w1 s1 subcount hs =>
      obtain ⟨h1, h2⟩ := hc _ _ _ _ _ hw (hP s (List.mem_cons_self _ _)) hs
      split at h
      · simp at h
      · next w2 rest2 res2 hrest =>
        simp only [Option.some.injEq, Prod.mk.injEq] at h
        obtain ⟨-, -, rfl⟩ := h
        have := ih w1 (n + subcount) w2 rest2 m h2
          (fun x hx => hP x (List.mem_cons_of_mem _ hx)) hrest
        rw [this, h1, List.map_cons, List.sum_cons]
        omega

/-- On an object whose sub-issue cache is not stale, what `CountSubIssues` returns is
the number of descendants in the table. -/
theorem CountSubIssues_agrees (rows : List Row) (hu : UniqueIDs rows) (hn : NoCycle rows) :
    ∀ (fuel : Nat) (w : World) (i : Issue) (w' : World) (i' : Issue) (n : Nat),
      w.rows = rows → SubCacheAgrees rows i →
      CountSubIssues fuel w i = some (w', i', .ok n) →
      n = (descendants rows i.ID).length := by
  intro fuel
  induction fuel with
  | zero => intro w i w' i' n _ _ h; simp [CountSubIssues] at h
  | succ k ih =>
    intro w i w' i' n hw hc h
    unfold CountSubIssues at h
    split at h
    · simp at h
    · next w1 issue1 heq =>
      obtain ⟨h1, h2, h3⟩ := LoadSubIssues_agrees rows w i w1 issue1 hw hc heq
      split at h
      · simp at h
      · next w2 subs res hloop =>
        simp only [Option.some.injEq, Prod.mk.injEq] at h
        obtain ⟨-, -, rfl⟩ := h
        have hsum := countLoop_sum rows (CountSubIssues k)
          (fun x => (descendants rows x).length) (SubCacheAgrees rows)
          (fun w0 i0 w0' i0' n0 hw0 hP0 hcount =>
            ⟨ih w0 i0 w0' i0' n0 hw0 hP0 hcount,
              by rw [(CountSubIssues_frame _ _ _ _ _ _ hcount).1.1, hw0]⟩)
          _ _ _ _ _ _ h3 h2 hloop
        rw [hsum, descendants_length rows hu hn, sum_map_one_add]
        have e1 : issue1.SubIssues.length = (children rows i.ID).length := by
          have := congrArg List.length h1
          simpa using this
        have e2 : (issue1.SubIssues.map (fun s => (descendants rows s.ID).length)).sum =
            ((children rows i.ID).map (fun c => (descendants rows c.id).length)).sum := by
          have := congrArg (List.map (fun x => (descendants rows x).length)) h1
          simp only [List.map_map] at this
          exact congrArg List.sum this
        rw [e1, e2]

/-- On an object coherent with the table, what `LookupRootIssue` returns is the root of
the issue in the table and its depth. -/
theorem LookupRootIssue_depth : ∀ (fuel : Nat) (w : World) (i : Issue) (w' : World)
    (i' : Issue) (root : Issue) (d : Nat),
    Coherent w.rows i → LookupRootIssue fuel w i = some (w', i', .ok (root, d)) →
      nthAncestor w.rows d i.ID = some root.ID ∧ parentOf w.rows root.ID = none := by
  intro fuel
  induction fuel with
  | zero => intro w i w' i' root d _ h; simp [LookupRootIssue] at h
  | succ n ih =>
    intro w i w' i' root d hc h
    unfold LookupRootIssue at h
    split at h
    · next hnone =>
      simp only [Option.some.injEq, Prod.mk.injEq, Except.ok.injEq] at h
      obtain ⟨-, -, rfl, rfl⟩ := h
      exact ⟨rfl, by rw [← coherent_key _ _ hc, hnone]⟩
    · next pid hpid =>
      have hl := LoadParentIssue_frame w i
      split at h
      · simp at h
      · next w1 root1 heq =>
        rw [heq] at hl
        simp only at hl
        split at h
        · simp at h
        · next q hq =>
          obtain ⟨hqid, hqc⟩ := LoadParentIssue_coherent w i pid w1 root1 hc hpid heq q hq
          split at h
          · simp at h
          · simp at h
          · next w2 p2 r depth hrec =>
            simp only [Option.some.injEq, Prod.mk.injEq, Except.ok.injEq] at h
            obtain ⟨-, -, rfl, rfl⟩ := h
            have := ih w1 q w2 p2 r depth (by rw [hl.1.1]; exact hqc) hrec
            rw [hl.1.1, hqid] at this
            refine ⟨?_, this.2⟩
            rw [nthAncestor_succ, ← coherent_key _ _ hc, hpid, Option.some_bind]
            exact this.1

theorem LookupRootIssue_subCache (rows : List Row) : ∀ (fuel : Nat) (w : World) (i : Issue)
    (w' : World) (i' : Issue) (root : Issue) (d : Nat),
    (∀ k q, i.nthParent k = some q → SubCacheAgrees rows q) →
    LookupRootIssue fuel w i = some (w', i', .ok (root, d)) → SubCacheAgrees rows root := by
  intro fuel
  induction fuel with
  | zero => intro w i w' i' root d _ h; simp [LookupRootIssue] at h
  | succ n ih =>
    intro w i w' i' root d hc h
    unfold LookupRootIssue at h
    split at h
    · simp only [Option.some.injEq, Prod.mk.injEq, Except.ok.injEq] at h
      obtain ⟨-, -, rfl, -⟩ := h
      exact hc 0 _ rfl
    · split at h
      · simp at h
      · next w1 root1 heq =>
        split at h
        · simp at h
        · next q hq =>
          split at h
          · simp at h
          · simp at h
          · next w2 p2 r depth hrec =>
            simp only [Option.some.injEq, Prod.mk.injEq, Except.ok.injEq] at h
            obtain ⟨-, -, rfl, -⟩ := h
            refine ih w1 q w2 p2 _ depth ?_ hrec
            rcases LoadParentIssue_parent w i w1 root1 q heq hq with ⟨hcached, -⟩ | ⟨p, hget⟩
            · intro k q' hk
              refine hc (k + 1) q' ?_
              simp only [Issue.nthParent, hcached]
              exact hk
            · intro k q' hk
              have hq' : ∃ row, q = Issue.ofRow row := by
                unfold GetIssueByID at hget
                simp only at hget
                repeat' split at hget
                all_goals first
                  | (simp at hget; done)
                  | (simp only [Prod.mk.injEq, Except.ok.injEq] at hget; exact ⟨_, hget.2.symm⟩)
              obtain ⟨row, rfl⟩ := hq'
              cases k with
              | zero =>
                simp only [Issue.nthParent, Option.some.injEq] at hk
                subst hk
                exact SubCacheAgrees.unloaded _ rfl
              | succ k => simp [Issue.nthParent, Issue.ofRow] at hk

theorem validateParent_success (fuel : Nat) (cfg : Setting) (w : World) (issue p : Issue)
    (w' : World) (p' : Issue)
    (h : validateParent fuel cfg w issue p = some (w', p', none)) :
    ∃ w1 p1 root depth root2 n,
      LookupRootIssue fuel w p = some (w1, p1, .ok (root, depth)) ∧
      (depth : Int) + 1 ≤ cfg.MaxSubIssuesDepth ∧
      CountSubIssues fuel w1 root = some (w', root2, .ok n) ∧
      (n : Int) + 1 ≤ cfg.MaxSubIssues := by
  unfold validateParent at h
  split at h
  · simp at h
  · simp at h
  · next w1 parent1 root depth hl =>
    split at h
    · simp at h
    · next hdeep =>
      split at h
      · simp at h
      · simp at h
      · next w2 root2 rootCount hc =>
        simp only at h
        split at h
        · simp at h
        · next hmany =>
          split at h
          · simp at h
          · simp only [Option.some.injEq, Prod.mk.injEq, and_true] at h
            obtain ⟨rfl, -⟩ := h
            exact ⟨w1, parent1, root, depth, root2, rootCount, hl, not_lt.mp hdeep, hc,
              not_lt.mp hmany⟩

/-- A successful call is a no-op, an unlink with a single write, or a link that has
passed the validation block, with a single write. -/
theorem UpdateParentIssue_success_cases (fuel : Nat) (cfg : Setting) (w : World)
    (issue : Issue) (parent : Option Issue) (doer : Int) (r : UpdateResult)
    (h : UpdateParentIssue fuel cfg w issue parent doer = some r) (he : r.err = none) :
    r.w = w ∨
      (parent = none ∧ r.w.rows = updateParentID w.rows issue.ID none) ∨
      (∃ p w1 issue1 w2 p2, parent = some p ∧ ReadOnly w w1 ∧ SameKey issue issue1 ∧
        validateParent fuel cfg w1 issue1 p = some (w2, p2, none) ∧
        r.w.rows = updateParentID w.rows issue.ID (some p.ID)) := by
  unfold UpdateParentIssue at h
  split at h
  · simp only [Option.some.injEq] at h; subst h; exact Or.inl rfl
  · split at h
    · simp only [Option.some.injEq] at h; subst h; exact Or.inl rfl
    · have hl := LoadParentIssue_frame w issue
      split at h
      · simp only [Option.some.injEq] at h; subst h; simp at he
      · next w1 issue1 heq =>
        rw [heq] at hl
        simp only at hl
        split at h
        · simp only [Option.some.injEq] at h
          subst h
          refine Or.inr (Or.inl ⟨rfl, ?_⟩)
          rw [commitParent_success _ _ _ _ _ he, hl.1.1, hl.2.1]
          rfl
        · next p =>
          split at h
          · simp at h
          · simp only [Option.some.injEq] at h; subst h; simp at he
          · next w2 p2 hv =>
            simp only [Option.some.injEq] at h
            subst h
            refine Or.inr (Or.inr ⟨_, w1, issue1, w2, p2, rfl, hl.1, hl.2, hv, ?_⟩)
            have hv1 := validateParent_frame _ _ _ _ _ _ _ _ hv
            have hv2 := validateParent_sameKey _ _ _ _ _ _ _ _ hv
            rw [commitParent_success _ _ _ _ _ he, hv1.1, hl.1.1, hl.2.1]
            simp only [Option.map_some', hv2.1]

/-! ## The bounds of the table after a leaf is moved -/

theorem chain_le_root (rows : List Row) (x a root : Int) (m d : Nat)
    (hm : nthAncestor rows m x = some a) (hd : nthAncestor rows d x = some root)
    (hroot : parentOf rows root = none) : m ≤ d := by
  by_contra hlt
  obtain ⟨k, rfl⟩ := Nat.exists_eq_add_of_lt (Nat.lt_of_not_le hlt)
  rw [show d + k + 1 = d + (k + 1) from rfl, nthAncestor_add, hd, Option.some_bind,
    nthAncestor_succ, hroot] at hm
  cases hm

theorem chain_end_unique (rows : List Row) (x a b : Int) (n d : Nat)
    (hn : nthAncestor rows n x = some a) (ha : parentOf rows a = none)
    (hd : nthAncestor rows d x = some b) (hb : parentOf rows b = none) : a = b := by
  have h1 := chain_le_root rows x a b n d hn hd hb
  have h2 := chain_le_root rows x b a d n hd hn ha
  have : n = d := Nat.le_antisymm h1 h2
  subst this
  rw [hn] at hd
  exact Option.some.inj hd

theorem nthAncestor_leaf_moved (rows : List Row) (c : Int) (v : Option Int)
    (hleaf : children rows c = []) (k : Nat) (x : Int) (hx : x ≠ c) :
    nthAncestor (updateParentID rows c v) k x = nthAncestor rows k x := by
  refine nthAncestor_agree rows _ c (fun y hy => ?_) k x (fun j _ hj => ?_)
  · rw [parentOf_updateParentID]
    simp [hy]
  · exact leaf_not_ancestor rows c x hleaf (Ne.symm hx) ⟨j, hj⟩

theorem mem_rows_of_mem_updateParentID (rows : List Row) (c : Int) (v : Option Int) (x : Row)
    (hx : x ∈ updateParentID rows c v) : ∃ r ∈ rows, r.id = x.id := by
  rw [mem_updateParentID] at hx
  obtain ⟨r, hr, ⟨-, h⟩ | ⟨-, h⟩⟩ := hx
  · exact ⟨r, hr, by rw [h]⟩
  · exact ⟨r, hr, by rw [h]⟩

theorem parentOf_updateParentID_self (rows : List Row) (c : Int) (v : Option Int)
    (hrow : ∃ r ∈ rows, r.id = c) : parentOf (updateParentID rows c v) c = v := by
  obtain ⟨r, hr, hid⟩ := hrow
  have := find_isSome_of_mem rows r hr
  rw [hid] at this
  rw [parentOf_updateParentID]
  simp [this]

theorem depthBound_link (rows : List Row) (c pid root : Int) (d : Nat) (max : Int)
    (hdb : DepthBound rows max) (hleaf : children rows c = []) (hne : c ≠ pid)
    (hchain : nthAncestor rows d pid = some root) (hroot : parentOf rows root = none)
    (hd : (d : Int) + 1 ≤ max) : DepthBound (updateParentID rows c (some pid)) max := by
  intro x hx n a hna
  obtain ⟨r0, hr0, hid⟩ := mem_rows_of_mem_updateParentID rows c _ x hx
  by_cases hxc : x.id = c
  · cases n with
    | zero => simp only [Nat.cast_zero]; omega
    | succ m =>
      rw [hxc, nthAncestor_succ,
        parentOf_updateParentID_self rows c _ ⟨r0, hr0, hid.trans hxc⟩, Option.some_bind,
        nthAncestor_leaf_moved rows c _ hleaf m pid (Ne.symm hne)] at hna
      have := chain_le_root rows pid a root m d hna hchain hroot
      push_cast
      omega
  · rw [nthAncestor_leaf_moved rows c _ hleaf n x.id hxc, ← hid] at hna
    exact hdb r0 hr0 n a hna

theorem depthBound_unlink (rows : List Row) (c : Int) (max : Int)
    (hdb : DepthBound rows max) : DepthBound (updateParentID rows c none) max := by
  intro x hx n a hna
  obtain ⟨r0, hr0, hid⟩ := mem_rows_of_mem_updateParentID rows c _ x hx
  have := nthAncestor_unlink rows (updateParentID rows c none) c
    (fun y hy => by rw [parentOf_updateParentID]; simp [hy])
    (by rw [parentOf_updateParentID]; simp) n x.id a hna
  rw [← hid] at this
  exact hdb r0 hr0 n a this

theorem countP_or_le {α : Type} (p q : α → Bool) (l : List α) :
    l.countP (fun y => p y || q y) ≤ l.countP p + l.countP q := by
  induction l with
  | nil => simp
  | cons a rest ih =>
    simp only [List.countP_cons]
    cases p a <;> cases q a <;> simp <;> omega

theorem descendants_length_ids (rows : List Row) (a : Int) :
    (descendants rows a).length =
      (rows.map Row.id).countP (fun y =>
        (List.range rows.length).any (fun n => nthAncestor rows (n + 1) y == some a)) := by
  unfold descendants
  rw [← List.countP_eq_length_filter, List.countP_map]
  rfl

/-- Comparison of the numbers of descendants of `a` in two tables with the same IDs:
a row that is a descendant in the second table is one in the first, the row of `c`
possibly excepted. -/
theorem descendants_length_le (rows rows' : List Row) (a c : Int) (hu : UniqueIDs rows)
    (hn : NoCycle rows) (hn' : NoCycle rows') (hids : rows'.map Row.id = rows.map Row.id)
    (himp : ∀ y n, y ≠ c → nthAncestor rows' (n + 1) y = some a →
      ∃ m, nthAncestor rows (m + 1) y = some a) :
    (descendants rows' a).length ≤ (descendants rows a).length + 1 ∧
      ((∀ n, nthAncestor rows' (n + 1) c ≠ some a) →
        (descendants rows' a).length ≤ (descendants rows a).length) := by
  rw [descendants_length_ids rows' a, descendants_length_ids rows a, hids]
  constructor
  · refine Nat.le_trans (List.countP_mono_left (q := fun y =>
      ((List.range rows.length).any (fun n => nthAncestor rows (n + 1) y == some a)) ||
        (y == c)) ?_) ?_
    · intro y _ hy
      rw [isDescendant_iff rows' hn'] at hy
      obtain ⟨n, hy⟩ := hy
      by_cases hyc : y = c
      · simp [hyc]
      · have := (isDescendant_iff rows hn a y).mpr (himp y n hyc hy)
        simp [this]
    · refine Nat.le_trans (countP_or_le _ _ _) (Nat.add_le_add_left ?_ _)
      have : (rows.map Row.id).countP (fun y => y == c) = (rows.map Row.id).count c := by
        rw [List.count_eq_countP]
      rw [this]
      exact List.nodup_iff_count_le_one.mp hu c
  · intro hc
    refine List.countP_mono_left ?_
    intro y _ hy
    rw [isDescendant_iff rows' hn'] at hy
    obtain ⟨n, hy⟩ := hy
    by_cases hyc : y = c
    · exact absurd (hyc ▸ hy) (hc n)
    · exact (isDescendant_iff rows hn a y).mpr (himp y n hyc hy)

theorem countBound_link (rows : List Row) (c pid root : Int) (d : Nat) (max : Int)
    (hu : UniqueIDs rows) (hn : NoCycle rows)
    (hn' : NoCycle (updateParentID rows c (some pid)))
    (hcb : CountBound rows max) (hleaf : children rows c = []) (hne : c ≠ pid)
    (hchain : nthAncestor rows d pid = some root) (hroot : parentOf rows root = none)
    (hcount : ((descendants rows root).length : Int) + 1 ≤ max) :
    CountBound (updateParentID rows c (some pid)) max := by
  intro r hr hrp
  rw [mem_updateParentID] at hr
  obtain ⟨r0, hr0, ⟨-, hx⟩ | ⟨hr0c, hx⟩⟩ := hr
  · rw [hx] at hrp
    cases hrp
  · rw [hx] at hrp ⊢
    have hpar : parentOf rows r0.id = none := by rw [parentOf_of_mem rows hu r0 hr0, hrp]
    have hle := descendants_length_le rows (updateParentID rows c (some pid)) r0.id c hu hn hn'
      (updateParentID_ids rows c _)
      (fun y n hy h => ⟨n, by rwa [nthAncestor_leaf_moved rows c _ hleaf (n + 1) y hy] at h⟩)
    by_cases hroot_eq : r0.id = root
    · have := hle.1
      rw [hroot_eq] at this ⊢
      omega
    · have h2 := hle.2 (by
        intro n hcn
        by_cases hrow : ∃ r ∈ rows, r.id = c
        · rw [nthAncestor_succ, parentOf_updateParentID_self rows c _ hrow, Option.some_bind,
            nthAncestor_leaf_moved rows c _ hleaf n pid (Ne.symm hne)] at hcn
          exact hroot_eq (chain_end_unique rows pid r0.id root n d hcn hpar hchain hroot)
        · rw [nthAncestor_succ, parentOf_updateParentID] at hcn
          have hfind : (rows.find? (fun r => r.id == c)).isSome = false := by
            rw [Bool.eq_false_iff]
            intro hsome
            rw [List.find?_isSome] at hsome
            obtain ⟨x, hx1, hx2⟩ := hsome
            exact hrow ⟨x, hx1, by simpa using hx2⟩
          simp [hfind] at hcn)
      have h3 := hcb r0 hr0 hrp
      omega

theorem descendants_leaf (rows : List Row) (hn : NoCycle rows) (c : Int)
    (hleaf : children rows c = []) : (descendants rows c).length = 0 := by
  rw [List.length_eq_zero, List.eq_nil_iff_forall_not_mem]
  intro y hy
  obtain ⟨-, hne, n, h⟩ := (mem_descendants rows hn c y).mp hy
  exact leaf_not_ancestor rows c y.id hleaf (Ne.symm hne) ⟨n, h⟩

theorem countBound_unlink (rows : List Row) (c : Int) (max : Int)
    (hu : UniqueIDs rows) (hn : NoCycle rows) (hpe : ParentsExist rows)
    (hcb : CountBound rows max) (hleaf : children rows c = []) :
    CountBound (updateParentID rows c none) max := by
  have hag : ∀ y, y ≠ c → parentOf (updateParentID rows c none) y = parentOf rows y :=
    fun y hy => by rw [parentOf_updateParentID]; simp [hy]
  have hcn : parentOf (updateParentID rows c none) c = none := by
    rw [parentOf_updateParentID]; simp
  have hn' : NoCycle (updateParentID rows c none) := noCycle_unlink rows _ c hn hag hcn
  intro r hr hrp
  have hle := fun a => (descendants_length_le rows (updateParentID rows c none) a c hu hn hn'
    (updateParentID_ids rows c _)
    (fun y n _ h => ⟨n, nthAncestor_unlink rows _ c hag hcn (n + 1) y a h⟩)).2
    (fun n h => by rw [nthAncestor_succ, hcn] at h; cases h)
  rw [mem_updateParentID] at hr
  obtain ⟨r0, hr0, ⟨hr0c, hx⟩ | ⟨-, hx⟩⟩ := hr
  · have hid : r.id = c := by rw [hx]; exact hr0c
    have h1 := hle r.id
    rw [hid, descendants_leaf rows hn c hleaf] at h1
    rw [hid]
    -- a root of the table stands above `c`
    obtain ⟨d0, a0, hd0, ha0⟩ := exists_root rows hn c
    have harow : ∃ row ∈ rows, row.id = a0 := by
      cases d0 with
      | zero =>
        simp only [nthAncestor, Option.some.injEq] at hd0
        exact ⟨r0, hr0, hr0c.trans hd0⟩
      | succ k => exact ancestor_row rows hpe c k a0 hd0
    obtain ⟨ra, hra, hraid⟩ := harow
    have := hcb ra hra (by rw [← parentOf_of_mem rows hu ra hra, hraid, ha0])
    omega
  · rw [hx] at hrp ⊢
    have h1 := hle r0.id
    have h2 := hcb r0 hr0 hrp
    omega

theorem depthBound_of_bounded (rows : List Row) (m : Nat)
    (h : ∀ r ∈ rows, nthAncestor rows (m + 1) r.id = none) : DepthBound rows (m : Int) := by
  intro r hr n a hna
  by_contra hlt
  have hle : m + 1 ≤ n := by
    have : ¬ (n : Int) ≤ (m : Int) := hlt
    omega
  obtain ⟨v, hv⟩ := nthAncestor_isSome_of_le rows n r.id a hna (m + 1) hle
  rw [h r hr] at hv
  cases hv

theorem noStaleCaches_ofRow (rows : List Row) (hu : UniqueIDs rows) (r : Row) (hr : r ∈ rows) :
    NoStaleCaches rows (Issue.ofRow r) := by
  refine ⟨coherent_ofRow rows hu r hr, ?_⟩
  intro k q hk
  cases k with
  | zero =>
    simp only [Issue.nthParent, Option.some.injEq] at hk
    subst hk
    exact SubCacheAgrees.unloaded _ rfl
  | succ k => simp [Issue.nthParent, Issue.ofRow] at hk

/-- C26. Bounds hold when the moved issue is a leaf: on a table that is a forest (`id`
is a key, no cycle, every `parent_id` is the `id` of a row) and satisfies the depth
bound and the count bound, for an issue without sub-issues and a `parent` object
without stale caches, after a successful `UpdateParentIssue` every issue is still at
most `MaxSubIssuesDepth` parent edges deep and every root still has at most
`MaxSubIssues` descendants. -/
theorem UpdateParentIssue_bounds_leaf (fuel : Nat) (cfg : Setting) (w : World)
    (issue : Issue) (parent : Option Issue) (doer : Int) (r : UpdateResult)
    (hu : UniqueIDs w.rows) (hn : NoCycle w.rows) (hpe : ParentsExist w.rows)
    (hdb : DepthBound w.rows cfg.MaxSubIssuesDepth)
    (hcb : CountBound w.rows cfg.MaxSubIssues)
    (hleaf : children w.rows issue.ID = [])
    (hp : ∀ p, parent = some p → NoStaleCaches w.rows p)
    (h : UpdateParentIssue fuel cfg w issue parent doer = some r) (he : r.err = none) :
    DepthBound r.w.rows cfg.MaxSubIssuesDepth ∧ CountBound r.w.rows cfg.MaxSubIssues := by
  have hn' : NoCycle r.w.rows :=
    UpdateParentIssue_noCycle fuel cfg w issue parent doer r hn (fun p hpp => (hp p hpp).1) h he
  rcases UpdateParentIssue_success_cases fuel cfg w issue parent doer r h he with
    hw | ⟨-, hrows⟩ | ⟨p, w1, issue1, w2, p2, hpar, hro, hk, hv, hrows⟩
  · rw [hw]
    exact ⟨hdb, hcb⟩
  · rw [hrows]
    exact ⟨depthBound_unlink _ _ _ hdb, countBound_unlink _ _ _ hu hn hpe hcb hleaf⟩
  · obtain ⟨hcoh, hsub⟩ := hp p hpar
    have hcoh1 : Coherent w1.rows p := by rw [hro.1]; exact hcoh
    obtain ⟨w3, p1, root, depth, root2, n, hlook, hdeep, hcount, hmany⟩ :=
      validateParent_success fuel cfg w1 issue1 p w2 p2 hv
    obtain ⟨hchain, hroot⟩ := LookupRootIssue_depth fuel w1 p w3 p1 root depth hcoh1 hlook
    rw [hro.1] at hchain hroot
    have hrs := LookupRootIssue_subCache w.rows fuel w1 p w3 p1 root depth hsub hlook
    have hw3 : w3.rows = w.rows := by
      rw [(LookupRootIssue_frame _ _ _ _ _ _ hlook).1.1, hro.1]
    have hnum := CountSubIssues_agrees w.rows hu hn fuel w3 root w2 root2 n hw3 hrs hcount
    have hne : issue.ID ≠ p.ID := by
      have := (validateParent_pass fuel cfg w1 issue1 p w2 p2 hcoh1 hv).1 0
      simp only [nthAncestor, ne_eq, Option.some.injEq] at this
      rw [hk.1] at this
      exact fun h => this h.symm
    rw [hrows] at hn' ⊢
    refine ⟨depthBound_link w.rows issue.ID p.ID root.ID depth _ hdb hleaf hne hchain hroot hdeep,
      countBound_link w.rows issue.ID p.ID root.ID depth _ hu hn hn' hcb hleaf hne hchain hroot
        ?_⟩
    rw [← hnum]
    exact hmany

theorem UpdateParentIssue_bounds_leaf_witness :
    ∃ r, UpdateParentIssue 5 ⟨2, 2⟩
        ⟨[⟨1, none⟩, ⟨2, some 1⟩, ⟨3, none⟩], [], 0, 0, 0, Faults.none⟩
        (Issue.ofRow ⟨3, none⟩) (some (Issue.ofRow ⟨2, some 1⟩)) 1 = some r ∧
      r.err = none ∧ r.w.rows = [⟨1, none⟩, ⟨2, some 1⟩, ⟨3, some 2⟩] ∧
      DepthBound r.w.rows 2 ∧ CountBound r.w.rows 2 :=
  ⟨_, rfl, rfl, rfl,
    UpdateParentIssue_bounds_leaf 5 ⟨2, 2⟩
      ⟨[⟨1, none⟩, ⟨2, some 1⟩, ⟨3, none⟩], [], 0, 0, 0, Faults.none⟩
      (Issue.ofRow ⟨3, none⟩) (some (Issue.ofRow ⟨2, some 1⟩)) 1 _
      (by decide) (noCycle_of_bounded _ (by decide))
      (by
        intro r hr p hpar
        simp only [List.mem_cons, List.mem_singleton, List.not_mem_nil, or_false] at hr
        rcases hr with rfl | rfl | rfl
        · cases hpar
        · cases hpar; exact ⟨⟨1, none⟩, by decide, rfl⟩
        · cases hpar)
      (depthBound_of_bounded _ 2 (by decide)) (by decide) (by decide)
      (by
        intro p hp
        cases hp
        exact noStaleCaches_ofRow _ (by decide) ⟨2, some 1⟩ (by decide))
      rfl rfl⟩

end Issues

namespace Hierarchy

/-! ## `bytes.Trim` -/

theorem Trim_spec (s : List Nat) (c : Nat) :
    (∃ l1 l2, s = l1 ++ Trim s c ++ l2 ∧ (∀ b ∈ l1, b = c) ∧ (∀ b ∈ l2, b = c)) ∧
      (Trim s c).head? ≠ some c ∧ (Trim s c).getLast? ≠ some c := by
  have hr : s.rdropWhile (fun b => b == c) ++ s.rtakeWhile (fun b => b == c) = s := by
    have := List.takeWhile_append_dropWhile (fun b => b == c) s.reverse
    have h2 := congrArg List.reverse this
    rw [List.reverse_append, List.reverse_reverse] at h2
    exact h2
  have hl := List.takeWhile_append_dropWhile (fun b => b == c)
    (s.rdropWhile (fun b => b == c))
  refine ⟨⟨(s.rdropWhile (fun b => b == c)).takeWhile (fun b => b == c),
    s.rtakeWhile (fun b => b == c), ?_, ?_, ?_⟩, ?_, ?_⟩
  · unfold Trim
    rw [hl, hr]
  · intro b hb
    simpa using List.mem_takeWhile_imp hb
  · intro b hb
    simpa using List.mem_rtakeWhile_imp hb
  · have := List.head?_dropWhile_not (fun b => b == c) (s.rdropWhile (fun b => b == c))
    unfold Trim
    intro h
    rw [h] at this
    simp at this
  · intro h
    have hne : Trim s c ≠ [] := by
      intro h0
      rw [h0] at h
      cases h
    have hne1 : s.rdropWhile (fun b => b == c) ≠ [] := by
      intro h0
      apply hne
      unfold Trim
      rw [h0]
      rfl
    have hlast := List.rdropWhile_last_not (fun b => b == c) s hne1
    have h2 : (s.rdropWhile (fun b => b == c)).getLast? = (Trim s c).getLast? := by
      conv_lhs => rw [← hl]
      exact List.getLast?_append_of_ne_nil _ hne
    rw [h, List.getLast?_eq_getLast _ hne1] at h2
    simp only [Option.some.injEq] at h2
    rw [h2] at hlast
    simp at hlast

/-! ## The loop of `Tokenize` -/

theorem slashIdx_of_not_mem : ∀ (s : List Nat) (base : Nat), 47 ∉ s → slashIdx s base = []
  | [], _, _ => rfl
  | b :: bs, base, h => by
    have hb : b ≠ 47 := fun hb => h (hb ▸ List.mem_cons_self _ _)
    have hbs : 47 ∉ bs := fun hm => h (List.mem_cons_of_mem _ hm)
    simp only [slashIdx, hb, if_false]
    exact slashIdx_of_not_mem bs (base + 1) hbs

theorem slashIdx_indexOf : ∀ (s : List Nat) (base : Nat), 47 ∈ s →
    slashIdx s base = (base + s.indexOf 47) ::
      slashIdx (s.drop (s.indexOf 47 + 1)) (base + s.indexOf 47 + 1)
  | [], _, h => by cases h
  | b :: bs, base, h => by
    by_cases hb : b = 47
    · simp only [slashIdx, hb, if_true, List.indexOf_cons_eq bs rfl, Nat.add_zero,
        List.drop_succ_cons, List.drop_zero]
    · have hbs : 47 ∈ bs := by
        rcases List.mem_cons.mp h with h1 | h1
        · exact absurd h1.symm hb
        · exact h1
      simp only [slashIdx, hb, if_false, List.indexOf_cons_ne bs hb, Nat.succ_eq_add_one,
        List.drop_succ_cons]
      rw [slashIdx_indexOf bs (base + 1) hbs]
      have e1 : base + 1 + List.indexOf 47 bs = base + (List.indexOf 47 bs + 1) := by omega
      rw [e1]

theorem tokenizeLoop_eq (input : List Nat) : ∀ (fuel off count : Nat) (rv : List Token),
    (input.drop off).length < fuel →
    tokenizeLoop input fuel off count rv =
      some (rv ++ prefixTokens input (slashIdx (input.drop off) off) count,
        count + (slashIdx (input.drop off) off).length) := by
  intro fuel
  induction fuel with
  | zero => intro off count rv h; omega
  | succ n ih =>
    intro off count rv h
    unfold tokenizeLoop IndexRune
    by_cases hm : 47 ∈ input.drop off
    · have hlt : List.indexOf 47 (input.drop off) < (input.drop off).length :=
        List.indexOf_lt_length.mpr hm
      have hne : ((List.indexOf 47 (input.drop off) : Nat) : Int) ≠ -1 := by omega
      simp only [hm, if_true, hne, if_false, Int.toNat_ofNat]
      have hdrop : input.drop (off + List.indexOf 47 (input.drop off) + 1) =
          (input.drop off).drop (List.indexOf 47 (input.drop off) + 1) := by
        rw [List.drop_drop, Nat.add_assoc]
      rw [ih _ _ _ (by rw [hdrop, List.length_drop]; omega), hdrop,
        slashIdx_indexOf (input.drop off) off hm]
      simp only [prefixTokens, List.append_assoc, List.singleton_append, List.length_cons]
      congr 2
      omega
    · simp only [hm, if_false, if_true, slashIdx_of_not_mem _ off hm, prefixTokens,
        List.append_nil, List.length_nil, Nat.add_zero]

theorem Tokenize_eq (fuel : Nat) (input : List Nat) (hfuel : (Trim input 47).length < fuel) :
    Tokenize fuel input =
      some (prefixTokens (Trim input 47) (slashIdx (Trim input 47) 0) 1 ++
        [⟨Trim input 47, 0, (Trim input 47).length,
          1 + (slashIdx (Trim input 47) 0).length, .AlphaNumeric⟩]) := by
  unfold Tokenize
  simp only
  rw [tokenizeLoop_eq (Trim input 47) fuel 0 1 [] (by simpa using hfuel)]
  simp only [List.drop_zero, List.nil_append]

theorem slashIdx_length : ∀ (s : List Nat) (base : Nat), (slashIdx s base).length = s.count 47
  | [], _ => rfl
  | b :: bs, base => by
    by_cases hb : b = 47
    · simp only [slashIdx, hb, if_true, List.length_cons, slashIdx_length bs (base + 1),
        List.count_cons_self]
    · simp only [slashIdx, hb, if_false, slashIdx_length bs (base + 1)]
      rw [List.count_cons_of_ne (Ne.symm hb)]

theorem slashIdx_get : ∀ (s : List Nat) (base j n : Nat), (slashIdx s base)[j]? = some n →
    ∃ m, n = base + m ∧ s[m]? = some 47 ∧ (s.take m).count 47 = j
  | [], _, _, _, h => by simp [slashIdx] at h
  | b :: bs, base, j, n, h => by
    by_cases hb : b = 47
    · simp only [slashIdx, hb, if_true] at h
      cases j with
      | zero =>
        simp only [List.getElem?_cons_zero, Option.some.injEq] at h
        exact ⟨0, by omega, by simp [hb], by simp⟩
      | succ j =>
        simp only [List.getElem?_cons_succ] at h
        obtain ⟨m, h1, h2, h3⟩ := slashIdx_get bs (base + 1) j n h
        refine ⟨m + 1, by omega, by simpa using h2, ?_⟩
        rw [List.take_succ_cons, hb, List.count_cons_self, h3]
    · simp only [slashIdx, hb, if_false] at h
      obtain ⟨m, h1, h2, h3⟩ := slashIdx_get bs (base + 1) j n h
      refine ⟨m + 1, by omega, by simpa using h2, ?_⟩
      rw [List.take_succ_cons, List.count_cons_of_ne (Ne.symm hb), h3]

theorem prefixTokens_length (input : List Nat) : ∀ (ns : List Nat) (count : Nat),
    (prefixTokens input ns count).length = ns.length
  | [], _ => rfl
  | n :: ns, count => by simp only [prefixTokens, List.length_cons, prefixTokens_length input ns]

theorem prefixTokens_get (input : List Nat) : ∀ (ns : List Nat) (count j : Nat) (tok : Token),
    (prefixTokens input ns count)[j]? = some tok →
    ∃ n, ns[j]? = some n ∧ tok = ⟨input.take n, 0, n, count + j, .AlphaNumeric⟩
  | [], _, _, _, h => by simp [prefixTokens] at h
  | n :: ns, count, j, tok, h => by
    cases j with
    | zero =>
      simp only [prefixTokens, List.getElem?_cons_zero, Option.some.injEq] at h
      exact ⟨n, by simp, h.symm⟩
    | succ j =>
      simp only [prefixTokens, List.getElem?_cons_succ] at h
      obtain ⟨m, h1, h2⟩ := prefixTokens_get input ns (count + 1) j tok h
      refine ⟨m, by simpa using h1, ?_⟩
      rw [h2]
      congr 1
      omega

/-! ## The tokens -/

/-- The token at index `i` of the result: for `i` below the number of `'/'` of the
trimmed input `t` it is the prefix of `t` in front of a `'/'` with `i` bytes `'/'` before
it, and after those comes the token of `t` itself. -/
theorem Tokenize_get (fuel : Nat) (input : List Nat) (hfuel : (Trim input 47).length < fuel) :
    ∃ toks, Tokenize fuel input = some toks ∧
      toks.length = (Trim input 47).count 47 + 1 ∧
      ∀ i tok, toks[i]? = some tok →
        (i < (Trim input 47).count 47 ∧ ∃ n, n < (Trim input 47).length ∧
            (Trim input 47)[n]? = some 47 ∧ ((Trim input 47).take n).count 47 = i ∧
            tok = ⟨(Trim input 47).take n, 0, n, i + 1, .AlphaNumeric⟩) ∨
          (i = (Trim input 47).count 47 ∧
            tok = ⟨Trim input 47, 0, (Trim input 47).length, i + 1, .AlphaNumeric⟩) := by
  refine ⟨_, Tokenize_eq fuel input hfuel, ?_, ?_⟩
  · rw [List.length_append, prefixTokens_length, slashIdx_length]
    rfl
  · intro i tok h
    have hlen : (prefixTokens (Trim input 47) (slashIdx (Trim input 47) 0) 1).length =
        (Trim input 47).count 47 := by
      rw [prefixTokens_length, slashIdx_length]
    by_cases hi : i < (Trim input 47).count 47
    · left
      rw [List.getElem?_append_left (by rw [hlen]; exact hi)] at h
      obtain ⟨n, h1, h2⟩ := prefixTokens_get _ _ _ _ _ h
      obtain ⟨m, h3, h4, h5⟩ := slashIdx_get _ _ _ _ h1
      have hnm : n = m := by omega
      subst hnm
      have hlt : n < (Trim input 47).length := by
        obtain ⟨hlt, -⟩ := List.getElem?_eq_some.mp h4
        exact hlt
      refine ⟨hi, n, hlt, h4, h5, ?_⟩
      rw [h2]
      congr 1
      omega
    · right
      rw [List.getElem?_append_right (by rw [hlen]; omega), hlen] at h
      have hik : i = (Trim input 47).count 47 := by
        by_contra hne
        have : 1 ≤ i - (Trim input 47).count 47 := by omega
        rw [List.getElem?_eq_none (by simpa using this)] at h
        cases h
      refine ⟨hik, ?_⟩
      rw [hik, Nat.sub_self, List.getElem?_cons_zero, Option.some.injEq] at h
      rw [← h, slashIdx_length, hik]
      congr 1
      omega

/-- C23. Path hierarchy tokens: with `t` the input stripped of its leading and
trailing `'/'` (byte 47) and `k` the number of `'/'` in `t`, `Tokenize` returns, once
the fuel exceeds the length of `t`, exactly `k + 1` tokens. The token at index `i`
(counted from 0) has `Position` `i + 1`, `Start` 0 and `End` the length of its `Term`;
for `i < k` its `Term` is the prefix of `t` in front of the `'/'` that has `i` bytes
`'/'` before it, and the last token has `Term` `t`. -/
theorem Tokenize_tokens (fuel : Nat) (input : List Nat)
    (hfuel : (Trim input 47).length < fuel) :
    (∃ l1 l2, input = l1 ++ Trim input 47 ++ l2 ∧ (∀ b ∈ l1, b = 47) ∧ (∀ b ∈ l2, b = 47)) ∧
      (Trim input 47).head? ≠ some 47 ∧ (Trim input 47).getLast? ≠ some 47 ∧
      ∃ toks, Tokenize fuel input = some toks ∧
        toks.length = (Trim input 47).count 47 + 1 ∧
        ∀ i tok, toks[i]? = some tok →
          tok.Position = i + 1 ∧ tok.Start = 0 ∧ tok.End = tok.Term.length ∧
            (i < (Trim input 47).count 47 →
              ∃ rest, Trim input 47 = tok.Term ++ 47 :: rest ∧ tok.Term.count 47 = i) ∧
            (i = (Trim input 47).count 47 → tok.Term = Trim input 47) := by
  obtain ⟨h1, h2, h3⟩ := Trim_spec input 47
  refine ⟨h1, h2, h3, ?_⟩
  obtain ⟨toks, ht, hlen, hget⟩ := Tokenize_get fuel input hfuel
  refine ⟨toks, ht, hlen, ?_⟩
  intro i tok h
  rcases hget i tok h with ⟨hi, n, hlt, hn, hc, rfl⟩ | ⟨hi, rfl⟩
  · refine ⟨rfl, rfl, ?_, ?_, ?_⟩
    · simp only [List.length_take]
      omega
    · intro _
      refine ⟨(Trim input 47).drop (n + 1), ?_, hc⟩
      have hget : (Trim input 47)[n] = 47 := by
        obtain ⟨_, h5⟩ := List.getElem?_eq_some.mp hn
        exact h5
      conv_lhs => rw [← List.take_append_drop n (Trim input 47), List.drop_eq_getElem_cons hlt,
        hget]
    · intro hik
      omega
  · exact ⟨rfl, rfl, rfl, fun hlt => absurd hi (by omega), fun _ => rfl⟩

theorem Tokenize_tokens_witness :
    Tokenize 12 [47, 116, 109, 112, 47, 102, 111, 47] =
        some [⟨[116, 109, 112], 0, 3, 1, .AlphaNumeric⟩,
          ⟨[116, 109, 112, 47, 102, 111], 0, 6, 2, .AlphaNumeric⟩] ∧
      ∃ toks, Tokenize 12 [47, 116, 109, 112, 47, 102, 111, 47] = some toks ∧
        toks.length = (Trim [47, 116, 109, 112, 47, 102, 111, 47] 47).count 47 + 1 ∧
        ∀ i tok, toks[i]? = some tok →
          tok.Position = i + 1 ∧ tok.Start = 0 ∧ tok.End = tok.Term.length ∧
            (i < (Trim [47, 116, 109, 112, 47, 102, 111, 47] 47).count 47 →
              ∃ rest, Trim [47, 116, 109, 112, 47, 102, 111, 47] 47 = tok.Term ++ 47 :: rest ∧
                tok.Term.count 47 = i) ∧
            (i = (Trim [47, 116, 109, 112, 47, 102, 111, 47] 47).count 47 →
              tok.Term = Trim [47, 116, 109, 112, 47, 102, 111, 47] 47) :=
  ⟨rfl, (Tokenize_tokens 12 [47, 116, 109, 112, 47, 102, 111, 47] (by decide)).2.2.2⟩

theorem count_take_le (t : List Nat) (a b : Nat) (h : a ≤ b) :
    (t.take a).count 47 ≤ (t.take b).count 47 := by
  have : t.take a = (t.take b).take a := by
    rw [List.take_take, Nat.min_eq_left h]
  rw [this]
  exact (List.take_sublist a (t.take b)).count_le 47

/-- C30. Well-formed path tokens: for an input with at least one byte other than `'/'`
and no two adjacent bytes `'/'`, once the fuel exceeds the length of the input, every
token that `Tokenize` returns has a non-empty `Term` that neither begins nor ends with
`'/'`, and along the result each `Term` is shorter than the next and a prefix of it. -/
theorem Tokenize_wellformed (fuel : Nat) (input : List Nat)
    (hne : ∃ b ∈ input, b ≠ 47)
    (hadj : ∀ i, input[i]? = some 47 → input[i + 1]? ≠ some 47)
    (hfuel : input.length < fuel) :
    ∃ toks, Tokenize fuel input = some toks ∧
      (∀ tok ∈ toks, tok.Term ≠ [] ∧ tok.Term.head? ≠ some 47 ∧
        tok.Term.getLast? ≠ some 47) ∧
      List.Chain' (fun a b => a.Term.length < b.Term.length ∧ a.Term <+: b.Term) toks := by
  obtain ⟨⟨l1, l2, hsplit, hl1, hl2⟩, hhead, hlast⟩ := Trim_spec input 47
  have hlen : (Trim input 47).length ≤ input.length := by
    have := congrArg List.length hsplit
    simp only [List.length_append] at this
    omega
  have htne : Trim input 47 ≠ [] := by
    obtain ⟨b, hb, hb47⟩ := hne
    rw [hsplit, List.mem_append, List.mem_append] at hb
    rcases hb with (hb | hb) | hb
    · exact absurd (hl1 b hb) hb47
    · exact List.ne_nil_of_mem hb
    · exact absurd (hl2 b hb) hb47
  have hadj' : ∀ i, (Trim input 47)[i]? = some 47 → (Trim input 47)[i + 1]? ≠ some 47 := by
    intro i h1 h2
    have hi1 : i + 1 < (Trim input 47).length := (List.getElem?_eq_some.mp h2).1
    have e : ∀ j, j < (Trim input 47).length →
        input[l1.length + j]? = (Trim input 47)[j]? := by
      intro j hj
      conv_lhs => rw [hsplit]
      rw [List.append_assoc, List.getElem?_append_right (by omega)]
      simp [List.getElem?_append_left hj]
    refine hadj (l1.length + i) ?_ ?_
    · rw [e i (by omega)]; exact h1
    · rw [Nat.add_assoc, e (i + 1) hi1]; exact h2
  obtain ⟨toks, ht, hk, hget⟩ := Tokenize_get fuel input (by omega)
  refine ⟨toks, ht, ?_, ?_⟩
  · intro tok htok
    obtain ⟨i, hi⟩ := List.mem_iff_getElem?.mp htok
    rcases hget i tok hi with ⟨-, n, hlt, hn, -, rfl⟩ | ⟨-, rfl⟩
    · have hn0 : n ≠ 0 := by
        intro h0
        rw [h0, ← List.head?_eq_getElem?] at hn
        exact hhead hn
      refine ⟨?_, ?_, ?_⟩
      · simp only [ne_eq, List.take_eq_nil_iff, not_or]
        exact ⟨hn0, htne⟩
      · simp only [List.head?_take, hn0, if_false]
        exact hhead
      · simp only [List.getLast?_take, hn0, if_false]
        have hlt1 : n - 1 < (Trim input 47).length := by omega
        rw [List.getElem?_eq_getElem hlt1]
        simp only [Option.or_some, ne_eq, Option.some.injEq]
        intro h47
        have := hadj' (n - 1) (by rw [List.getElem?_eq_getElem hlt1, h47])
        rw [Nat.sub_add_cancel (Nat.pos_of_ne_zero hn0)] at this
        exact this hn
    · exact ⟨htne, hhead, hlast⟩
  · rw [List.chain'_iff_get]
    intro i hi
    have hi1 : i < toks.length := by omega
    have hi2 : i + 1 < toks.length := by omega
    have g1 : toks[i]? = some (toks.get ⟨i, hi1⟩) := by
      rw [List.getElem?_eq_getElem hi1]; rfl
    have g2 : toks[i + 1]? = some (toks.get ⟨i + 1, hi2⟩) := by
      rw [List.getElem?_eq_getElem hi2]; rfl
    rcases hget i _ g1 with ⟨hik, n, hlt, -, hc, hx⟩ | ⟨hik, -⟩
    · rcases hget (i + 1) _ g2 with ⟨-, n', hlt', -, hc', hx'⟩ | ⟨-, hx'⟩
      · rw [hx, hx']
        have hnn : n < n' := by
          by_contra hle
          have := count_take_le (Trim input 47) n' n (by omega)
          omega
        simp only [List.length_take]
        exact ⟨by omega, (List.prefix_take_le_iff hlt).mpr (Nat.le_of_lt hnn)⟩
      · rw [hx, hx']
        simp only [List.length_take]
        exact ⟨by omega, List.take_prefix _ _⟩
    · omega

theorem Tokenize_wellformed_witness :
    ∃ toks, Tokenize 9 [47, 97, 47, 98, 99, 47, 100] = some toks ∧
      (∀ tok ∈ toks, tok.Term ≠ [] ∧ tok.Term.head? ≠ some 47 ∧
        tok.Term.getLast? ≠ some 47) ∧
      List.Chain' (fun a b => a.Term.length < b.Term.length ∧ a.Term <+: b.Term) toks :=
  Tokenize_wellformed 9 [47, 97, 47, 98, 99, 47, 100] ⟨97, by decide, by decide⟩
    (by
      intro i h
      have hi : i < 7 := (List.getElem?_eq_some.mp h).1
      interval_cases i <;> simp_all)
    (by decide)

end Hierarchy

namespace Repo

/-! ## `MakeSelfOnTop` -/

theorem findIdx_split (users : List User) (f : User → Bool) (h : ∃ u ∈ users, f u = true) :
    ∃ l1 u l2, users = l1 ++ u :: l2 ∧ f u = true ∧ (∀ x ∈ l1, f x = false) ∧
      users.findIdx f = l1.length := by
  induction users with
  | nil => obtain ⟨u, hu, -⟩ := h; cases hu
  | cons a rest ih =>
    by_cases ha : f a = true
    · refine ⟨[], a, rest, rfl, ha, ?_, ?_⟩
      · intro x hx
        exact absurd hx (List.not_mem_nil x)
      · simp [List.findIdx_cons, ha]
    · have hrest : ∃ u ∈ rest, f u = true := by
        obtain ⟨u, hu, hfu⟩ := h
        rcases List.mem_cons.mp hu with rfl | hu
        · exact absurd hfu ha
        · exact ⟨u, hu, hfu⟩
      obtain ⟨l1, u, l2, h1, h2, h3, h4⟩ := ih hrest
      refine ⟨a :: l1, u, l2, by rw [h1]; rfl, h2, ?_, ?_⟩
      · intro x hx
        rcases List.mem_cons.mp hx with rfl | hx
        · simpa using ha
        · exact h3 x hx
      · have ha' : f a = false := by simpa using ha
        simp [List.findIdx_cons, ha', h4]

/-- C24. `MakeSelfOnTop`: when `doer` is not nil and a user of the list has the ID of
`doer`, the result has the length of the input, begins with `doer`, and continues with
the input users without the first one that has that ID, in their order; when `doer` is
nil or no user has its ID the result is the input list. -/
theorem MakeSelfOnTop_spec (users : List User) :
    (∀ d : User, (∃ u ∈ users, u.ID = d.ID) →
      ∃ l1 u l2, users = l1 ++ u :: l2 ∧ u.ID = d.ID ∧ (∀ x ∈ l1, x.ID ≠ d.ID) ∧
        MakeSelfOnTop (some d) users = d :: (l1 ++ l2) ∧
        (MakeSelfOnTop (some d) users).length = users.length) ∧
      (∀ d : User, (∀ u ∈ users, u.ID ≠ d.ID) → MakeSelfOnTop (some d) users = users) ∧
      MakeSelfOnTop none users = users := by
  refine ⟨?_, ?_, rfl⟩
  · intro d h
    obtain ⟨l1, u, l2, h1, h2, h3, h4⟩ := findIdx_split users (fun user => user.ID == d.ID)
      (by obtain ⟨u, hu, hid⟩ := h; exact ⟨u, hu, by simpa using hid⟩)
    have hany : users.any (fun user => user.ID == d.ID) = true := by
      rw [List.any_eq_true]
      obtain ⟨u, hu, hid⟩ := h
      exact ⟨u, hu, by simpa using hid⟩
    have hres : MakeSelfOnTop (some d) users = d :: (l1 ++ l2) := by
      unfold MakeSelfOnTop IndexFunc
      simp only [hany, if_true, h4]
      have hne : (((l1.length : Nat) : Int) != -1) = true := by
        simp only [bne_iff_ne, ne_eq]
        omega
      simp only [hne, if_true, Int.toNat_ofNat, Insert, Delete, List.take_zero, List.nil_append,
        List.drop_zero, h1]
      congr 1
      rw [List.take_left', List.drop_append_eq_append_drop]
      · simp
      · rfl
    refine ⟨l1, u, l2, h1, by simpa using h2, fun x hx => by simpa using h3 x hx, hres, ?_⟩
    rw [hres, h1]
    simp only [List.length_cons, List.length_append]
    omega
  · intro d h
    have hany : users.any (fun user => user.ID == d.ID) = false := by
      rw [Bool.eq_false_iff]
      intro h1
      rw [List.any_eq_true] at h1
      obtain ⟨u, hu, hid⟩ := h1
      exact h u hu (by simpa using hid)
    unfold MakeSelfOnTop IndexFunc
    simp [hany]

theorem MakeSelfOnTop_spec_witness :
    MakeSelfOnTop (some ⟨2, "doer"⟩) [⟨1, "a"⟩, ⟨2, "b"⟩, ⟨3, "c"⟩, ⟨2, "d"⟩] =
        [⟨2, "doer"⟩, ⟨1, "a"⟩, ⟨3, "c"⟩, ⟨2, "d"⟩] ∧
      MakeSelfOnTop (some ⟨2, "doer"⟩) [⟨1, "a"⟩] = [⟨1, "a"⟩] ∧
      MakeSelfOnTop none [⟨2, "b"⟩, ⟨1, "a"⟩] = [⟨2, "b"⟩, ⟨1, "a"⟩] :=
  ⟨by decide,
    (MakeSelfOnTop_spec [⟨1, "a"⟩]).2.1 ⟨2, "doer"⟩ (by decide),
    (MakeSelfOnTop_spec [⟨2, "b"⟩, ⟨1, "a"⟩]).2.2⟩

end Repo

namespace Cards

/-! ## `Card.Split` -/

theorem Rect_of_le (x0 y0 x1 y1 : Int) (hx : x0 ≤ x1) (hy : y0 ≤ y1) :
    Rect x0 y0 x1 y1 = ⟨⟨x0, y0⟩, ⟨x1, y1⟩⟩ := by
  unfold Rect
  simp only [gt_iff_lt, not_lt.mpr hx, not_lt.mpr hy, if_false]

/-- The bounds of a sub-image taken through a well-formed rectangle that lies inside
the bounds of the image: the rectangle itself, or the zero rectangle when it contains no
point. -/
theorem SubImage_inside (p : RGBA) (x0 y0 x1 y1 : Int)
    (h1 : p.Rect.Min.X ≤ x0) (h2 : x1 ≤ p.Rect.Max.X) (h3 : p.Rect.Min.Y ≤ y0)
    (h4 : y1 ≤ p.Rect.Max.Y) (hx : x0 ≤ x1) (hy : y0 ≤ y1) :
    (p.SubImage (Rect x0 y0 x1 y1)).Bounds =
      if x0 < x1 ∧ y0 < y1 then ⟨⟨x0, y0⟩, ⟨x1, y1⟩⟩ else ZR := by
  rw [Rect_of_le x0 y0 x1 y1 hx hy]
  unfold RGBA.SubImage RGBA.Bounds Rectangle.Intersect Rectangle.Empty
  simp only [not_lt.mpr h1, not_lt.mpr h3, gt_iff_lt, not_lt.mpr h2, not_lt.mpr h4, if_false,
    ge_iff_le, Bool.or_eq_true, decide_eq_true_eq]
  by_cases hc : x0 < x1 ∧ y0 < y1
  · have hn : ¬ (x1 ≤ x0 ∨ y1 ≤ y0) := by omega
    simp only [hn, if_false, hc, and_self, if_true]
  · have hn : x1 ≤ x0 ∨ y1 ≤ y0 := by omega
    simp only [hn, if_true, hc, if_false]
    have hz : ZR.Min.X ≥ ZR.Max.X ∨ ZR.Min.Y ≥ ZR.Max.Y := Or.inl (le_refl _)
    simp only [ge_iff_le] at hz
    simp only [hz, if_true]

theorem percentage_bounds (W p : Int) (hW : 0 ≤ W) (hp0 : 0 ≤ p) (hp1 : p ≤ 100) :
    (W * p).tdiv 100 = W * p / 100 ∧ 0 ≤ W * p / 100 ∧ W * p / 100 ≤ W := by
  have h0 : 0 ≤ W * p := mul_nonneg hW hp0
  have h1 : W * p ≤ W * 100 := mul_le_mul_of_nonneg_left hp1 hW
  refine ⟨Int.tdiv_eq_ediv h0 (by decide), by omega, by omega⟩

/-- C25 (counterexample). A card of 200 by 100 pixels without margin, split vertically
at 0 percent: the first card has width 0 and also height 0, not the inner height 100. -/
theorem Split_empty_part :
    (NewCard 0 200 100).Img.Bounds.Dx - 2 * (NewCard 0 200 100).Margin = 200 ∧
      (NewCard 0 200 100).Img.Bounds.Dy - 2 * (NewCard 0 200 100).Margin = 100 ∧
      ((NewCard 0 200 100).Split true 0).1.Width = 0 ∧
      ((NewCard 0 200 100).Split true 0).1.Height = 0 ∧
      ((NewCard 0 200 100).Split true 0).1.Height ≠ 100 := by
  decide

/-- C25 (amended). `Card.Split` partitions the card: for a card with a margin that is
not negative, inner width `W` and inner height `H` (the bounds of the image minus the
margin on each side, both at least 0) and a percentage `p` from 0 to 100, with
`a = floor(W * p / 100)` and `b = floor(H * p / 100)`: `Split(true, p)` returns a first
card of width `a` and a second of width `W - a`, both of height `H`, and
`Split(false, p)` a first card of height `b` and a second of height `H - b`, both of
width `W`, except that a part without any pixel (one of its two sizes is 0) is the empty
image, of width and height 0. `Width` and `Height` of each card are the sizes of the
bounds of its image. -/
theorem Split_sizes (c : Card) (p W H : Int) (hM : 0 ≤ c.Margin)
    (hWdef : W = c.Img.Bounds.Dx - 2 * c.Margin) (hHdef : H = c.Img.Bounds.Dy - 2 * c.Margin)
    (hW : 0 ≤ W) (hH : 0 ≤ H) (hp0 : 0 ≤ p) (hp1 : p ≤ 100) :
    ((c.Split true p).1.Width = (if 0 < W * p / 100 ∧ 0 < H then W * p / 100 else 0) ∧
      (c.Split true p).1.Height = (if 0 < W * p / 100 ∧ 0 < H then H else 0) ∧
      (c.Split true p).2.Width =
        (if W * p / 100 < W ∧ 0 < H then W - W * p / 100 else 0) ∧
      (c.Split true p).2.Height = (if W * p / 100 < W ∧ 0 < H then H else 0)) ∧
    ((c.Split false p).1.Height = (if 0 < W ∧ 0 < H * p / 100 then H * p / 100 else 0) ∧
      (c.Split false p).1.Width = (if 0 < W ∧ 0 < H * p / 100 then W else 0) ∧
      (c.Split false p).2.Height =
        (if 0 < W ∧ H * p / 100 < H then H - H * p / 100 else 0) ∧
      (c.Split false p).2.Width = (if 0 < W ∧ H * p / 100 < H then W else 0)) ∧
    (∀ v, (c.Split v p).1.Width = (c.Split v p).1.Img.Bounds.Dx ∧
      (c.Split v p).1.Height = (c.Split v p).1.Img.Bounds.Dy ∧
      (c.Split v p).2.Width = (c.Split v p).2.Img.Bounds.Dx ∧
      (c.Split v p).2.Height = (c.Split v p).2.Img.Bounds.Dy) := by
  obtain ⟨ha1, ha2, ha3⟩ := percentage_bounds W p hW hp0 hp1
  obtain ⟨hb1, hb2, hb3⟩ := percentage_bounds H p hH hp0 hp1
  simp only [RGBA.Bounds, Rectangle.Dx, Rectangle.Dy] at hWdef hHdef
  have hin : Rect (c.Img.Bounds.Min.X + c.Margin) (c.Img.Bounds.Min.Y + c.Margin)
      (c.Img.Bounds.Max.X - c.Margin) (c.Img.Bounds.Max.Y - c.Margin) =
      ⟨⟨c.Img.Rect.Min.X + c.Margin, c.Img.Rect.Min.Y + c.Margin⟩,
        ⟨c.Img.Rect.Max.X - c.Margin, c.Img.Rect.Max.Y - c.Margin⟩⟩ :=
    Rect_of_le _ _ _ _ (by simp only [RGBA.Bounds]; omega) (by simp only [RGBA.Bounds]; omega)
  have hdx : (c.Img.Rect.Max.X - c.Margin) - (c.Img.Rect.Min.X + c.Margin) = W := by omega
  have hdy : (c.Img.Rect.Max.Y - c.Margin) - (c.Img.Rect.Min.Y + c.Margin) = H := by omega
  refine ⟨?_, ?_, ?_⟩
  · have hs1 := SubImage_inside c.Img (c.Img.Rect.Min.X + c.Margin)
      (c.Img.Rect.Min.Y + c.Margin) (W * p / 100 + (c.Img.Rect.Min.X + c.Margin))
      (c.Img.Rect.Max.Y - c.Margin) (by omega) (by omega) (by omega) (by omega) (by omega)
      (by omega)
    have hs2 := SubImage_inside c.Img (W * p / 100 + (c.Img.Rect.Min.X + c.Margin))
      (c.Img.Rect.Min.Y + c.Margin) (c.Img.Rect.Max.X - c.Margin)
      (c.Img.Rect.Max.Y - c.Margin) (by omega) (by omega) (by omega) (by omega) (by omega)
      (by omega)
    simp only [Card.Split, hin, if_true, Rectangle.Dx, Rectangle.Dy, hdx, ha1, hs1, hs2]
    refine ⟨?_, ?_, ?_, ?_⟩ <;> split_ifs <;> (try simp only [ZR]) <;> omega
  · have hs1 := SubImage_inside c.Img (c.Img.Rect.Min.X + c.Margin)
      (c.Img.Rect.Min.Y + c.Margin) (c.Img.Rect.Max.X - c.Margin)
      (H * p / 100 + (c.Img.Rect.Min.Y + c.Margin)) (by omega) (by omega) (by omega)
      (by omega) (by omega) (by omega)
    have hs2 := SubImage_inside c.Img (c.Img.Rect.Min.X + c.Margin)
      (H * p / 100 + (c.Img.Rect.Min.Y + c.Margin)) (c.Img.Rect.Max.X - c.Margin)
      (c.Img.Rect.Max.Y - c.Margin) (by omega) (by omega) (by omega) (by omega) (by omega)
      (by omega)
    simp only [Card.Split, hin, Bool.false_eq_true, if_false, Rectangle.Dx, Rectangle.Dy, hdy, hb1, hs1,
      hs2]
    refine ⟨?_, ?_, ?_, ?_⟩ <;> split_ifs <;> (try simp only [ZR]) <;> omega
  · intro v
    cases v <;> exact ⟨rfl, rfl, rfl, rfl⟩

theorem Split_sizes_witness :
    (((NewCard 0 200 100).Split true 50).1.Width = 100 ∧
      ((NewCard 0 200 100).Split true 50).1.Height = 100 ∧
      ((NewCard 0 200 100).Split true 50).2.Width = 100 ∧
      ((NewCard 0 200 100).Split true 50).2.Height = 100) ∧
    (((NewCard 0 200 100).Split false 50).1.Height = 50 ∧
      ((NewCard 0 200 100).Split false 50).1.Width = 200 ∧
      ((NewCard 0 200 100).Split false 50).2.Height = 50 ∧
      ((NewCard 0 200 100).Split false 50).2.Width = 200) :=
  ⟨(Split_sizes (NewCard 0 200 100) 50 200 100 (by decide) (by decide) (by decide)
      (by decide) (by decide) (by decide) (by decide)).1,
    (Split_sizes (NewCard 0 200 100) 50 200 100 (by decide) (by decide) (by decide)
      (by decide) (by decide) (by decide) (by decide)).2.1⟩

end Cards
